import Mathlib

/-!
# json-flat-go: flatten / unflatten of nested JSON-like values

A shallow embedding of `src/flat.go` (package `flat`).

* `Value` is the tree a JSON decoder hands to the package: `nil`, booleans,
  numbers, strings, `map[string]interface{}` and `[]interface{}`.  Numbers are
  opaque to the package and are modelled by `Int`.  Go's nil map and nil slice,
  which a JSON decoder never builds, are not represented: `Value.map []` and
  `Value.seq []` are the empty literals.
* A Go map is written as the list of its entries; `range` over the map visits
  the entries in list order, so a statement that holds for every listing holds
  for every iteration order.  Maps that the package itself builds (`flatmap`,
  `temp`, `nested`) are kept with their keys in increasing `keyLt` order, so
  that two such maps are equal as Go maps exactly when the lists are equal.
* Go strings are modelled by `String` (valid UTF-8, compared character by
  character); the functions of `strings` and `strconv` that the package calls
  are written out below.
* A returned `error` and a run-time panic are the two constructors of `Failure`.
* `mergo.Merge` belongs to another package whose code is not at hand; `merge`
  follows the Merge-Policy of the specification, read together with the
  configuration that `unflatten` hands over (`Overwrite`) and with the test
  "do not overwrite" of `flat_test.go`.
-/

namespace Flat

/-! ## Values -/

/-- The dynamic values the package walks: the scalars, `map[string]interface{}` and
`[]interface{}`. -/
inductive Value where
  | null
  | bool (b : Bool)
  | num (n : Int)
  | str (s : String)
  | map (m : List (String × Value))
  | seq (xs : List Value)

mutual
/-- Structural equality test on values. -/
def Value.beq : Value → Value → Bool
  | .null, .null => true
  | .bool a, .bool b => a == b
  | .num a, .num b => a == b
  | .str a, .str b => a == b
  | .map a, .map b => Value.beqEntries a b
  | .seq a, .seq b => Value.beqList a b
  | _, _ => false
/-- Structural equality test on entry lists. -/
def Value.beqEntries : List (String × Value) → List (String × Value) → Bool
  | [], [] => true
  | (k, v) :: as, (k', v') :: bs => k == k' && Value.beq v v' && Value.beqEntries as bs
  | _, _ => false
/-- Structural equality test on value lists. -/
def Value.beqList : List Value → List Value → Bool
  | [], [] => true
  | v :: as, v' :: bs => Value.beq v v' && Value.beqList as bs
  | _, _ => false
end

mutual
theorem Value.beq_iff : ∀ (a b : Value), Value.beq a b = true ↔ a = b
  | .null, b => by cases b <;> simp [Value.beq]
  | .bool a, b => by cases b <;> simp [Value.beq]
  | .num a, b => by cases b <;> simp [Value.beq]
  | .str a, b => by cases b <;> simp [Value.beq]
  | .map a, b => by
      cases b <;> simp [Value.beq]
      exact Value.beqEntries_iff a _
  | .seq a, b => by
      cases b <;> simp [Value.beq]
      exact Value.beqList_iff a _
theorem Value.beqEntries_iff :
    ∀ (a b : List (String × Value)), Value.beqEntries a b = true ↔ a = b
  | [], b => by cases b <;> simp [Value.beqEntries]
  | (k, v) :: as, b => by
      cases b with
      | nil => simp [Value.beqEntries]
      | cons e bs =>
        obtain ⟨k', v'⟩ := e
        simp [Value.beqEntries, Value.beq_iff v v', Value.beqEntries_iff as bs, and_assoc]
theorem Value.beqList_iff : ∀ (a b : List Value), Value.beqList a b = true ↔ a = b
  | [], b => by cases b <;> simp [Value.beqList]
  | v :: as, b => by
      cases b with
      | nil => simp [Value.beqList]
      | cons v' bs =>
        simp [Value.beqList, Value.beq_iff v v', Value.beqList_iff as bs]
end

instance : DecidableEq Value := fun a b => decidable_of_iff _ (Value.beq_iff a b)

/-- The two ways a call can fail: a returned `error`, or a run-time panic. -/
inductive Failure where
  | err (msg : String)
  | panic (msg : String)
  deriving DecidableEq

instance : DecidableEq (Except Failure Value)
  | .ok a, .ok b => decidable_of_iff (a = b) (by constructor <;> intro h <;> [rw [h]; injection h])
  | .error a, .error b =>
    decidable_of_iff (a = b) (by constructor <;> intro h <;> [rw [h]; injection h])
  | .ok _, .error _ => isFalse (by intro h; cases h)
  | .error _, .ok _ => isFalse (by intro h; cases h)

instance : DecidableEq (Except Failure (List (String × Value)))
  | .ok a, .ok b => decidable_of_iff (a = b) (by constructor <;> intro h <;> [rw [h]; injection h])
  | .error a, .error b =>
    decidable_of_iff (a = b) (by constructor <;> intro h <;> [rw [h]; injection h])
  | .ok _, .error _ => isFalse (by intro h; cases h)
  | .error _, .ok _ => isFalse (by intro h; cases h)

/-! ## Go maps as key-ordered entry lists -/

/-- Lexicographic comparison of character lists. -/
def charsLt : List Char → List Char → Bool
  | _, [] => false
  | [], _ :: _ => true
  | a :: as, b :: bs => decide (a.toNat < b.toNat) || (decide (a = b) && charsLt as bs)

/-- The order in which the entries of a constructed map are listed. -/
def keyLt (a b : String) : Bool := charsLt a.data b.data

/-- A Go map with string keys and `interface{}` values. -/
abbrev GoMap := List (String × Value)

/-- Read or write one key: `f none` is stored when `k` is absent, `f (some old)` replaces
the value `old` found under `k`. -/
def mapUpsert (f : Option Value → Value) (k : String) : GoMap → GoMap
  | [] => [(k, f none)]
  | (k', o) :: rest =>
    if keyLt k k' then (k, f none) :: (k', o) :: rest
    else if k = k' then (k', f (some o)) :: rest
    else (k', o) :: mapUpsert f k rest

/-- What a merge stores under a key: `w` when the key is new, `f old` when the key holds
`old`. -/
def storeWith (w : Value) (f : Value → Value) : Option Value → Value
  | none => w
  | some old => f old

/-- Go's `m[k] = v`. -/
def mapSet (k : String) (v : Value) (m : GoMap) : GoMap := mapUpsert (fun _ => v) k m

/-! ## The parts of `strings` and `strconv` that are used -/

/-- Worker of `stringsReplace` for a non-empty `old`: `skip` counts the characters of a
match that are still to be dropped. -/
def replaceGo (old new : List Char) : Nat → List Char → List Char
  | _, [] => []
  | skip + 1, _ :: cs => replaceGo old new skip cs
  | 0, c :: cs =>
    if old.isPrefixOf (c :: cs) then new ++ replaceGo old new (old.length - 1) cs
    else c :: replaceGo old new 0 cs

/-- Go's `strings.Replace(s, old, new, -1)`: every non-overlapping occurrence of `old`,
found from the left, becomes `new`; an empty `old` matches before every character and
at the end. -/
def stringsReplace (s old new : String) : String :=
  if old.data = [] then ⟨new.data ++ s.data.flatMap (fun c => c :: new.data)⟩
  else ⟨replaceGo old.data new.data 0 s.data⟩

/-- Worker of `stringsSplit` for a non-empty `sep`: `cur` is the piece being read. -/
def splitGo (sep : List Char) : Nat → List Char → List Char → List String
  | _, cur, [] => [⟨cur⟩]
  | skip + 1, cur, _ :: cs => splitGo sep skip cur cs
  | 0, cur, c :: cs =>
    if sep.isPrefixOf (c :: cs) then ⟨cur⟩ :: splitGo sep (sep.length - 1) [] cs
    else splitGo sep 0 (cur ++ [c]) cs

/-- Go's `strings.Split(s, sep)`: the pieces between the non-overlapping occurrences of
`sep`; an empty `sep` explodes `s` into its characters. -/
def stringsSplit (s sep : String) : List String :=
  if sep.data = [] then s.data.map (fun c => ⟨[c]⟩)
  else splitGo sep.data 0 [] s.data

/-- Go's `strings.HasPrefix`. -/
def stringsHasPrefix (s pre : String) : Bool := pre.data.isPrefixOf s.data

/-- Go's `strconv.Itoa` on a slice index (never negative). -/
def strconvItoa (i : Nat) : String := ⟨Nat.toDigits 10 i⟩

/-- The number written by a string of decimal digits. -/
def digitsVal (cs : List Char) : Nat := cs.foldl (fun n c => 10 * n + (c.toNat - 48)) 0

/-- Go's `strconv.Atoi` on a 64-bit platform: an optional sign, then one or more decimal
digits, the value within the range of `int`; `none` stands for the returned error. -/
def strconvAtoi (s : String) : Option Int :=
  let body : Bool × List Char :=
    match s.data with
    | '-' :: r => (true, r)
    | '+' :: r => (false, r)
    | r => (false, r)
  if body.2.isEmpty || !(body.2.all Char.isDigit) then none
  else
    let n : Nat := digitsVal body.2
    let v : Int := if body.1 then -(n : Int) else (n : Int)
    if v < -(2 : Int) ^ 63 ∨ (2 : Int) ^ 63 ≤ v then none else some v

/-! ## Options -/

/-- The flatten options (`Options` in `flat.go`). -/
structure Options where
  Delimiter : String
  Safe : Bool
  MaxDepth : Int
  ArrayDelimiter : String
  SliceDeepMerge : Bool
  OverwriteNilInMaps : Bool
  deriving DecidableEq

/-- The options `Flatten` and `Unflatten` build when handed a nil pointer. -/
def nilOptions : Options :=
  { Delimiter := ".", Safe := false, MaxDepth := 0, ArrayDelimiter := "",
    SliceDeepMerge := false, OverwriteNilInMaps := false }

/-- `getArrayDelimiters`: the bracket pair of a named array delimiter, or an error. -/
def getArrayDelimiters (str : String) : Except Failure (String × String) :=
  if str = "PARENS" then .ok ("(", ")")
  else if str = "BRACKETS" then .ok ("[", "]")
  else if str = "CURLY_BRACES" then .ok ("\x7b", "\x7d")
  else .error (.err "array delimiter not supported")

/-! ## Flatten -/

/-- `update`: every entry of `src` is written into `dst`. -/
def update (dst src : GoMap) : GoMap :=
  src.foldl (fun acc e => mapSet e.1 e.2 acc) dst

/-- The key under which element `i` of a sequence at `pfx` is flattened
(lines 87-99 of `flat.go`). -/
def seqKey (pfx : String) (i : Nat) (opts : Options) : String :=
  let ad : String × String :=
    match getArrayDelimiters opts.ArrayDelimiter with
    | .ok ad => ad
    | .error _ => ("", "")
  let newKey := ad.1 ++ strconvItoa i ++ ad.2
  if pfx ≠ "" ∧ opts.ArrayDelimiter ≠ "" then pfx ++ newKey
  else if pfx ≠ "" then pfx ++ opts.Delimiter ++ newKey
  else newKey

/-- The key under which the value of mapping key `k` at `pfx` is flattened
(lines 66-69 of `flat.go`). -/
def mapKey (pfx k : String) (opts : Options) : String :=
  if pfx ≠ "" then pfx ++ opts.Delimiter ++ k else k

mutual
/-- `flatten`: the recursive walk. -/
def flatten (pfx : String) (depth : Int) (nested : Value) (opts : Options) :
    Except Failure GoMap :=
  match nested with
  | .map m =>
    if opts.MaxDepth ≠ 0 ∧ depth ≥ opts.MaxDepth then .ok [(pfx, .map m)]
    else if m.isEmpty then .ok [(pfx, .map m)]
    else flattenMap pfx depth m opts []
  | .seq xs =>
    if opts.Safe then .ok [(pfx, .seq xs)]
    else if xs.isEmpty then .ok [(pfx, .seq xs)]
    else flattenSeq pfx depth 0 xs opts []
  | v => .ok [(pfx, v)]
/-- The `for k, v := range nested` loop of the mapping case, from the entries still to
visit and the `flatmap` built so far. -/
def flattenMap (pfx : String) (depth : Int) (todo : List (String × Value)) (opts : Options)
    (flatmap : GoMap) : Except Failure GoMap :=
  match todo with
  | [] => .ok flatmap
  | (k, v) :: rest =>
    match flatten (mapKey pfx k opts) (depth + 1) v opts with
    | .error fe => .error fe
    | .ok fm1 => flattenMap pfx depth rest opts (update flatmap fm1)
/-- The `for i, v := range nested` loop of the slice case, from index `i` on. -/
def flattenSeq (pfx : String) (depth : Int) (i : Nat) (todo : List Value) (opts : Options)
    (flatmap : GoMap) : Except Failure GoMap :=
  match todo with
  | [] => .ok flatmap
  | v :: rest =>
    match flatten (seqKey pfx i opts) (depth + 1) v opts with
    | .error fe => .error fe
    | .ok fm1 => flattenSeq pfx depth (i + 1) rest opts (update flatmap fm1)
end

/-- `Flatten`: a nil `opts` stands for delimiter `"."`. -/
def Flatten (nested : GoMap) (opts : Option Options) : Except Failure GoMap :=
  match opts with
  | none => flatten "" 0 (.map nested) nilOptions
  | some o => flatten "" 0 (.map nested) o

/-! ## Unflatten -/

/-- The `mergo.Config` that `unflatten` fills in (lines 139-146 of `flat.go`). -/
structure MergeConfig where
  Overwrite : Bool
  OverwriteNilInMaps : Bool
  SliceDeepMerge : Bool
  deriving DecidableEq

/-- The configuration `unflatten` hands to `mergo.Merge`. -/
def mergeConfig (opts : Options) : MergeConfig :=
  { Overwrite := !opts.SliceDeepMerge, OverwriteNilInMaps := opts.OverwriteNilInMaps,
    SliceDeepMerge := opts.SliceDeepMerge }

mutual
/-- Modelled from the spec: `mergo.Merge` (package `github.com/everisopennetworks/mergo`)
is called by `unflatten` but its code is not among the sources.  This is the Merge-Policy
of the spec, section 4.3, for an accumulated value `A` and an incoming value `B`, read
together with what the repository fixes about it.  Two mappings merge key by key.  Two
sequences merge by index when `sliceDeepMerge` is on.  A null `B` keeps `A` unless
`overwriteNilInMaps` is on, and a null `A` is filled by `B`.  A non-null scalar `A` is
kept when `B` is a mapping or a sequence: the spec, section 8, has a string scalar "not
destroyed by a structurally conflicting longer key", and the test "do not overwrite" of
`flat_test.go` expects the scalar whichever entry the loop visits first.  In every other
case `B` replaces `A` when `Overwrite` is on and `A` is kept when it is off; `unflatten`
hands over `Overwrite` on, and off together with `sliceDeepMerge` (lines 143-146 of
`flat.go`). -/
def merge (c : MergeConfig) : Value → Value → Value
  | .map a, .map b => .map (mergeMap c a b)
  | .seq a, .seq b =>
    if c.SliceDeepMerge then .seq (mergeSeq c a b)
    else if c.Overwrite then .seq b else .seq a
  | a, .null => if c.OverwriteNilInMaps then .null else a
  | .null, b => b
  | .map a, b => if c.Overwrite then b else .map a
  | .seq a, b => if c.Overwrite then b else .seq a
  | a, .map _ => a
  | a, .seq _ => a
  | a, b => if c.Overwrite then b else a
/-- Modelled from the spec: the mapping rule of the Merge-Policy (section 4.3): a key
present only in one side passes through unchanged, a key present in both recurses. -/
def mergeMap (c : MergeConfig) : GoMap → List (String × Value) → GoMap
  | a, [] => a
  | a, (k, w) :: rest =>
    mergeMap c (mapUpsert (storeWith w (fun old => merge c old w)) k a) rest
/-- Modelled from the spec: the sequence rule of the Merge-Policy (section 4.3) with
`sliceDeepMerge` on: overlapping indices recurse, the others pass through. -/
def mergeSeq (c : MergeConfig) : List Value → List Value → List Value
  | a, [] => a
  | [], b :: bs => b :: bs
  | a :: as, b :: bs => merge c a b :: mergeSeq c as bs
end

/-- `getArrayIndex`: the index written in a bracketed segment. -/
def getArrayIndex (key : String) (delim : String × String) : Except Failure Int :=
  if stringsHasPrefix key delim.1 then
    match strconvAtoi (stringsReplace (stringsReplace key delim.1 "") delim.2 "") with
    | some val => .ok val
    | none => .error (.err "key doesn't have int value")
  else .error (.err "key doesn't start with delimiter")

/-- One round of the loop of `uf` (lines 185-194): wrap `n` under the segment `key`.
`e` is the result of `getArrayDelimiters`, `ad` the pair it left behind.  Writing
`temp[idx]` panics for a negative `idx`, as does `make` for a negative length (also when
`idx + 1` wraps around); the memory that a large `idx` asks for is not modelled. -/
def ufStep (e : Except Failure (String × String)) (ad : String × String) (key : String)
    (n : Value) : Except Failure Value :=
  match e, getArrayIndex key ad with
  | .ok _, .ok idx =>
    if idx < 0 ∨ (2 : Int) ^ 63 ≤ idx + 1 then .error (.panic "index out of range")
    else .ok (.seq (List.replicate idx.toNat .null ++ [n]))
  | _, _ => .ok (.map [(key, n)])

/-- The loop of `uf`, which walks `keys` from the last segment to the first. -/
def ufLoop (e : Except Failure (String × String)) (ad : String × String) (v : Value) :
    List String → Except Failure Value
  | [] => .ok v
  | key :: rest =>
    match ufLoop e ad v rest with
    | .error f => .error f
    | .ok n => ufStep e ad key n

/-- `uf`: the single-path value that the flat entry `k -> v` stands for. -/
def uf (k : String) (v : Value) (opts : Options) : Except Failure Value :=
  let e := getArrayDelimiters opts.ArrayDelimiter
  let ad : String × String :=
    match e with
    | .ok ad => ad
    | .error _ => ("", "")
  let k' : String :=
    match e with
    | .ok _ => stringsReplace k ad.1 (opts.Delimiter ++ ad.1)
    | .error _ => k
  ufLoop e ad v (stringsSplit k' opts.Delimiter)

/-- The `for k, v := range flat` loop of `unflatten`, from the entries still to visit and
the `nested` map built so far. -/
def unflattenLoop (opts : Options) : List (String × Value) → GoMap → Except Failure GoMap
  | [], nested => .ok nested
  | (k, v) :: rest, nested =>
    match uf k v opts with
    | .error f => .error f
    | .ok (.map temp) => unflattenLoop opts rest (mergeMap (mergeConfig opts) nested temp)
    | .ok _ => .error (.panic "interface conversion: interface {} is not map[string]interface {}")

/-- `unflatten`.  `flat` lists the entries of the flat map in the order in which `range`
visits them; Go leaves that order open, so a statement about a flat map is made for
every listing of its entries. -/
def unflatten (flat : List (String × Value)) (opts : Options) : Except Failure GoMap :=
  unflattenLoop opts flat []

/-- `Unflatten`: a nil `opts` stands for delimiter `"."`. -/
def Unflatten (flat : List (String × Value)) (opts : Option Options) : Except Failure GoMap :=
  match opts with
  | none => unflatten flat nilOptions
  | some o => unflatten flat o

/-- The values that `flatten` stores as they are: everything but mappings and sequences. -/
def Value.isScalar : Value → Bool
  | .map _ => false
  | .seq _ => false
  | _ => true

/-- `Located opts pfx v key x`: the value `x` sits in `v` at a position reached through
mapping keys only (no sequence is entered), and `key` is the flat key of that position
when `v` itself is flattened under `pfx`. -/
inductive Located (opts : Options) : String → Value → String → Value → Prop
  | here (pfx : String) (v : Value) : Located opts pfx v pfx v
  | step (pfx : String) (m : List (String × Value)) (k : String) (v : Value) (key : String)
      (x : Value) : (k, v) ∈ m → Located opts (mapKey pfx k opts) v key x →
      Located opts pfx (.map m) key x

/-- The entries are listed in strictly increasing key order, which is how a map is
written down in this development. -/
def keysSorted : List (String × Value) → Bool
  | [] => true
  | [_] => true
  | a :: b :: rest => keyLt a.1 b.1 && keysSorted (b :: rest)

/-- Strictly increasing keys, as a relation between any two entries. -/
def Sorted (m : GoMap) : Prop := m.Pairwise (fun x y => keyLt x.1 y.1 = true)

/-- The single-path value for a path of mapping keys: `v` wrapped in one one-key mapping
per key, innermost last. -/
def nest : List String → Value → Value
  | [], v => v
  | key :: rest, v => .map [(key, nest rest v)]

mutual
/-- `Value.plain cs v`: `v` is built from mappings, scalars and empty sequences only, every
mapping is listed in increasing key order, and no mapping key contains a character of
`cs` (the characters of the delimiter). -/
def Value.plain (cs : List Char) : Value → Bool
  | .map m => keysSorted m && plainEntries cs m
  | .seq xs => xs.isEmpty
  | _ => true
/-- The entries of a plain mapping: keys free of the characters `cs`, plain values. -/
def plainEntries (cs : List Char) : List (String × Value) → Bool
  | [] => true
  | (k, v) :: rest =>
    k.data.all (fun x => !cs.contains x) && Value.plain cs v && plainEntries cs rest
end

mutual
/-- The positions at which `flatten` stores a value when it descends through mappings
only and nothing is cut off: every value that is not a non-empty mapping, with its path of
mapping keys below `p`. -/
def leaves (p : List String) : Value → List (List String × Value)
  | .map [] => [(p, .map [])]
  | .map (e :: m) => leavesEntries p (e :: m)
  | v => [(p, v)]
/-- The positions below the entries of a mapping at path `p`. -/
def leavesEntries (p : List String) : List (String × Value) → List (List String × Value)
  | [] => []
  | (k, v) :: rest => leaves (p ++ [k]) v ++ leavesEntries p rest
end

/-- The flat key of a path of mapping keys: `mapKey` applied key after key, from the empty
prefix. -/
def pathKey (opts : Options) (p : List String) : String :=
  p.foldl (fun pfx k => mapKey pfx k opts) ""

/-- What follows the first key in the flat key of a path. -/
def pathTail (d : String) : List String → String
  | [] => ""
  | k :: rest => d ++ k ++ pathTail d rest

/-- A path that its flat key determines: it starts with a non-empty key and none of its
keys contains a character of `cs` (the characters of the delimiter). -/
def GoodPath (cs : List Char) (p : List String) : Prop :=
  (∃ k rest, p = k :: rest ∧ k ≠ "") ∧ ∀ x ∈ p, ∀ ch ∈ x.data, ch ∉ cs

/-- Two paths that part ways: after a common start, each goes on with a different key. -/
def Diverge (p q : List String) : Prop :=
  ∃ r a b s t, p = r ++ a :: s ∧ q = r ++ b :: t ∧ a ≠ b

/-- One step of rebuilding a tree from its positions: merge the single-path value of the
position `e` into `acc`. -/
def mergeLeaf (c : MergeConfig) (acc : Value) (e : List String × Value) : Value :=
  merge c acc (nest e.1 e.2)

/-- One round of the loop of `unflatten` on values: merge what `uf` decodes into `acc`. -/
def mergeEntry (opts : Options) (acc : Value) (e : String × Value) : Value :=
  match uf e.1 e.2 opts with
  | .ok t => merge (mergeConfig opts) acc t
  | .error _ => acc

/-- No key is listed twice: the entries are those of a Go map, in any order. -/
def keysDistinct : List (String × Value) → Bool
  | [] => true
  | (k, _) :: rest => rest.all (fun e => e.1 != k) && keysDistinct rest

mutual
/-- `Value.tidy cs v`: `v` is built from mappings, scalars and empty sequences only, no
mapping lists a key twice, and no mapping key contains a character of `cs` (the characters
of the delimiter).  The entries of a mapping may be listed in any order. -/
def Value.tidy (cs : List Char) : Value → Bool
  | .map m => keysDistinct m && tidyEntries cs m
  | .seq xs => xs.isEmpty
  | _ => true
/-- The entries of a tidy mapping: keys free of the characters `cs`, tidy values. -/
def tidyEntries (cs : List Char) : List (String × Value) → Bool
  | [] => true
  | (k, v) :: rest =>
    k.data.all (fun x => !cs.contains x) && Value.tidy cs v && tidyEntries cs rest
end

mutual
/-- The same value with every mapping listed in increasing key order. -/
def Value.canon : Value → Value
  | .map m => .map (canonEntries m)
  | .seq xs => .seq (canonList xs)
  | v => v
/-- The entries of a mapping, each value in key order, listed in increasing key order. -/
def canonEntries : List (String × Value) → GoMap
  | [] => []
  | (k, v) :: rest => mapSet k (Value.canon v) (canonEntries rest)
/-- The elements of a sequence, each in key order. -/
def canonList : List Value → List Value
  | [] => []
  | v :: rest => Value.canon v :: canonList rest
end

/-- The options value `Options{}` of Go: every field at its zero value, the delimiter the
empty string. -/
def zeroOptions : Options :=
  { Delimiter := "", Safe := false, MaxDepth := 0, ArrayDelimiter := "",
    SliceDeepMerge := false, OverwriteNilInMaps := false }

/-- The values of a map that is one level deep: a scalar, an empty mapping or an empty
sequence. -/
def Value.isFlatLeaf : Value → Bool
  | .map m => m.isEmpty
  | .seq xs => xs.isEmpty
  | _ => true

mutual
/-- The leaf positions of a value, in the words of the specification (section 3): every
scalar, empty mapping and empty sequence, with its path below `p`; a mapping key is a path
segment as it is, an index is written in decimal.  It is what the result of `flatten` is
compared with. -/
def positions (p : List String) : Value → List (List String × Value)
  | .map [] => [(p, .map [])]
  | .map (e :: m) => positionsEntries p (e :: m)
  | .seq [] => [(p, .seq [])]
  | .seq (x :: xs) => positionsFrom p 0 (x :: xs)
  | v => [(p, v)]
/-- The positions below the entries of a mapping at path `p`. -/
def positionsEntries (p : List String) : List (String × Value) → List (List String × Value)
  | [] => []
  | (k, v) :: rest => positions (p ++ [k]) v ++ positionsEntries p rest
/-- The positions below the elements of a sequence at path `p`, from index `i` on. -/
def positionsFrom (p : List String) (i : Nat) : List Value → List (List String × Value)
  | [] => []
  | v :: rest => positions (p ++ [strconvItoa i]) v ++ positionsFrom p (i + 1) rest
end

mutual
/-- The number of scalar leaves, empty mappings and empty sequences of a value, counted
on the tree itself. -/
def Value.leafCount : Value → Nat
  | .map [] => 1
  | .map (e :: m) => leafCountEntries (e :: m)
  | .seq [] => 1
  | .seq (x :: xs) => leafCountList (x :: xs)
  | _ => 1
/-- The leaves below the entries of a mapping. -/
def leafCountEntries : List (String × Value) → Nat
  | [] => 0
  | (_, v) :: rest => v.leafCount + leafCountEntries rest
/-- The leaves below the elements of a sequence. -/
def leafCountList : List Value → Nat
  | [] => 0
  | v :: rest => v.leafCount + leafCountList rest
end

mutual
/-- `Value.keyed cs v`: no mapping of `v` lists a key twice and no mapping key contains a
character of `cs` (the characters of the delimiter).  Sequences are allowed, and the
entries of a mapping may be listed in any order. -/
def Value.keyed (cs : List Char) : Value → Bool
  | .map m => keysDistinct m && keyedEntries cs m
  | .seq xs => keyedList cs xs
  | _ => true
/-- The entries of a keyed mapping. -/
def keyedEntries (cs : List Char) : List (String × Value) → Bool
  | [] => true
  | (k, v) :: rest =>
    k.data.all (fun x => !cs.contains x) && Value.keyed cs v && keyedEntries cs rest
/-- The elements of a keyed sequence. -/
def keyedList (cs : List Char) : List Value → Bool
  | [] => true
  | v :: rest => Value.keyed cs v && keyedList cs rest
end

mutual
/-- The same tree with every non-empty sequence written as the mapping from the decimal
index to the element: the tree that the flat keys of NONE describe. -/
def Value.seqAsMap : Value → Value
  | .map m => .map (seqAsMapEntries m)
  | .seq [] => .seq []
  | .seq (x :: xs) => .map (seqAsMapFrom 0 (x :: xs))
  | v => v
/-- The entries of a mapping, sequences below them rewritten. -/
def seqAsMapEntries : List (String × Value) → List (String × Value)
  | [] => []
  | (k, v) :: rest => (k, v.seqAsMap) :: seqAsMapEntries rest
/-- The elements of a sequence from index `i` on, as entries keyed by the decimal index. -/
def seqAsMapFrom (i : Nat) : List Value → List (String × Value)
  | [] => []
  | v :: rest => (strconvItoa i, v.seqAsMap) :: seqAsMapFrom (i + 1) rest
end

/-- A segment of a path through a nested value: a mapping key or a sequence index. -/
inductive Segment
  | key (k : String)
  | idx (i : Nat)
  deriving DecidableEq

/-- The flat key with which `flatten` goes down one segment from the prefix `pfx`:
`mapKey` for a mapping key, `seqKey` for an index. -/
def segKey (opts : Options) (pfx : String) : Segment → String
  | .key k => mapKey pfx k opts
  | .idx i => seqKey pfx i opts

/-- The flat key that `flatten` builds on its way down a path, from the empty prefix. -/
def encodePath (opts : Options) (p : List Segment) : String :=
  p.foldl (segKey opts) ""

/-- One layer of a single-path value, in the words of the specification (section 4.4): a
mapping key wraps the value in a one-key mapping, an index `i` wraps it in a sequence of
length `i + 1` with the value at position `i` and null in every earlier slot. -/
def wrapSegment : Segment → Value → Value
  | .key k, n => .map [(k, n)]
  | .idx i, n => .seq (List.replicate i .null ++ [n])

/-- The single-path value of a path and a value, in the words of the specification
(section 4.4): one layer per segment, innermost last.  It is what `uf` is compared with. -/
def singlePath (p : List Segment) (v : Value) : Value :=
  p.foldr wrapSegment v

/-- The text of a segment in a flat key: the key itself, or the index between the
brackets `ad`. -/
def segText (ad : String × String) : Segment → String
  | .key k => k
  | .idx i => ad.1 ++ strconvItoa i ++ ad.2

/-- What follows the first key in the flat key of a path, with the brackets `ad`: a
mapping key is joined with the delimiter, a bracketed index with nothing. -/
def encodeTail (d : String) (ad : String × String) : List Segment → String
  | [] => ""
  | .key k :: rest => d ++ k ++ encodeTail d ad rest
  | .idx i :: rest => ad.1 ++ strconvItoa i ++ ad.2 ++ encodeTail d ad rest

/-- A segment that the decoder can read back: a mapping key without a character of the
delimiter `d` and without the opening bracket `o`, or an index `i` that fits a sequence
length (`i + 1` is an `int`). -/
def Segment.decodable (d o : List Char) : Segment → Bool
  | .key k => k.data.all (fun ch => !d.contains ch && !o.contains ch)
  | .idx i => decide (i + 1 < 2 ^ 63)

mutual
/-- `Value.shaped cs v`: no mapping of `v` that is reached through mapping keys lists a key
twice or has a key with a character of `cs` (the characters of the delimiter).  What a
sequence holds is left open: in safe mode a sequence is stored whole. -/
def Value.shaped (cs : List Char) : Value → Bool
  | .map m => keysDistinct m && shapedEntries cs m
  | _ => true
/-- The entries of a shaped mapping: keys free of the characters `cs`, shaped values. -/
def shapedEntries (cs : List Char) : List (String × Value) → Bool
  | [] => true
  | (k, v) :: rest =>
    k.data.all (fun x => !cs.contains x) && Value.shaped cs v && shapedEntries cs rest
end

/-- Two segments of one kind: two mapping keys or two indices. -/
def Segment.sameKind : Segment → Segment → Bool
  | .key _, .key _ => true
  | .idx _, .idx _ => true
  | _, _ => false

/-- A mapping key, as opposed to an index. -/
def Segment.isKey : Segment → Bool
  | .key _ => true
  | .idx _ => false

/-- Two paths that part ways inside one tree: after a common start, each goes on with a
different segment of the same kind (two keys of one mapping, two indices of one
sequence). -/
def Fork (p q : List Segment) : Prop :=
  ∃ r a b s t, p = r ++ a :: s ∧ q = r ++ b :: t ∧ a ≠ b ∧ a.sameKind b = true

/-- `Apart c p q`: the paths `p` and `q` part ways in a manner that the merge with the
configuration `c` can take in either order.  They fork; the common start goes through a
sequence only when `sliceDeepMerge` is on; and they fork at two indices only when,
besides, `overwriteNilInMaps` is off. -/
def Apart (c : MergeConfig) (p q : List Segment) : Prop :=
  ∃ r a b s t, p = r ++ a :: s ∧ q = r ++ b :: t ∧ a ≠ b ∧ a.sameKind b = true ∧
    (c.SliceDeepMerge = true ∨ ∀ z ∈ r, z.isKey = true) ∧
    (a.isKey = true ∨ (c.SliceDeepMerge = true ∧ c.OverwriteNilInMaps = false))

/-- A path that its bracketed flat key determines: it starts with a non-empty mapping key
and every segment can be read back (`Segment.decodable`). -/
def GoodSegs (d o : List Char) (p : List Segment) : Prop :=
  (∃ k rest, p = .key k :: rest ∧ k ≠ "") ∧ ∀ s ∈ p, s.decodable d o = true

/-- Options with a recognized bracket pair `o`, `c` and a delimiter that is not empty and
contains neither a bracket of the pair nor a digit. -/
def BracketSetup (opts : Options) (o c : Char) : Prop :=
  getArrayDelimiters opts.ArrayDelimiter = .ok (⟨[o]⟩, ⟨[c]⟩) ∧ opts.Delimiter.data ≠ [] ∧
    o ∉ opts.Delimiter.data ∧ c ∉ opts.Delimiter.data ∧
    ∀ ch ∈ opts.Delimiter.data, ch.isDigit = false

mutual
/-- The leaf positions of a value with their paths of segments: every scalar, empty mapping
and empty sequence, a mapping key and an index each being a segment of its own kind. -/
def segPositions (p : List Segment) : Value → List (List Segment × Value)
  | .map [] => [(p, .map [])]
  | .map (e :: m) => segPositionsEntries p (e :: m)
  | .seq [] => [(p, .seq [])]
  | .seq (x :: xs) => segPositionsFrom p 0 (x :: xs)
  | v => [(p, v)]
/-- The leaf positions below the entries of a mapping at path `p`. -/
def segPositionsEntries (p : List Segment) :
    List (String × Value) → List (List Segment × Value)
  | [] => []
  | (k, v) :: rest => segPositions (p ++ [.key k]) v ++ segPositionsEntries p rest
/-- The leaf positions below the elements of a sequence at path `p`, from index `i` on. -/
def segPositionsFrom (p : List Segment) (i : Nat) :
    List Value → List (List Segment × Value)
  | [] => []
  | v :: rest => segPositions (p ++ [.idx i]) v ++ segPositionsFrom p (i + 1) rest
end

mutual
/-- `Value.bracketed d o v`: no mapping of `v` lists a key twice, no mapping key contains a
character of the delimiter `d` or the opening bracket `o`, and the length of every
sequence is an `int`. -/
def Value.bracketed (d o : List Char) : Value → Bool
  | .map m => keysDistinct m && bracketedEntries d o m
  | .seq xs => decide (xs.length < 2 ^ 63) && bracketedList d o xs
  | _ => true
/-- The entries of a bracketed mapping. -/
def bracketedEntries (d o : List Char) : List (String × Value) → Bool
  | [] => true
  | (k, v) :: rest =>
    (Segment.key k).decodable d o && Value.bracketed d o v && bracketedEntries d o rest
/-- The elements of a bracketed sequence. -/
def bracketedList (d o : List Char) : List Value → Bool
  | [] => true
  | v :: rest => Value.bracketed d o v && bracketedList d o rest
end

mutual
/-- The positions at which `flatten` stores a value in safe mode.  It descends through
mappings only, from the depth `depth` at the path `p`; a sequence is stored whole, and so
is a non-empty mapping met at a depth that `maxDepth = n` cuts off. -/
def cutLeaves (n depth : Int) (p : List String) : Value → List (List String × Value)
  | .map [] => [(p, .map [])]
  | .map (e :: m) =>
    if n ≠ 0 ∧ depth ≥ n then [(p, .map (e :: m))] else cutLeavesEntries n depth p (e :: m)
  | v => [(p, v)]
/-- The positions below the entries of a mapping at path `p` and depth `depth`. -/
def cutLeavesEntries (n depth : Int) (p : List String) :
    List (String × Value) → List (List String × Value)
  | [] => []
  | (k, v) :: rest =>
    cutLeaves n (depth + 1) (p ++ [k]) v ++ cutLeavesEntries n depth p rest
end

/-! ## The key order is a strict total order -/

theorem charsLt_irrefl : ∀ a : List Char, charsLt a a = false
  | [] => rfl
  | a :: as => by simp [charsLt, charsLt_irrefl as]

theorem char_eq_of_toNat_eq {a b : Char} (h : a.toNat = b.toNat) : a = b := by
  apply Char.ext
  apply UInt32.ext
  exact h

theorem charsLt_trans : ∀ {a b c : List Char}, charsLt a b = true → charsLt b c = true →
    charsLt a c = true
  | _, [], _, h, _ => by cases ‹List Char› <;> simp [charsLt] at h
  | _, _ :: _, [], _, h => by simp [charsLt] at h
  | [], _ :: _, _ :: _, _, _ => by simp [charsLt]
  | a :: as, b :: bs, c :: cs, h1, h2 => by
    simp only [charsLt, Bool.or_eq_true, decide_eq_true_eq, Bool.and_eq_true] at h1 h2 ⊢
    rcases h1 with h1 | ⟨h1, h1'⟩
    · rcases h2 with h2 | ⟨h2, _⟩
      · exact Or.inl (by omega)
      · subst h2; exact Or.inl h1
    · subst h1
      rcases h2 with h2 | ⟨h2, h2'⟩
      · exact Or.inl h2
      · exact Or.inr ⟨h2, charsLt_trans h1' h2'⟩

theorem charsLt_total : ∀ {a b : List Char}, a ≠ b → charsLt a b = true ∨ charsLt b a = true
  | [], [], h => absurd rfl h
  | [], _ :: _, _ => Or.inl rfl
  | _ :: _, [], _ => Or.inr rfl
  | a :: as, b :: bs, h => by
    simp only [charsLt, Bool.or_eq_true, decide_eq_true_eq, Bool.and_eq_true]
    rcases Nat.lt_trichotomy a.toNat b.toNat with hlt | heq | hgt
    · exact Or.inl (Or.inl hlt)
    · have hab : a = b := char_eq_of_toNat_eq heq
      subst hab
      have h' : as ≠ bs := fun e => h (by rw [e])
      rcases charsLt_total h' with h1 | h1
      · exact Or.inl (Or.inr ⟨rfl, h1⟩)
      · exact Or.inr (Or.inr ⟨rfl, h1⟩)
    · exact Or.inr (Or.inl hgt)

theorem keyLt_irrefl (a : String) : keyLt a a = false := charsLt_irrefl _

theorem keyLt_trans {a b c : String} (h1 : keyLt a b = true) (h2 : keyLt b c = true) :
    keyLt a c = true := charsLt_trans h1 h2

theorem keyLt_asymm {a b : String} (h1 : keyLt a b = true) : keyLt b a = false := by
  cases h : keyLt b a
  · rfl
  · have := keyLt_trans h1 h
    rw [keyLt_irrefl] at this
    cases this

theorem keyLt_total {a b : String} (h : a ≠ b) : keyLt a b = true ∨ keyLt b a = true :=
  charsLt_total (fun e => h (String.ext e))

theorem keyLt_ne {a b : String} (h : keyLt a b = true) : a ≠ b := by
  intro e; subst e; rw [keyLt_irrefl] at h; cases h

/-! ## Decimal rendering -/

theorem digitChar_val {d : Nat} (h : d < 10) :
    (Nat.digitChar d).toNat - 48 = d ∧ (Nat.digitChar d).isDigit = true := by
  interval_cases d <;> decide

theorem toDigitsCore_spec : ∀ (fuel n : Nat) (ds : List Char), n < fuel →
    ∃ pre : List Char, Nat.toDigitsCore 10 fuel n ds = pre ++ ds ∧ digitsVal pre = n ∧
      pre.all Char.isDigit = true ∧ pre ≠ []
  | 0, n, ds, h => by omega
  | fuel + 1, n, ds, h => by
    have hd := digitChar_val (Nat.mod_lt n (by decide : 10 > 0))
    by_cases h0 : n / 10 = 0
    · refine ⟨[Nat.digitChar (n % 10)], ?_, ?_, ?_, by simp⟩
      · simp [Nat.toDigitsCore, h0]
      · have : n % 10 = n := by omega
        simp only [digitsVal, List.foldl, hd.1]
        omega
      · simp [hd.2]
    · obtain ⟨pre, h1, h2, h3, _⟩ :=
        toDigitsCore_spec fuel (n / 10) (Nat.digitChar (n % 10) :: ds) (by omega)
      refine ⟨pre ++ [Nat.digitChar (n % 10)], ?_, ?_, ?_, by simp⟩
      · simp [Nat.toDigitsCore, h0, h1]
      · have h2' : List.foldl (fun n c => 10 * n + (c.toNat - 48)) 0 pre = n / 10 := h2
        simp only [digitsVal, List.foldl_append, List.foldl, hd.1, h2']
        omega
      · simp only [List.all_append, h3, List.all_cons, hd.2, List.all_nil, Bool.and_self]

theorem itoa_spec (n : Nat) :
    digitsVal (strconvItoa n).data = n ∧ (strconvItoa n).data.all Char.isDigit = true ∧
      (strconvItoa n).data ≠ [] := by
  obtain ⟨pre, h1, h2, h3, h4⟩ := toDigitsCore_spec (n + 1) n [] (by omega)
  have : (strconvItoa n).data = pre := by
    simp [strconvItoa, Nat.toDigits, h1]
  rw [this]
  exact ⟨h2, h3, h4⟩

theorem itoa_injective {a b : Nat} (h : strconvItoa a = strconvItoa b) : a = b := by
  rw [← (itoa_spec a).1, ← (itoa_spec b).1, h]

/-! ## Unfolding the walk -/

theorem flatten_map_eq (pfx : String) (depth : Int) (m : List (String × Value))
    (opts : Options) :
    flatten pfx depth (.map m) opts =
      if opts.MaxDepth ≠ 0 ∧ depth ≥ opts.MaxDepth then .ok [(pfx, .map m)]
      else if m.isEmpty then .ok [(pfx, .map m)]
      else flattenMap pfx depth m opts [] := by
  rw [flatten]

theorem flatten_seq_eq (pfx : String) (depth : Int) (xs : List Value) (opts : Options) :
    flatten pfx depth (.seq xs) opts =
      if opts.Safe then .ok [(pfx, .seq xs)]
      else if xs.isEmpty then .ok [(pfx, .seq xs)]
      else flattenSeq pfx depth 0 xs opts [] := by
  rw [flatten]

theorem flattenMap_cons (pfx : String) (depth : Int) (k : String) (v : Value)
    (rest : List (String × Value)) (opts : Options) (acc : GoMap) :
    flattenMap pfx depth ((k, v) :: rest) opts acc =
      match flatten (mapKey pfx k opts) (depth + 1) v opts with
      | .error fe => .error fe
      | .ok fm1 => flattenMap pfx depth rest opts (update acc fm1) := by
  rw [flattenMap]

theorem flattenSeq_cons (pfx : String) (depth : Int) (i : Nat) (v : Value)
    (rest : List Value) (opts : Options) (acc : GoMap) :
    flattenSeq pfx depth i (v :: rest) opts acc =
      match flatten (seqKey pfx i opts) (depth + 1) v opts with
      | .error fe => .error fe
      | .ok fm1 => flattenSeq pfx depth (i + 1) rest opts (update acc fm1) := by
  rw [flattenSeq]

/-! ## Membership in written maps -/

theorem mem_mapUpsert {f : Option Value → Value} {k : String} {e : String × Value} :
    ∀ {m : GoMap}, e ∈ mapUpsert f k m → e ∈ m ∨ e.1 = k
  | [], h => by
    simp only [mapUpsert, List.mem_singleton] at h
    exact Or.inr (by rw [h])
  | (k', o) :: rest, h => by
    simp only [mapUpsert] at h
    split_ifs at h with h1 h2
    · rcases List.mem_cons.1 h with h | h
      · exact Or.inr (by rw [h])
      · exact Or.inl h
    · rcases List.mem_cons.1 h with h | h
      · exact Or.inr (by rw [h, h2])
      · exact Or.inl (List.mem_cons_of_mem _ h)
    · rcases List.mem_cons.1 h with h | h
      · exact Or.inl (by rw [h]; exact List.mem_cons_self _ _)
      · rcases mem_mapUpsert h with h | h
        · exact Or.inl (List.mem_cons_of_mem _ h)
        · exact Or.inr h

theorem mem_mapSet {k : String} {v : Value} {e : String × Value} :
    ∀ {m : GoMap}, e ∈ mapSet k v m → e ∈ m ∨ e = (k, v)
  | [], h => by
    simp only [mapSet, mapUpsert, List.mem_singleton] at h
    exact Or.inr h
  | (k', o) :: rest, h => by
    simp only [mapSet, mapUpsert] at h
    split_ifs at h with h1 h2
    · rcases List.mem_cons.1 h with h | h
      · exact Or.inr h
      · exact Or.inl h
    · rcases List.mem_cons.1 h with h | h
      · exact Or.inr (by rw [h, h2])
      · exact Or.inl (List.mem_cons_of_mem _ h)
    · rcases List.mem_cons.1 h with h | h
      · exact Or.inl (by rw [h]; exact List.mem_cons_self _ _)
      · rcases mem_mapSet (m := rest) h with h | h
        · exact Or.inl (List.mem_cons_of_mem _ h)
        · exact Or.inr h

theorem mem_update {e : String × Value} :
    ∀ {src dst : GoMap}, e ∈ update dst src → e ∈ dst ∨ e ∈ src
  | [], dst, h => Or.inl h
  | (k, v) :: rest, dst, h => by
    have h' : e ∈ update (mapSet k v dst) rest := h
    rcases mem_update h' with h1 | h1
    · rcases mem_mapSet h1 with h2 | h2
      · exact Or.inl h2
      · exact Or.inr (by rw [h2]; exact List.mem_cons_self _ _)
    · exact Or.inr (List.mem_cons_of_mem _ h1)

/-! ## Safe mode never enters a sequence -/

mutual
theorem flatten_located (opts : Options) (hs : opts.Safe = true) :
    ∀ (v : Value) (pfx : String) (d : Int) (fm : GoMap), flatten pfx d v opts = .ok fm →
      ∀ e ∈ fm, Located opts pfx v e.1 e.2
  | .map m, pfx, d, fm, h => by
    rw [flatten_map_eq] at h
    split_ifs at h with h1 h2
    · injection h with h; subst h; intro e he
      rw [List.mem_singleton.1 he]; exact Located.here _ _
    · injection h with h; subst h; intro e he
      rw [List.mem_singleton.1 he]; exact Located.here _ _
    · exact flattenMap_located opts hs m m pfx d [] fm (fun _ hx => hx) h (by simp)
  | .seq xs, pfx, d, fm, h => by
    rw [flatten_seq_eq, if_pos hs] at h
    injection h with h; subst h; intro e he
    rw [List.mem_singleton.1 he]; exact Located.here _ _
  | .null, pfx, d, fm, h => by
    simp only [flatten] at h
    injection h with h; subst h; intro e he
    rw [List.mem_singleton.1 he]; exact Located.here _ _
  | .bool _, pfx, d, fm, h => by
    simp only [flatten] at h
    injection h with h; subst h; intro e he
    rw [List.mem_singleton.1 he]; exact Located.here _ _
  | .num _, pfx, d, fm, h => by
    simp only [flatten] at h
    injection h with h; subst h; intro e he
    rw [List.mem_singleton.1 he]; exact Located.here _ _
  | .str _, pfx, d, fm, h => by
    simp only [flatten] at h
    injection h with h; subst h; intro e he
    rw [List.mem_singleton.1 he]; exact Located.here _ _
theorem flattenMap_located (opts : Options) (hs : opts.Safe = true)
    (m : List (String × Value)) :
    ∀ (todo : List (String × Value)) (pfx : String) (d : Int) (acc fm : GoMap),
      (∀ x ∈ todo, x ∈ m) → flattenMap pfx d todo opts acc = .ok fm →
      (∀ e ∈ acc, Located opts pfx (.map m) e.1 e.2) →
      ∀ e ∈ fm, Located opts pfx (.map m) e.1 e.2
  | [], pfx, d, acc, fm, _, h, hacc => by
    simp only [flattenMap] at h
    injection h with h; subst h; exact hacc
  | (k, v) :: rest, pfx, d, acc, fm, hsub, h, hacc => by
    rw [flattenMap_cons] at h
    cases hv : flatten (mapKey pfx k opts) (d + 1) v opts with
    | error fe => rw [hv] at h; cases h
    | ok fm1 =>
      rw [hv] at h
      refine flattenMap_located opts hs m rest pfx d _ fm
        (fun x hx => hsub x (List.mem_cons_of_mem _ hx)) h ?_
      intro e he
      rcases mem_update he with he | he
      · exact hacc e he
      · exact Located.step pfx m k v e.1 e.2 (hsub _ (List.mem_cons_self _ _))
          (flatten_located opts hs v _ _ fm1 hv e he)
end

mutual
theorem flatten_depth_irrel (opts : Options) (h0 : opts.MaxDepth = 0) :
    ∀ (v : Value) (pfx : String) (d d' : Int), flatten pfx d v opts = flatten pfx d' v opts
  | .map m, pfx, d, d' => by
    rw [flatten_map_eq, flatten_map_eq]
    simp only [h0, ne_eq, not_true_eq_false, false_and, if_false]
    rw [flattenMap_depth_irrel opts h0 m pfx d d']
  | .seq xs, pfx, d, d' => by
    rw [flatten_seq_eq, flatten_seq_eq]
    rw [flattenSeq_depth_irrel opts h0 xs pfx d d']
  | .null, pfx, d, d' => by simp [flatten]
  | .bool _, pfx, d, d' => by simp [flatten]
  | .num _, pfx, d, d' => by simp [flatten]
  | .str _, pfx, d, d' => by simp [flatten]
theorem flattenMap_depth_irrel (opts : Options) (h0 : opts.MaxDepth = 0) :
    ∀ (m : List (String × Value)) (pfx : String) (d d' : Int) (acc : GoMap),
      flattenMap pfx d m opts acc = flattenMap pfx d' m opts acc
  | [], pfx, d, d', acc => by simp [flattenMap]
  | (k, v) :: rest, pfx, d, d', acc => by
    rw [flattenMap_cons, flattenMap_cons, flatten_depth_irrel opts h0 v _ (d + 1) (d' + 1)]
    cases flatten (mapKey pfx k opts) (d' + 1) v opts with
    | error e => rfl
    | ok fm => exact flattenMap_depth_irrel opts h0 rest pfx d d' _
theorem flattenSeq_depth_irrel (opts : Options) (h0 : opts.MaxDepth = 0) :
    ∀ (xs : List Value) (pfx : String) (d d' : Int) (i : Nat) (acc : GoMap),
      flattenSeq pfx d i xs opts acc = flattenSeq pfx d' i xs opts acc
  | [], pfx, d, d', i, acc => by simp [flattenSeq]
  | v :: rest, pfx, d, d', i, acc => by
    rw [flattenSeq_cons, flattenSeq_cons, flatten_depth_irrel opts h0 v _ (d + 1) (d' + 1)]
    cases flatten (seqKey pfx i opts) (d' + 1) v opts with
    | error e => rfl
    | ok fm => exact flattenSeq_depth_irrel opts h0 rest pfx d d' _ _
end

mutual
theorem flatten_safe_arrayDelimiter (opts : Options) (ad : String) (hs : opts.Safe = true) :
    ∀ (v : Value) (pfx : String) (d : Int),
      flatten pfx d v { opts with ArrayDelimiter := ad } = flatten pfx d v opts
  | .map m, pfx, d => by
    rw [flatten_map_eq, flatten_map_eq, flattenMap_safe_arrayDelimiter opts ad hs m pfx d []]
  | .seq xs, pfx, d => by
    rw [flatten_seq_eq, flatten_seq_eq]
    simp [hs]
  | .null, pfx, d => by simp [flatten]
  | .bool _, pfx, d => by simp [flatten]
  | .num _, pfx, d => by simp [flatten]
  | .str _, pfx, d => by simp [flatten]
theorem flattenMap_safe_arrayDelimiter (opts : Options) (ad : String) (hs : opts.Safe = true) :
    ∀ (m : List (String × Value)) (pfx : String) (d : Int) (acc : GoMap),
      flattenMap pfx d m { opts with ArrayDelimiter := ad } acc = flattenMap pfx d m opts acc
  | [], pfx, d, acc => by simp [flattenMap]
  | (k, v) :: rest, pfx, d, acc => by
    have hk : mapKey pfx k { opts with ArrayDelimiter := ad } = mapKey pfx k opts := rfl
    rw [flattenMap_cons, flattenMap_cons, hk, flatten_safe_arrayDelimiter opts ad hs v]
    cases flatten (mapKey pfx k opts) (d + 1) v opts with
    | error e => rfl
    | ok fm => exact flattenMap_safe_arrayDelimiter opts ad hs rest pfx d _
end

/-! ## Claims on the encoder -/

/-- C3. Empty containers are preserved: whatever the prefix, the depth and the options,
`flatten` of an empty mapping or of an empty sequence returns the one-entry map that
stores the empty container under the prefix; so `Flatten` of `{k: {}}` and of `{k: []}`
with the default options (delimiter `"."`) returns the input itself. -/
theorem empty_containers_preserved :
    (∀ (pfx : String) (depth : Int) (opts : Options),
      flatten pfx depth (.map []) opts = .ok [(pfx, .map [])] ∧
      flatten pfx depth (.seq []) opts = .ok [(pfx, .seq [])]) ∧
    (∀ k : String, Flatten [(k, .map [])] none = .ok [(k, .map [])] ∧
      Flatten [(k, .seq [])] none = .ok [(k, .seq [])] ∧
      Flatten [(k, .map [])] (some nilOptions) = .ok [(k, .map [])] ∧
      Flatten [(k, .seq [])] (some nilOptions) = .ok [(k, .seq [])]) := by
  have key : ∀ (pfx : String) (depth : Int) (opts : Options),
      flatten pfx depth (.map []) opts = .ok [(pfx, .map [])] ∧
      flatten pfx depth (.seq []) opts = .ok [(pfx, .seq [])] := by
    intro pfx depth opts
    constructor
    · rw [flatten_map_eq]; simp
    · rw [flatten_seq_eq]; simp
  refine ⟨key, fun k => ?_⟩
  have hk : mapKey "" k nilOptions = k := by simp [mapKey]
  have h1 : flatten "" 0 (.map [(k, .map [])]) nilOptions = .ok [(k, .map [])] := by
    rw [flatten_map_eq, if_neg (by simp [nilOptions]), if_neg (by simp), flattenMap_cons, hk,
      (key k _ nilOptions).1]
    simp [flattenMap, update, mapSet, mapUpsert]
  have h2 : flatten "" 0 (.map [(k, .seq [])]) nilOptions = .ok [(k, .seq [])] := by
    rw [flatten_map_eq, if_neg (by simp [nilOptions]), if_neg (by simp), flattenMap_cons, hk,
      (key k _ nilOptions).2]
    simp [flattenMap, update, mapSet, mapUpsert]
  exact ⟨h1, h2, h1, h2⟩

/-- C4. Depth cutoff for mappings: when `maxDepth` is positive and the depth has reached
it, `flatten` stores the mapping whole under the prefix; with delimiter `"."` and
`maxDepth = 2` the tree `{"a":{"b":{"c":1}}}` flattens to `{"a.b": {"c": 1}}`; and with
`maxDepth = 0` no mapping is cut off by depth: the result does not depend on the depth
and a non-empty mapping always goes through the loop over its entries. -/
theorem depth_cutoff_mapping :
    (∀ (opts : Options) (pfx : String) (d : Int) (m : List (String × Value)),
      0 < opts.MaxDepth → opts.MaxDepth ≤ d →
      flatten pfx d (.map m) opts = .ok [(pfx, .map m)]) ∧
    Flatten [("a", .map [("b", .map [("c", .num 1)])])]
        (some { nilOptions with MaxDepth := 2 }) = .ok [("a.b", .map [("c", .num 1)])] ∧
    (∀ (opts : Options) (pfx : String) (d d' : Int) (v : Value), opts.MaxDepth = 0 →
      flatten pfx d v opts = flatten pfx d' v opts) ∧
    (∀ (opts : Options) (pfx : String) (d : Int) (m : List (String × Value)),
      opts.MaxDepth = 0 → m ≠ [] →
      flatten pfx d (.map m) opts = flattenMap pfx d m opts []) := by
  refine ⟨?_, by decide, ?_, ?_⟩
  · intro opts pfx d m hn hd
    rw [flatten_map_eq, if_pos]
    exact ⟨by omega, hd⟩
  · intro opts pfx d d' v h0
    exact flatten_depth_irrel opts h0 v pfx d d'
  · intro opts pfx d m h0 hm
    rw [flatten_map_eq, if_neg (by simp [h0]), if_neg (by simpa using hm)]

/-- C4 at a concrete input: depth 5 with `maxDepth = 2`. -/
theorem depth_cutoff_mapping_witness :
    flatten "p" 5 (.map [("c", .num 1)]) { nilOptions with MaxDepth := 2 }
      = .ok [("p", .map [("c", .num 1)])] :=
  depth_cutoff_mapping.1 { nilOptions with MaxDepth := 2 } "p" 5 [("c", .num 1)]
    (by decide) (by decide)

/-! ## Array-index keys -/

theorem mapUpsert_perm (f : Option Value → Value) (k : String) :
    ∀ (m : GoMap), (∀ e ∈ m, e.1 ≠ k) → (mapUpsert f k m).Perm ((k, f none) :: m)
  | [], _ => by simp [mapUpsert]
  | (k', o) :: rest, h => by
    have hk : k' ≠ k := h (k', o) (List.mem_cons_self _ _)
    simp only [mapUpsert]
    split_ifs with h1 h2
    · exact List.Perm.refl _
    · exact absurd h2.symm hk
    · exact ((mapUpsert_perm f k rest
        (fun e he => h e (List.mem_cons_of_mem _ he))).cons (k', o)).trans (List.Perm.swap _ _ _)

theorem update_perm : ∀ (src dst : GoMap), (src.map Prod.fst).Nodup →
    (∀ e ∈ src, ∀ e' ∈ dst, e'.1 ≠ e.1) → (update dst src).Perm (dst ++ src)
  | [], dst, _, _ => by simp [update]
  | (k, v) :: rest, dst, hnd, hdis => by
    have hnd' := List.nodup_cons.1 hnd
    have h1 : (mapSet k v dst).Perm ((k, v) :: dst) :=
      mapUpsert_perm _ k dst (fun e he => hdis (k, v) (List.mem_cons_self _ _) e he)
    have h2 : (update (mapSet k v dst) rest).Perm (mapSet k v dst ++ rest) := by
      refine update_perm rest _ hnd'.2 ?_
      intro e he e' he'
      rcases mem_mapSet he' with h | h
      · exact hdis e (List.mem_cons_of_mem _ he) e' h
      · rw [h]; intro hke
        exact hnd'.1 (List.mem_map.2 ⟨e, he, hke.symm⟩)
    have h3 : update dst ((k, v) :: rest) = update (mapSet k v dst) rest := rfl
    rw [h3]
    exact h2.trans ((h1.append_right rest).trans List.perm_middle.symm)

theorem flatten_scalar {v : Value} (hv : v.isScalar = true) (pfx : String) (d : Int)
    (opts : Options) : flatten pfx d v opts = .ok [(pfx, v)] := by
  cases v <;> simp [Value.isScalar] at hv <;> simp [flatten]

theorem update_singleton (dst : GoMap) (k : String) (v : Value) :
    update dst [(k, v)] = mapSet k v dst := rfl

theorem flattenSeq_scalars (opts : Options) (pfx : String) (d : Int)
    (hinj : ∀ a b, seqKey pfx a opts = seqKey pfx b opts → a = b) :
    ∀ (xs : List Value) (i : Nat) (acc : GoMap), (∀ x ∈ xs, x.isScalar = true) →
      (∀ e ∈ acc, ∀ j, i ≤ j → e.1 ≠ seqKey pfx j opts) →
      ∃ fm, flattenSeq pfx d i xs opts acc = .ok fm ∧
        fm.Perm (acc ++ (List.enumFrom i xs).map (fun jv => (seqKey pfx jv.1 opts, jv.2)))
  | [], i, acc, _, _ => ⟨acc, by simp [flattenSeq], by simp⟩
  | v :: rest, i, acc, hsc, hacc => by
    have hv := hsc v (List.mem_cons_self _ _)
    have hacc' : ∀ e ∈ mapSet (seqKey pfx i opts) v acc, ∀ j, i + 1 ≤ j →
        e.1 ≠ seqKey pfx j opts := by
      intro e he j hj
      rcases mem_mapSet he with h | h
      · exact hacc e h j (by omega)
      · rw [h]; intro hk
        have := hinj _ _ hk
        omega
    obtain ⟨fm, h1, h2⟩ := flattenSeq_scalars opts pfx d hinj rest (i + 1) _
      (fun x hx => hsc x (List.mem_cons_of_mem _ hx)) hacc'
    refine ⟨fm, ?_, ?_⟩
    · rw [flattenSeq_cons, flatten_scalar hv]
      simpa [update_singleton] using h1
    · have h3 : (mapSet (seqKey pfx i opts) v acc).Perm ((seqKey pfx i opts, v) :: acc) :=
        mapUpsert_perm _ _ acc (fun e he => hacc e he i (le_refl _))
      refine h2.trans ?_
      simp only [List.enumFrom_cons, List.map_cons]
      exact (h3.append_right _).trans List.perm_middle.symm

theorem seqKey_none (opts : Options) (pfx : String) (i : Nat) (hA : opts.ArrayDelimiter = "")
    (hp : pfx ≠ "") : seqKey pfx i opts = pfx ++ opts.Delimiter ++ strconvItoa i := by
  simp [seqKey, hA, hp, getArrayDelimiters]

theorem seqKey_bracket (opts : Options) (pfx : String) (i : Nat) (ad : String × String)
    (hA : getArrayDelimiters opts.ArrayDelimiter = .ok ad)
    (hp : pfx ≠ "") : seqKey pfx i opts = pfx ++ ad.1 ++ strconvItoa i ++ ad.2 := by
  have hne : opts.ArrayDelimiter ≠ "" := by
    intro h; rw [h] at hA; simp [getArrayDelimiters] at hA
  simp [seqKey, hA, hp, hne, String.append_assoc]

theorem string_append_left_cancel {a b c : String} (h : a ++ b = a ++ c) : b = c := by
  apply String.ext
  have := congrArg String.data h
  simpa using this

theorem string_append_right_cancel {a b c : String} (h : b ++ a = c ++ a) : b = c := by
  apply String.ext
  have := congrArg String.data h
  simpa using this


theorem enumFrom_keys_nodup (key : Nat → String) (hinj : ∀ a b, key a = key b → a = b) :
    ∀ (xs : List Value) (i : Nat),
      (((List.enumFrom i xs).map (fun jv => (key jv.1, jv.2))).map Prod.fst).Nodup := by
  intro xs i
  have h : ((List.enumFrom i xs).map (fun jv => (key jv.1, jv.2))).map Prod.fst
      = (List.range' i xs.length).map key := by
    rw [← List.enumFrom_map_fst i xs, List.map_map, List.map_map]
    rfl
  rw [h]
  exact (List.nodup_range' i xs.length).map (fun a b hab => hinj a b hab)

theorem flatten_seq_scalars (opts : Options) (pfx : String) (d : Int) (xs : List Value)
    (hS : opts.Safe = false) (hx : xs ≠ [])
    (hinj : ∀ a b, seqKey pfx a opts = seqKey pfx b opts → a = b)
    (hsc : ∀ x ∈ xs, x.isScalar = true) :
    ∃ fm, flatten pfx d (.seq xs) opts = .ok fm ∧
      fm.Perm (xs.enum.map (fun jv => (seqKey pfx jv.1 opts, jv.2))) := by
  obtain ⟨fm, h1, h2⟩ := flattenSeq_scalars opts pfx d hinj xs 0 [] hsc (by simp)
  refine ⟨fm, ?_, by simpa [List.enum] using h2⟩
  rw [flatten_seq_eq, hS, if_neg (by simp), if_neg (by simpa using hx), h1]

/-- C6. Default array-index encoding: with `arrayDelimiter` NONE and `safe = false`, for a
non-empty key `k`, any delimiter `d` and a non-empty sequence of scalars, `Flatten` of
`{k: [v0, ..., vn-1]}` returns the map whose entries are exactly the `n` pairs
`k + d + decimal(i) -> vi`; with delimiter `"."`, `{"a":["x","y"]}` flattens to
`{"a.0": "x", "a.1": "y"}`. -/
theorem default_index_encoding :
    (∀ (opts : Options) (k : String) (xs : List Value),
      opts.ArrayDelimiter = "" → opts.Safe = false → 0 ≤ opts.MaxDepth → k ≠ "" → xs ≠ [] →
      (∀ x ∈ xs, x.isScalar = true) →
      ∃ fm, Flatten [(k, .seq xs)] (some opts) = .ok fm ∧
        fm.Perm (xs.enum.map fun iv => (k ++ opts.Delimiter ++ strconvItoa iv.1, iv.2))) ∧
    Flatten [("a", .seq [.str "x", .str "y"])] none
      = .ok [("a.0", .str "x"), ("a.1", .str "y")] := by
  refine ⟨?_, by decide⟩
  intro opts k xs hA hS hD hk hx hsc
  have hkey : ∀ i, seqKey k i opts = k ++ opts.Delimiter ++ strconvItoa i :=
    fun i => seqKey_none opts k i hA hk
  have hinj : ∀ a b, seqKey k a opts = seqKey k b opts → a = b := by
    intro a b h
    rw [hkey, hkey] at h
    exact itoa_injective (string_append_left_cancel h)
  obtain ⟨fm, h1, h2⟩ := flatten_seq_scalars opts k 1 xs hS hx hinj hsc
  have hnd : (fm.map Prod.fst).Nodup :=
    (h2.map Prod.fst).nodup_iff.2 (enumFrom_keys_nodup _ hinj xs 0)
  refine ⟨update [] fm, ?_, ?_⟩
  · have hmk : mapKey "" k opts = k := by simp [mapKey]
    show flatten "" 0 (.map [(k, .seq xs)]) opts = _
    rw [flatten_map_eq, if_neg (by omega), if_neg (by simp), flattenMap_cons, hmk]
    simp only [zero_add, h1, flattenMap]
  · have := update_perm fm [] hnd (by simp)
    simp only [List.nil_append] at this
    refine this.trans (h2.trans ?_)
    simp only [hkey]
    exact List.Perm.refl _

/-- C6 at a concrete input: three scalars under the key `"k"`, delimiter `"::"`. -/
theorem default_index_encoding_witness :
    ∃ fm, Flatten [("k", .seq [.num 7, .null, .bool true])]
        (some { nilOptions with Delimiter := "::", MaxDepth := 1 }) = .ok fm ∧
      fm.Perm ([.num 7, .null, .bool true].enum.map
        fun iv => ("k" ++ "::" ++ strconvItoa iv.1, iv.2)) :=
  default_index_encoding.1 { nilOptions with Delimiter := "::", MaxDepth := 1 } "k"
    [.num 7, .null, .bool true] rfl rfl (by decide) (by decide) (by decide) (by decide)

/-- C7. Bracketed array-index encoding: with `arrayDelimiter` PARENS, BRACKETS or
CURLY_BRACES and `safe = false`, element `i` of a sequence at a non-empty prefix `p` is
flattened under the key `p + open + decimal(i) + close`, with no delimiter in between:
this is the key the loop passes on for every element, and for a non-empty sequence of
scalars the result has exactly the entries `p + open + decimal(i) + close -> vi`; with
BRACKETS, `{"a":["x","y"]}` flattens to `{"a[0]": "x", "a[1]": "y"}`. -/
theorem bracket_index_encoding :
    (∀ (opts : Options) (o c pfx : String) (d : Int) (i : Nat) (v : Value) (rest : List Value)
        (acc : GoMap),
      (opts.ArrayDelimiter, o, c) ∈
        [("PARENS", "(", ")"), ("BRACKETS", "[", "]"), ("CURLY_BRACES", "\x7b", "\x7d")] →
      pfx ≠ "" →
      flattenSeq pfx d i (v :: rest) opts acc =
        match flatten (pfx ++ o ++ strconvItoa i ++ c) (d + 1) v opts with
        | .error fe => .error fe
        | .ok fm1 => flattenSeq pfx d (i + 1) rest opts (update acc fm1)) ∧
    (∀ (opts : Options) (o c pfx : String) (d : Int) (xs : List Value),
      (opts.ArrayDelimiter, o, c) ∈
        [("PARENS", "(", ")"), ("BRACKETS", "[", "]"), ("CURLY_BRACES", "\x7b", "\x7d")] →
      opts.Safe = false → pfx ≠ "" → xs ≠ [] → (∀ x ∈ xs, x.isScalar = true) →
      ∃ fm, flatten pfx d (.seq xs) opts = .ok fm ∧
        fm.Perm (xs.enum.map fun iv => (pfx ++ o ++ strconvItoa iv.1 ++ c, iv.2))) ∧
    Flatten [("a", .seq [.str "x", .str "y"])]
        (some { nilOptions with ArrayDelimiter := "BRACKETS" })
      = .ok [("a[0]", .str "x"), ("a[1]", .str "y")] := by
  have hpair : ∀ (opts : Options) (o c : String),
      (opts.ArrayDelimiter, o, c) ∈
        [("PARENS", "(", ")"), ("BRACKETS", "[", "]"), ("CURLY_BRACES", "\x7b", "\x7d")] →
      getArrayDelimiters opts.ArrayDelimiter = .ok (o, c) := by
    intro opts o c h
    simp only [List.mem_cons, Prod.mk.injEq, List.mem_singleton, List.mem_nil_iff,
      or_false] at h
    rcases h with ⟨h1, h2, h3⟩ | ⟨h1, h2, h3⟩ | ⟨h1, h2, h3⟩ <;>
      (rw [h1, h2, h3]; rfl)
  refine ⟨?_, ?_, by decide⟩
  · intro opts o c pfx d i v rest acc h hp
    have hk : seqKey pfx i opts = pfx ++ o ++ strconvItoa i ++ c :=
      seqKey_bracket opts pfx i (o, c) (hpair opts o c h) hp
    rw [flattenSeq_cons, hk]
  · intro opts o c pfx d xs h hS hp hx hsc
    have hkey : ∀ i, seqKey pfx i opts = pfx ++ o ++ strconvItoa i ++ c :=
      fun i => seqKey_bracket opts pfx i (o, c) (hpair opts o c h) hp
    have hinj : ∀ a b, seqKey pfx a opts = seqKey pfx b opts → a = b := by
      intro a b hab
      rw [hkey, hkey] at hab
      exact itoa_injective (string_append_left_cancel (string_append_right_cancel hab))
    obtain ⟨fm, h1, h2⟩ := flatten_seq_scalars opts pfx d xs hS hx hinj hsc
    refine ⟨fm, h1, ?_⟩
    simp only [hkey] at h2
    exact h2

/-- C7 at a concrete input: two scalars at the prefix `"p"` with PARENS. -/
theorem bracket_index_encoding_witness :
    ∃ fm, flatten "p" 4 (.seq [.num 7, .null])
        { nilOptions with ArrayDelimiter := "PARENS" } = .ok fm ∧
      fm.Perm ([.num 7, .null].enum.map fun iv => ("p" ++ "(" ++ strconvItoa iv.1 ++ ")", iv.2)) :=
  bracket_index_encoding.2.1 { nilOptions with ArrayDelimiter := "PARENS" } "(" ")" "p" 4
    [.num 7, .null] (by decide) rfl (by decide) (by decide) (by decide)

/-! ## The decoder never returns an error value -/

theorem ufStep_error (f : Failure) (ad : String × String) (key : String) (n : Value) :
    ufStep (.error f) ad key n = .ok (.map [(key, n)]) := by
  unfold ufStep
  cases getArrayIndex key ad <;> rfl

theorem ufStep_not_err (e : Except Failure (String × String)) (ad : String × String)
    (key : String) (n : Value) (msg : String) : ufStep e ad key n ≠ .error (.err msg) := by
  unfold ufStep
  cases e with
  | error f => cases getArrayIndex key ad <;> simp
  | ok p =>
    cases getArrayIndex key ad with
    | error f => simp
    | ok idx =>
      simp only
      split_ifs <;> simp

theorem ufLoop_not_err (e : Except Failure (String × String)) (ad : String × String)
    (v : Value) (msg : String) : ∀ keys : List String, ufLoop e ad v keys ≠ .error (.err msg)
  | [] => by simp [ufLoop]
  | key :: rest => by
    have ih := ufLoop_not_err e ad v msg rest
    rw [ufLoop]
    cases h : ufLoop e ad v rest with
    | error f =>
      simp only
      intro hf
      injection hf with hf
      subst hf
      exact ih h
    | ok n => exact ufStep_not_err e ad key n msg

/-- C10 as stated fails: with BRACKETS, the key `"a[x]"`, whose segment `[x]` opens with the
bracket and is no integer, is decoded without any error, and the key `"a[-1]"` stops the call
with a run-time panic rather than a returned error. -/
theorem malformed_index_not_reported :
    Unflatten [("a[x]", .num 1)] (some { nilOptions with ArrayDelimiter := "BRACKETS" })
      = .ok [("a", .map [("[x]", .num 1)])] ∧
    Unflatten [("a[-1]", .num 1)] (some { nilOptions with ArrayDelimiter := "BRACKETS" })
      = .error (.panic "index out of range") := by
  constructor <;> decide

/-- C10, amended. With a bracket `arrayDelimiter` configured, a segment that begins with the
opening bracket but does not parse as an integer is not an error: the loop of `uf` takes it
for a mapping key and wraps the value in a one-key mapping under the segment as written,
and `uf` never returns an error value. -/
theorem malformed_index_is_mapping_key :
    (∀ (opts : Options) (ad : String × String) (key : String) (n : Value),
      getArrayDelimiters opts.ArrayDelimiter = .ok ad →
      stringsHasPrefix key ad.1 = true →
      strconvAtoi (stringsReplace (stringsReplace key ad.1 "") ad.2 "") = none →
      ufStep (getArrayDelimiters opts.ArrayDelimiter) ad key n = .ok (.map [(key, n)])) ∧
    (∀ (k : String) (v : Value) (opts : Options) (msg : String),
      uf k v opts ≠ .error (.err msg)) ∧
    uf "a(1x).b" (.str "v") { nilOptions with ArrayDelimiter := "PARENS" }
      = .ok (.map [("a", .map [("(1x)", .map [("b", .str "v")])])]) := by
  refine ⟨?_, ?_, by decide⟩
  · intro opts ad key n hA hp hatoi
    have hidx : getArrayIndex key ad = .error (.err "key doesn't have int value") := by
      simp [getArrayIndex, hp, hatoi]
    rw [hA]
    simp [ufStep, hidx]
  · intro k v opts msg
    exact ufLoop_not_err _ _ _ _ _

/-- C10, amended, at a concrete input: the segment `[x]` with BRACKETS. -/
theorem malformed_index_is_mapping_key_witness :
    ufStep (getArrayDelimiters "BRACKETS") ("[", "]") "[x]" (.num 1)
      = .ok (.map [("[x]", .num 1)]) :=
  malformed_index_is_mapping_key.1 { nilOptions with ArrayDelimiter := "BRACKETS" } ("[", "]")
    "[x]" (.num 1) rfl (by decide) (by decide)

/-! ## Splitting at the delimiter -/

theorem isPrefixOf_cons_of_not_mem (sep cs : List Char) (x : Char) (hne : sep ≠ [])
    (hx : x ∉ sep) : sep.isPrefixOf (x :: cs) = false := by
  cases sep with
  | nil => exact absurd rfl hne
  | cons s0 st =>
    have h0 : (s0 == x) = false := by
      simpa using fun e : s0 = x => hx (by rw [← e]; exact List.mem_cons_self _ _)
    simp [List.isPrefixOf, h0]

theorem isPrefixOf_append_self (sep rest : List Char) : sep.isPrefixOf (sep ++ rest) = true := by
  induction sep with
  | nil => simp [List.isPrefixOf]
  | cons s0 st ih => simp [List.isPrefixOf, ih]

theorem splitGo_skip (sep rest : List Char) : ∀ (st cur : List Char),
    splitGo sep st.length cur (st ++ rest) = splitGo sep 0 cur rest
  | [], cur => by simp
  | x :: st, cur => by
    have := splitGo_skip sep rest st cur
    simp only [List.length_cons, List.cons_append, splitGo]
    exact this

theorem splitGo_free (sep : List Char) (hne : sep ≠ []) : ∀ (s cur : List Char),
    (∀ x ∈ s, x ∉ sep) → splitGo sep 0 cur s = [⟨cur ++ s⟩]
  | [], cur, _ => by simp [splitGo]
  | x :: cs, cur, h => by
    have hb := isPrefixOf_cons_of_not_mem sep cs x hne (h x (List.mem_cons_self _ _))
    simp only [splitGo, hb, Bool.false_eq_true, if_false]
    rw [splitGo_free sep hne cs _ (fun y hy => h y (List.mem_cons_of_mem _ hy))]
    simp

theorem splitGo_at_sep (sep : List Char) (hne : sep ≠ []) (rest : List Char) :
    ∀ (a cur : List Char), (∀ x ∈ a, x ∉ sep) →
      splitGo sep 0 cur (a ++ (sep ++ rest)) = ⟨cur ++ a⟩ :: splitGo sep 0 [] rest
  | [], cur, _ => by
    cases sep with
    | nil => exact absurd rfl hne
    | cons s0 st =>
      have hp := isPrefixOf_append_self (s0 :: st) rest
      simp only [List.nil_append, List.cons_append] at hp ⊢
      simp only [splitGo, hp, if_true, List.length_cons, Nat.add_sub_cancel, List.append_nil]
      rw [splitGo_skip (s0 :: st) rest st []]
  | x :: cs, cur, h => by
    have hb := isPrefixOf_cons_of_not_mem sep (cs ++ (sep ++ rest)) x hne
      (h x (List.mem_cons_self _ _))
    rw [List.cons_append]
    simp only [splitGo, hb, Bool.false_eq_true, if_false]
    rw [splitGo_at_sep sep hne rest cs _ (fun y hy => h y (List.mem_cons_of_mem _ hy))]
    simp

theorem split_single (d a : String) (hd : d.data ≠ []) (ha : ∀ x ∈ a.data, x ∉ d.data) :
    stringsSplit a d = [a] := by
  simp [stringsSplit, hd, splitGo_free d.data hd a.data [] ha]

theorem split_cons (d a rest : String) (hd : d.data ≠ []) (ha : ∀ x ∈ a.data, x ∉ d.data) :
    stringsSplit (a ++ d ++ rest) d = a :: stringsSplit rest d := by
  simp only [stringsSplit, hd, String.data_append, if_false, List.append_assoc]
  rw [splitGo_at_sep d.data hd rest.data a.data [] ha]
  simp

/-! ## Maps kept in key order -/

theorem keysSorted_iff : ∀ (m : GoMap), keysSorted m = true ↔ Sorted m
  | [] => by simp [keysSorted, Sorted]
  | [a] => by simp [keysSorted, Sorted]
  | a :: b :: rest => by
    have ih := keysSorted_iff (b :: rest)
    simp only [keysSorted, Bool.and_eq_true, ih, Sorted, List.pairwise_cons]
    constructor
    · rintro ⟨h1, h2, h3⟩
      refine ⟨?_, h2, h3⟩
      intro x hx
      rcases List.mem_cons.1 hx with hx | hx
      · rw [hx]; exact h1
      · exact keyLt_trans h1 (h2 x hx)
    · rintro ⟨h1, h2, h3⟩
      exact ⟨h1 b (List.mem_cons_self _ _), h2, h3⟩

theorem mapUpsert_sorted (f : Option Value → Value) (k : String) :
    ∀ (m : GoMap), Sorted m → Sorted (mapUpsert f k m)
  | [], _ => by simp [mapUpsert, Sorted]
  | (k', o) :: rest, h => by
    have h' := List.pairwise_cons.1 h
    simp only [mapUpsert]
    split_ifs with h1 h2
    · refine List.pairwise_cons.2 ⟨?_, h⟩
      intro x hx
      rcases List.mem_cons.1 hx with hx | hx
      · rw [hx]; exact h1
      · exact keyLt_trans h1 (h'.1 x hx)
    · exact List.pairwise_cons.2 ⟨h'.1, h'.2⟩
    · refine List.pairwise_cons.2 ⟨?_, mapUpsert_sorted f k rest h'.2⟩
      intro x hx
      rcases mem_mapUpsert hx with hx | hx
      · exact h'.1 x hx
      · rw [hx]
        rcases keyLt_total h2 with h3 | h3
        · rw [h3] at h1; exact absurd rfl h1
        · exact h3

theorem sorted_ext {m₁ m₂ : GoMap} (h₁ : Sorted m₁) (h₂ : Sorted m₂) (hp : m₁.Perm m₂) :
    m₁ = m₂ := by
  haveI : IsAntisymm (String × Value) (fun x y => keyLt x.1 y.1 = true) :=
    ⟨fun a b hab hba => by rw [keyLt_asymm hab] at hba; cases hba⟩
  exact List.eq_of_perm_of_sorted hp h₁ h₂

theorem mapUpsert_congr (f g : Option Value → Value) (k : String) (hfg : f none = g none) :
    ∀ (m : GoMap), (∀ e ∈ m, e.1 ≠ k) → mapUpsert f k m = mapUpsert g k m
  | [], _ => by simp [mapUpsert, hfg]
  | (k', o) :: rest, h => by
    have hk : k ≠ k' := fun e => h (k', o) (List.mem_cons_self _ _) e.symm
    have ih := mapUpsert_congr f g k hfg rest (fun e he => h e (List.mem_cons_of_mem _ he))
    simp only [mapUpsert, hfg, if_neg hk, ih]

/-! ## The mapping rule of the merge -/

theorem mergeMap_nil (c : MergeConfig) (a : GoMap) : mergeMap c a [] = a := by
  rw [mergeMap]

theorem mergeMap_cons (c : MergeConfig) (a : GoMap) (k : String) (w : Value)
    (rest : List (String × Value)) :
    mergeMap c a ((k, w) :: rest) =
      mergeMap c (mapUpsert (storeWith w (fun old => merge c old w)) k a) rest := by
  rw [mergeMap]

theorem merge_map_map (c : MergeConfig) (a b : List (String × Value)) :
    merge c (.map a) (.map b) = .map (mergeMap c a b) := by
  rw [merge]

theorem mergeMap_sorted (c : MergeConfig) : ∀ (b : List (String × Value)) (a : GoMap),
    Sorted a → Sorted (mergeMap c a b)
  | [], a, h => by rw [mergeMap_nil]; exact h
  | (k, w) :: rest, a, h => by
    rw [mergeMap_cons]
    exact mergeMap_sorted c rest _ (mapUpsert_sorted _ k a h)

theorem mergeMap_perm (c : MergeConfig) : ∀ (b : List (String × Value)) (a : GoMap),
    (b.map Prod.fst).Nodup → (∀ e ∈ b, ∀ e' ∈ a, e'.1 ≠ e.1) →
    (mergeMap c a b).Perm (a ++ b)
  | [], a, _, _ => by rw [mergeMap_nil]; simp
  | (k, w) :: rest, a, hnd, hdis => by
    have hnd' := List.nodup_cons.1 hnd
    rw [mergeMap_cons]
    have h1 := mapUpsert_perm (storeWith w (fun old => merge c old w)) k a
      (fun e he => hdis (k, w) (List.mem_cons_self _ _) e he)
    refine (mergeMap_perm c rest _ hnd'.2 ?_).trans
      ((h1.append_right rest).trans List.perm_middle.symm)
    intro e he e' he'
    rcases mem_mapUpsert he' with h | h
    · exact hdis e (List.mem_cons_of_mem _ he) e' h
    · rw [h]; intro hke
      exact hnd'.1 (List.mem_map.2 ⟨e, he, hke.symm⟩)

theorem sorted_nodup_keys {m : GoMap} (h : Sorted m) : (m.map Prod.fst).Nodup := by
  refine List.Pairwise.map _ (fun a b hab => ?_) h
  exact keyLt_ne hab

/-! ## Decoding a key without array brackets -/

theorem ufLoop_error (f : Failure) (ad : String × String) (v : Value) :
    ∀ keys : List String, ufLoop (.error f) ad v keys = .ok (nest keys v)
  | [] => rfl
  | key :: rest => by
    rw [ufLoop, ufLoop_error f ad v rest]
    exact ufStep_error f ad key _

theorem getArrayDelimiters_empty :
    getArrayDelimiters "" = .error (.err "array delimiter not supported") := rfl

theorem uf_plain (k : String) (v : Value) (opts : Options) (hA : opts.ArrayDelimiter = "") :
    uf k v opts = .ok (nest (stringsSplit k opts.Delimiter) v) := by
  unfold uf
  simp only [hA, getArrayDelimiters_empty]
  exact ufLoop_error _ _ _ _

theorem splitGo_ne_nil (sep : List Char) : ∀ (s cur : List Char) (skip : Nat),
    splitGo sep skip cur s ≠ []
  | [], cur, skip => by simp [splitGo]
  | x :: cs, cur, 0 => by
    simp only [splitGo]
    split_ifs
    · simp
    · exact splitGo_ne_nil sep cs _ 0
  | x :: cs, cur, skip + 1 => by
    simp only [splitGo]
    exact splitGo_ne_nil sep cs _ skip

theorem split_ne_nil (s d : String) (hd : d.data ≠ []) : stringsSplit s d ≠ [] := by
  simp only [stringsSplit, hd, if_false]
  exact splitGo_ne_nil _ _ _ _

/-! ## Single steps of the merge loop -/

theorem mapUpsert_nil (f : Option Value → Value) (k : String) :
    mapUpsert f k [] = [(k, f none)] := rfl

theorem mapUpsert_hit (f : Option Value → Value) (k : String) (o : Value) (rest : GoMap) :
    mapUpsert f k ((k, o) :: rest) = (k, f (some o)) :: rest := by
  simp [mapUpsert, keyLt_irrefl]

theorem unflattenLoop_step (opts : Options) (k : String) (v : Value)
    (rest : List (String × Value)) (nested temp : GoMap) (h : uf k v opts = .ok (.map temp)) :
    unflattenLoop opts ((k, v) :: rest) nested =
      unflattenLoop opts rest (mergeMap (mergeConfig opts) nested temp) := by
  rw [unflattenLoop, h]

theorem merge_scalar_kept (c : MergeConfig) (s : Value) (b : List (String × Value))
    (hs : s.isScalar = true) (hn : s ≠ .null) : merge c s (.map b) = s := by
  cases s <;> simp [Value.isScalar] at hs <;> first | exact absurd rfl hn | simp [merge]

theorem merge_scalar (c : MergeConfig) (a s : Value) (hO : c.Overwrite = true)
    (hs : s.isScalar = true) (hn : s ≠ .null) : merge c a s = s := by
  cases s <;> simp [Value.isScalar] at hs <;>
    first | exact absurd rfl hn | (cases a <;> simp [merge, hO])

theorem mergeMap_single_new (c : MergeConfig) (b : String) (y : Value) (m : GoMap)
    (hm : Sorted m) (hb : ∀ e ∈ m, e.1 ≠ b) : mergeMap c [(b, y)] m = mapSet b y m := by
  have hs1 : Sorted (mergeMap c [(b, y)] m) := mergeMap_sorted c m _ (by simp [Sorted])
  have hs2 : Sorted (mapSet b y m) := mapUpsert_sorted _ b m hm
  have hp1 : (mergeMap c [(b, y)] m).Perm ([(b, y)] ++ m) := by
    refine mergeMap_perm c m _ (sorted_nodup_keys hm) ?_
    intro e he e' he'
    rw [List.mem_singleton.1 he']
    exact fun h => hb e he h.symm
  have hp2 : (mapSet b y m).Perm ((b, y) :: m) := mapUpsert_perm _ b m hb
  exact sorted_ext hs1 hs2 (hp1.trans hp2.symm)

/-! ## Two flat entries under one key -/

/-- C8. Merge non-clobber: for keys `a`, `b` without the delimiter and mappings `m1`, `m2`
where `b` is not a key of `m2`, `Unflatten` of `{a + "." + b: m1, a: m2}` with the default
options returns `{a: m2 extended with b -> m1}`, whichever of the two entries is merged
first. -/
theorem merge_non_clobber (a b : String) (m1 m2 : List (String × Value))
    (ha : '.' ∉ a.data) (hb : '.' ∉ b.data) (hm2 : keysSorted m2 = true)
    (hbm : ∀ e ∈ m2, e.1 ≠ b) :
    Unflatten [(a ++ "." ++ b, .map m1), (a, .map m2)] none
      = .ok [(a, .map (mapSet b (.map m1) m2))] ∧
    Unflatten [(a, .map m2), (a ++ "." ++ b, .map m1)] none
      = .ok [(a, .map (mapSet b (.map m1) m2))] := by
  have hd : nilOptions.Delimiter.data ≠ [] := by decide
  have hfree : ∀ s : String, '.' ∉ s.data → ∀ x ∈ s.data, x ∉ nilOptions.Delimiter.data := by
    intro s hs x hx hmem
    have hx' : x = '.' := by simpa [nilOptions] using hmem
    exact hs (hx' ▸ hx)
  have hsplit1 : stringsSplit (a ++ "." ++ b) nilOptions.Delimiter = [a, b] := by
    have := split_cons nilOptions.Delimiter a b hd (hfree a ha)
    rw [split_single nilOptions.Delimiter b hd (hfree b hb)] at this
    exact this
  have hsplit2 : stringsSplit a nilOptions.Delimiter = [a] :=
    split_single nilOptions.Delimiter a hd (hfree a ha)
  have hu1 : uf (a ++ "." ++ b) (.map m1) nilOptions
      = .ok (.map [(a, .map [(b, .map m1)])]) := by
    rw [uf_plain _ _ _ rfl, hsplit1]; rfl
  have hu2 : uf a (.map m2) nilOptions = .ok (.map [(a, .map m2)]) := by
    rw [uf_plain _ _ _ rfl, hsplit2]; rfl
  have hsorted := (keysSorted_iff m2).1 hm2
  constructor
  · show unflattenLoop nilOptions _ [] = _
    rw [unflattenLoop_step _ _ _ _ _ _ hu1, unflattenLoop_step _ _ _ _ _ _ hu2]
    simp only [unflattenLoop, mergeMap_cons, mergeMap_nil, mapUpsert_nil, mapUpsert_hit,
      storeWith, merge_map_map]
    rw [mergeMap_single_new _ b _ m2 hsorted hbm]
  · show unflattenLoop nilOptions _ [] = _
    rw [unflattenLoop_step _ _ _ _ _ _ hu2, unflattenLoop_step _ _ _ _ _ _ hu1]
    simp only [unflattenLoop, mergeMap_cons, mergeMap_nil, mapUpsert_nil, mapUpsert_hit,
      storeWith, merge_map_map]
    rw [mapSet, mapUpsert_congr _ (fun _ => Value.map m1) b rfl m2 hbm]

/-- C8 at the input of the repository's test: `foo.bar` and `foo`, in both orders. -/
theorem merge_non_clobber_witness :
    Unflatten [("foo.bar", .map [("t", .num 123)]), ("foo", .map [("k", .num 456)])] none
      = .ok [("foo", .map [("bar", .map [("t", .num 123)]), ("k", .num 456)])] ∧
    Unflatten [("foo", .map [("k", .num 456)]), ("foo.bar", .map [("t", .num 123)])] none
      = .ok [("foo", .map [("bar", .map [("t", .num 123)]), ("k", .num 456)])] :=
  merge_non_clobber "foo" "bar" [("t", .num 123)] [("k", .num 456)] (by decide) (by decide)
    (by decide) (by decide)

theorem nest_cons_isMap (keys : List String) (v : Value) (h : keys ≠ []) :
    ∃ m, nest keys v = .map m := by
  cases keys with
  | nil => exact absurd rfl h
  | cons key rest => exact ⟨_, rfl⟩

/-! ## Flat keys of paths -/

theorem string_ne_empty_append {a : String} (b : String) (h : a ≠ "") : a ++ b ≠ "" := by
  intro e
  apply h
  have := congrArg String.data e
  simp only [String.data_append] at this
  apply String.ext
  simp only [List.append_eq_nil] at this
  exact this.1

theorem foldl_mapKey (opts : Options) : ∀ (rest : List String) (acc : String), acc ≠ "" →
    rest.foldl (fun pfx k => mapKey pfx k opts) acc = acc ++ pathTail opts.Delimiter rest
  | [], acc, _ => by simp [pathTail]
  | k :: rest, acc, h => by
    have h1 : mapKey acc k opts = acc ++ opts.Delimiter ++ k := by simp [mapKey, h]
    have h2 : acc ++ opts.Delimiter ++ k ≠ "" := by
      rw [String.append_assoc]; exact string_ne_empty_append _ h
    rw [List.foldl_cons, h1, foldl_mapKey opts rest _ h2, pathTail]
    simp only [String.append_assoc]

theorem pathKey_cons (opts : Options) (k : String) (rest : List String) (hk : k ≠ "") :
    pathKey opts (k :: rest) = k ++ pathTail opts.Delimiter rest := by
  have h1 : mapKey "" k opts = k := by simp [mapKey]
  rw [pathKey, List.foldl_cons, h1, foldl_mapKey opts rest k hk]

theorem pathKey_snoc (opts : Options) (p : List String) (k : String) :
    pathKey opts (p ++ [k]) = mapKey (pathKey opts p) k opts := by
  simp [pathKey, List.foldl_append]

theorem split_pathTail (d : String) (hd : d.data ≠ []) :
    ∀ (rest : List String) (k : String), (∀ x ∈ k :: rest, ∀ ch ∈ x.data, ch ∉ d.data) →
      stringsSplit (k ++ pathTail d rest) d = k :: rest
  | [], k, h => by
    have : k ++ pathTail d [] = k := by simp [pathTail]
    rw [this]
    exact split_single d k hd (h k (List.mem_cons_self _ _))
  | k' :: rest, k, h => by
    have : k ++ pathTail d (k' :: rest) = k ++ d ++ (k' ++ pathTail d rest) := by
      simp only [pathTail, String.append_assoc]
    rw [this, split_cons d k _ hd (h k (List.mem_cons_self _ _)),
      split_pathTail d hd rest k' (fun x hx => h x (List.mem_cons_of_mem _ hx))]

theorem split_pathKey (opts : Options) (cs : List Char) (hd : opts.Delimiter.data = cs)
    (hne : cs ≠ []) (p : List String) (hp : GoodPath cs p) :
    stringsSplit (pathKey opts p) opts.Delimiter = p := by
  obtain ⟨⟨k, rest, hp1, hk⟩, hp2⟩ := hp
  subst hp1
  subst hd
  rw [pathKey_cons opts k rest hk]
  exact split_pathTail _ hne rest k hp2

theorem pathKey_injective (opts : Options) (cs : List Char) (hd : opts.Delimiter.data = cs)
    (hne : cs ≠ []) {p q : List String} (hp : GoodPath cs p) (hq : GoodPath cs q)
    (h : pathKey opts p = pathKey opts q) : p = q := by
  rw [← split_pathKey opts cs hd hne p hp, ← split_pathKey opts cs hd hne q hq, h]

theorem uf_pathKey (opts : Options) (cs : List Char) (hA : opts.ArrayDelimiter = "")
    (hd : opts.Delimiter.data = cs) (hne : cs ≠ []) (p : List String) (hp : GoodPath cs p)
    (x : Value) : uf (pathKey opts p) x opts = .ok (nest p x) := by
  rw [uf_plain _ _ _ hA, split_pathKey opts cs hd hne p hp]

theorem goodPath_snoc (cs : List Char) (p : List String) (k : String) (hp : GoodPath cs p)
    (hk : ∀ ch ∈ k.data, ch ∉ cs) : GoodPath cs (p ++ [k]) := by
  obtain ⟨⟨k0, rest, hp1, hk0⟩, hp2⟩ := hp
  refine ⟨⟨k0, rest ++ [k], by rw [hp1]; rfl, hk0⟩, ?_⟩
  intro x hx
  rcases List.mem_append.1 hx with hx | hx
  · exact hp2 x hx
  · rw [List.mem_singleton.1 hx]; exact hk

theorem goodPath_single (cs : List Char) (k : String) (hk0 : k ≠ "")
    (hk : ∀ ch ∈ k.data, ch ∉ cs) : GoodPath cs [k] :=
  ⟨⟨k, [], rfl, hk0⟩, fun x hx => by rw [List.mem_singleton.1 hx]; exact hk⟩

theorem key_free_of (cs : List Char) (k : String)
    (h : k.data.all (fun x => !cs.contains x) = true) : ∀ ch ∈ k.data, ch ∉ cs := by
  intro ch hch
  have := List.all_eq_true.1 h ch hch
  simpa using this

/-! ## Writing twice, and writing two keys in either order -/

theorem mapUpsert_twice (f g : Option Value → Value) (k : String) :
    ∀ (m : GoMap), mapUpsert g k (mapUpsert f k m) = mapUpsert (fun o => g (some (f o))) k m
  | [] => by simp [mapUpsert, keyLt_irrefl]
  | (k', o) :: rest => by
    by_cases h1 : keyLt k k' = true
    · simp [mapUpsert, h1, keyLt_irrefl]
    · by_cases h2 : k = k'
      · subst h2
        simp [mapUpsert, keyLt_irrefl]
      · simp [mapUpsert, h1, h2, mapUpsert_twice f g k rest]

theorem mapUpsert_comm (f g : Option Value → Value) (a b : String) (hab : a ≠ b) :
    ∀ (m : GoMap), mapUpsert g b (mapUpsert f a m) = mapUpsert f a (mapUpsert g b m)
  | [] => by
    rcases keyLt_total hab with h | h
    · simp [mapUpsert, h, keyLt_asymm h, hab, Ne.symm hab]
    · simp [mapUpsert, h, keyLt_asymm h, hab, Ne.symm hab]
  | (k', o) :: rest => by
    have ih := mapUpsert_comm f g a b hab rest
    by_cases ha : keyLt a k' = true
    · by_cases hb : keyLt b k' = true
      · rcases keyLt_total hab with h | h
        · simp [mapUpsert, ha, hb, h, keyLt_asymm h, hab, Ne.symm hab]
        · simp [mapUpsert, ha, hb, h, keyLt_asymm h, hab, Ne.symm hab]
      · have hba : keyLt b a = false := by
          cases hba : keyLt b a
          · rfl
          · exact absurd (keyLt_trans hba ha) hb
        by_cases hbk : b = k'
        · subst hbk
          simp [mapUpsert, ha, keyLt_irrefl, hba, Ne.symm hab]
        · simp [mapUpsert, ha, hb, hbk, hba, Ne.symm hab]
    · by_cases hak : a = k'
      · subst hak
        by_cases hb : keyLt b a = true
        · simp [mapUpsert, hb, keyLt_asymm hb, keyLt_irrefl, hab]
        · simp [mapUpsert, hb, keyLt_irrefl, hab, Ne.symm hab]
      · by_cases hb : keyLt b k' = true
        · have hab' : keyLt a b = false := by
            cases hab' : keyLt a b
            · rfl
            · exact absurd (keyLt_trans hab' hb) ha
          simp [mapUpsert, ha, hak, hb, hab', hab]
        · by_cases hbk : b = k'
          · subst hbk
            simp [mapUpsert, ha, hak, keyLt_irrefl]
          · simp [mapUpsert, ha, hak, hb, hbk, ih]

theorem mapUpsert_last (f : Option Value → Value) (k : String) :
    ∀ (m : GoMap), (∀ e ∈ m, keyLt e.1 k = true) → mapUpsert f k m = m ++ [(k, f none)]
  | [], _ => rfl
  | (k', o) :: rest, h => by
    have h1 := h (k', o) (List.mem_cons_self _ _)
    have h2 : keyLt k k' = false := keyLt_asymm h1
    have h3 : k ≠ k' := fun e => keyLt_ne h1 e.symm
    simp [mapUpsert, h2, h3,
      mapUpsert_last f k rest (fun e he => h e (List.mem_cons_of_mem _ he))]

theorem mergeMap_append (c : MergeConfig) : ∀ (b₁ b₂ : List (String × Value)) (a : GoMap),
    mergeMap c a (b₁ ++ b₂) = mergeMap c (mergeMap c a b₁) b₂
  | [], b₂, a => by simp [mergeMap_nil]
  | (k, w) :: rest, b₂, a => by
    rw [List.cons_append, mergeMap_cons, mergeMap_cons, mergeMap_append c rest b₂]

theorem mergeMap_single (c : MergeConfig) (a : GoMap) (k : String) (w : Value) :
    mergeMap c a [(k, w)] = mapUpsert (storeWith w (fun old => merge c old w)) k a := by
  rw [mergeMap_cons, mergeMap_nil]

theorem merge_onto_nonmap (c : MergeConfig) (o : Value) (ho : ∀ z, o ≠ .map z) :
    (∀ b : List (String × Value), merge c o (.map b) = .map b) ∨
      (∀ b : List (String × Value), merge c o (.map b) = o) := by
  cases o with
  | map z => exact absurd rfl (ho z)
  | null => exact Or.inl (fun b => by simp [merge])
  | bool x => exact Or.inr (fun b => by simp [merge])
  | num x => exact Or.inr (fun b => by simp [merge])
  | str x => exact Or.inr (fun b => by simp [merge])
  | seq xs =>
    by_cases hO : c.Overwrite = true
    · exact Or.inl (fun b => by simp [merge, hO])
    · exact Or.inr (fun b => by simp [merge, hO])

theorem nest_snoc : ∀ (p : List String) (k : String) (v : Value),
    nest (p ++ [k]) v = nest p (.map [(k, v)])
  | [], k, v => rfl
  | q :: p, k, v => by simp [nest, nest_snoc p k v]

/-! ## Entries of one mapping arrive one after the other -/

theorem merge_nest_grow (c : MergeConfig) (done : List (String × Value)) (k : String)
    (v : Value) (hk : ∀ e ∈ done, keyLt e.1 k = true) :
    ∀ (p : List String),
      (∀ o : Value, merge c (merge c o (nest p (.map done))) (nest p (.map [(k, v)]))
        = merge c o (nest p (.map (done ++ [(k, v)])))) ∧
      merge c (nest p (.map done)) (nest p (.map [(k, v)]))
        = nest p (.map (done ++ [(k, v)]))
  | [] => by
    have h2 : merge c (.map done) (.map [(k, v)]) = .map (done ++ [(k, v)]) := by
      rw [merge_map_map, mergeMap_single, mapUpsert_last _ k done hk]; rfl
    refine ⟨fun o => ?_, h2⟩
    simp only [nest]
    by_cases ho : ∃ z, o = .map z
    · obtain ⟨z, rfl⟩ := ho
      rw [merge_map_map, merge_map_map, merge_map_map, mergeMap_append]
    · have ho' : ∀ z, o ≠ .map z := fun z hz => ho ⟨z, hz⟩
      rcases merge_onto_nonmap c o ho' with e1 | e1
      · rw [e1, e1, h2]
      · rw [e1, e1, e1]
  | q :: p => by
    obtain ⟨ih1, ih2⟩ := merge_nest_grow c done k v hk p
    have h2 : merge c (nest (q :: p) (.map done)) (nest (q :: p) (.map [(k, v)]))
        = nest (q :: p) (.map (done ++ [(k, v)])) := by
      simp only [nest]
      rw [merge_map_map, mergeMap_single, mapUpsert_hit]
      simp only [storeWith, ih2]
    refine ⟨fun o => ?_, h2⟩
    by_cases ho : ∃ z, o = .map z
    · obtain ⟨z, rfl⟩ := ho
      simp only [nest]
      rw [merge_map_map, merge_map_map, merge_map_map, mergeMap_single, mergeMap_single,
        mergeMap_single, mapUpsert_twice]
      congr 2
      funext o
      cases o with
      | none => simp only [storeWith, ih2]
      | some old => simp only [storeWith, ih1]
    · have ho' : ∀ z, o ≠ .map z := fun z hz => ho ⟨z, hz⟩
      rcases merge_onto_nonmap c o ho' with e0 | e0
      · have e1 : ∀ x, merge c o (nest (q :: p) x) = nest (q :: p) x := fun x => e0 _
        rw [e1, e1, h2]
      · have e1 : ∀ x, merge c o (nest (q :: p) x) = o := fun x => e0 _
        rw [e1, e1, e1]

/-! ## Entries at diverging paths can be merged in either order -/


theorem merge_nest_comm_aux (c : MergeConfig) (a b : String) (hab : a ≠ b)
    (s t : List String) (x y : Value) :
    ∀ (r : List String),
      (∀ o : Value, merge c (merge c o (nest (r ++ a :: s) x)) (nest (r ++ b :: t) y)
        = merge c (merge c o (nest (r ++ b :: t) y)) (nest (r ++ a :: s) x)) ∧
      merge c (nest (r ++ a :: s) x) (nest (r ++ b :: t) y)
        = merge c (nest (r ++ b :: t) y) (nest (r ++ a :: s) x)
  | [] => by
    have h2 : merge c (nest (a :: s) x) (nest (b :: t) y)
        = merge c (nest (b :: t) y) (nest (a :: s) x) := by
      simp only [nest]
      rw [merge_map_map, merge_map_map, mergeMap_single, mergeMap_single]
      have := mapUpsert_comm (storeWith (nest s x) (fun old => merge c old (nest s x)))
        (storeWith (nest t y) (fun old => merge c old (nest t y))) a b hab []
      simpa [mapUpsert_nil, storeWith] using this
    refine ⟨fun o => ?_, h2⟩
    by_cases ho : ∃ z, o = .map z
    · obtain ⟨z, rfl⟩ := ho
      simp only [nest, List.nil_append]
      rw [merge_map_map, merge_map_map, merge_map_map, merge_map_map, mergeMap_single,
        mergeMap_single, mergeMap_single, mergeMap_single, mapUpsert_comm _ _ a b hab]
    · have ho' : ∀ z, o ≠ .map z := fun z hz => ho ⟨z, hz⟩
      simp only [List.nil_append]
      rcases merge_onto_nonmap c o ho' with e0 | e0
      · have e1 : ∀ k l x, merge c o (nest (k :: l) x) = nest (k :: l) x :=
          fun k l x => e0 _
        rw [e1, e1, h2]
      · have e1 : ∀ k l x, merge c o (nest (k :: l) x) = o := fun k l x => e0 _
        rw [e1, e1, e1]
  | q :: r => by
    obtain ⟨ih1, ih2⟩ := merge_nest_comm_aux c a b hab s t x y r
    have h2 : merge c (nest ((q :: r) ++ a :: s) x) (nest ((q :: r) ++ b :: t) y)
        = merge c (nest ((q :: r) ++ b :: t) y) (nest ((q :: r) ++ a :: s) x) := by
      rw [List.cons_append, List.cons_append]
      simp only [nest]
      rw [merge_map_map, merge_map_map, mergeMap_single, mergeMap_single, mapUpsert_hit,
        mapUpsert_hit]
      simp only [storeWith, ih2]
    refine ⟨fun o => ?_, h2⟩
    by_cases ho : ∃ z, o = .map z
    · obtain ⟨z, rfl⟩ := ho
      rw [List.cons_append, List.cons_append]
      simp only [nest]
      rw [merge_map_map, merge_map_map, merge_map_map, merge_map_map, mergeMap_single,
        mergeMap_single, mergeMap_single, mergeMap_single, mapUpsert_twice, mapUpsert_twice]
      congr 2
      funext o
      cases o with
      | none => simp only [storeWith, ih2]
      | some old => simp only [storeWith, ih1]
    · have ho' : ∀ z, o ≠ .map z := fun z hz => ho ⟨z, hz⟩
      simp only [List.cons_append] at h2 ⊢
      rcases merge_onto_nonmap c o ho' with e0 | e0
      · have e1 : ∀ k l x, merge c o (nest (k :: l) x) = nest (k :: l) x :=
          fun k l x => e0 _
        rw [e1, e1, h2]
      · have e1 : ∀ k l x, merge c o (nest (k :: l) x) = o := fun k l x => e0 _
        rw [e1, e1, e1]

theorem merge_nest_comm (c : MergeConfig) {p q : List String} (h : Diverge p q)
    (x y o : Value) :
    merge c (merge c o (nest p x)) (nest q y) = merge c (merge c o (nest q y)) (nest p x) := by
  obtain ⟨r, a, b, s, t, hp, hq, hab⟩ := h
  subst hp; subst hq
  exact (merge_nest_comm_aux c a b hab s t x y r).1 o

/-! ## The positions of a tidy tree -/

theorem tidy_map (cs : List Char) (m : List (String × Value)) :
    Value.tidy cs (.map m) = (keysDistinct m && tidyEntries cs m) := by
  rw [Value.tidy]

theorem tidyEntries_cons (cs : List Char) (k : String) (v : Value)
    (rest : List (String × Value)) :
    tidyEntries cs ((k, v) :: rest)
      = (k.data.all (fun x => !cs.contains x) && Value.tidy cs v && tidyEntries cs rest) := by
  rw [tidyEntries]

theorem keysDistinct_cons (k : String) (v : Value) (rest : List (String × Value)) :
    keysDistinct ((k, v) :: rest) = true ↔ (∀ e ∈ rest, e.1 ≠ k) ∧ keysDistinct rest = true := by
  simp [keysDistinct]

theorem plain_map (cs : List Char) (m : List (String × Value)) :
    Value.plain cs (.map m) = (keysSorted m && plainEntries cs m) := by
  rw [Value.plain]

theorem plainEntries_cons (cs : List Char) (k : String) (v : Value)
    (rest : List (String × Value)) :
    plainEntries cs ((k, v) :: rest)
      = (k.data.all (fun x => !cs.contains x) && Value.plain cs v && plainEntries cs rest) := by
  rw [plainEntries]

theorem sorted_keysDistinct : ∀ (m : GoMap), Sorted m → keysDistinct m = true
  | [], _ => rfl
  | (k, v) :: rest, h => by
    have h' := List.pairwise_cons.1 h
    rw [keysDistinct_cons]
    exact ⟨fun e he hek => keyLt_ne (h'.1 e he) hek.symm, sorted_keysDistinct rest h'.2⟩

mutual
theorem plain_tidy (cs : List Char) : ∀ (v : Value), Value.plain cs v = true →
    Value.tidy cs v = true
  | .map m, h => by
    rw [plain_map, Bool.and_eq_true] at h
    rw [tidy_map, Bool.and_eq_true]
    exact ⟨sorted_keysDistinct m ((keysSorted_iff m).1 h.1), plainEntries_tidy cs m h.2⟩
  | .seq xs, h => by simpa [Value.plain, Value.tidy] using h
  | .null, _ => by simp [Value.tidy]
  | .bool _, _ => by simp [Value.tidy]
  | .num _, _ => by simp [Value.tidy]
  | .str _, _ => by simp [Value.tidy]
theorem plainEntries_tidy (cs : List Char) : ∀ (m : List (String × Value)),
    plainEntries cs m = true → tidyEntries cs m = true
  | [], _ => by simp [tidyEntries]
  | (k, v) :: rest, h => by
    rw [plainEntries_cons, Bool.and_eq_true, Bool.and_eq_true] at h
    rw [tidyEntries_cons, Bool.and_eq_true, Bool.and_eq_true]
    exact ⟨⟨h.1.1, plain_tidy cs v h.1.2⟩, plainEntries_tidy cs rest h.2⟩
end

theorem leaves_map_cons (p : List String) (e : String × Value) (m : List (String × Value)) :
    leaves p (.map (e :: m)) = leavesEntries p (e :: m) := by
  rw [leaves]

theorem leavesEntries_cons (p : List String) (k : String) (v : Value)
    (rest : List (String × Value)) :
    leavesEntries p ((k, v) :: rest) = leaves (p ++ [k]) v ++ leavesEntries p rest := by
  rw [leavesEntries]

theorem leaves_of_not_expanded (p : List String) (v : Value)
    (h : ∀ e m, v ≠ .map (e :: m)) : leaves p v = [(p, v)] := by
  cases v with
  | map m =>
    cases m with
    | nil => simp [leaves]
    | cons e m => exact absurd rfl (h e m)
  | _ => simp [leaves]

mutual
theorem leaves_extend : ∀ (v : Value) (p : List String), ∀ e ∈ leaves p v, ∃ s, e.1 = p ++ s
  | .map [], p, e, he => by
    rw [leaves_of_not_expanded p _ (by simp)] at he
    exact ⟨[], by rw [List.mem_singleton.1 he]; simp⟩
  | .map ((k, v) :: m), p, e, he => by
    rw [leaves_map_cons] at he
    obtain ⟨k', s, _, h⟩ := leavesEntries_extend ((k, v) :: m) p e he
    exact ⟨k' :: s, h⟩
  | .seq xs, p, e, he => by
    rw [leaves_of_not_expanded p _ (by simp)] at he
    exact ⟨[], by rw [List.mem_singleton.1 he]; simp⟩
  | .null, p, e, he => by
    rw [leaves_of_not_expanded p _ (by simp)] at he
    exact ⟨[], by rw [List.mem_singleton.1 he]; simp⟩
  | .bool _, p, e, he => by
    rw [leaves_of_not_expanded p _ (by simp)] at he
    exact ⟨[], by rw [List.mem_singleton.1 he]; simp⟩
  | .num _, p, e, he => by
    rw [leaves_of_not_expanded p _ (by simp)] at he
    exact ⟨[], by rw [List.mem_singleton.1 he]; simp⟩
  | .str _, p, e, he => by
    rw [leaves_of_not_expanded p _ (by simp)] at he
    exact ⟨[], by rw [List.mem_singleton.1 he]; simp⟩
theorem leavesEntries_extend : ∀ (m : List (String × Value)) (p : List String),
    ∀ e ∈ leavesEntries p m, ∃ k s, k ∈ m.map Prod.fst ∧ e.1 = p ++ k :: s
  | [], p, e, he => by simp [leavesEntries] at he
  | (k, v) :: rest, p, e, he => by
    rw [leavesEntries_cons] at he
    rcases List.mem_append.1 he with h | h
    · obtain ⟨s, hs⟩ := leaves_extend v (p ++ [k]) e h
      exact ⟨k, s, by simp, by rw [hs]; simp⟩
    · obtain ⟨k', s, hk', hs⟩ := leavesEntries_extend rest p e h
      exact ⟨k', s, List.mem_cons_of_mem _ hk', hs⟩
end

theorem diverge_symm {p q : List String} (h : Diverge p q) : Diverge q p := by
  obtain ⟨r, a, b, s, t, hp, hq, hab⟩ := h
  exact ⟨r, b, a, t, s, hq, hp, hab.symm⟩

theorem diverge_ne {p q : List String} (h : Diverge p q) : p ≠ q := by
  obtain ⟨r, a, b, s, t, hp, hq, hab⟩ := h
  rw [hp, hq]
  intro e
  have := List.append_cancel_left e
  injection this with h1 _
  exact hab h1

mutual
theorem leaves_diverge (cs : List Char) : ∀ (v : Value) (p : List String),
    Value.tidy cs v = true → (leaves p v).Pairwise (fun e₁ e₂ => Diverge e₁.1 e₂.1)
  | .map [], p, _ => by rw [leaves_of_not_expanded p _ (by simp)]; simp
  | .map ((k, v) :: m), p, h => by
    rw [leaves_map_cons]
    rw [tidy_map, Bool.and_eq_true] at h
    exact leavesEntries_diverge cs ((k, v) :: m) p h.1 h.2
  | .seq xs, p, _ => by rw [leaves_of_not_expanded p _ (by simp)]; simp
  | .null, p, _ => by rw [leaves_of_not_expanded p _ (by simp)]; simp
  | .bool _, p, _ => by rw [leaves_of_not_expanded p _ (by simp)]; simp
  | .num _, p, _ => by rw [leaves_of_not_expanded p _ (by simp)]; simp
  | .str _, p, _ => by rw [leaves_of_not_expanded p _ (by simp)]; simp
theorem leavesEntries_diverge (cs : List Char) :
    ∀ (m : List (String × Value)) (p : List String),
      keysDistinct m = true → tidyEntries cs m = true →
      (leavesEntries p m).Pairwise (fun e₁ e₂ => Diverge e₁.1 e₂.1)
  | [], p, _, _ => by simp [leavesEntries]
  | (k, v) :: rest, p, hs, h => by
    rw [leavesEntries_cons]
    rw [tidyEntries_cons, Bool.and_eq_true, Bool.and_eq_true] at h
    have hs' := (keysDistinct_cons k v rest).1 hs
    refine List.pairwise_append.2 ⟨leaves_diverge cs v _ h.1.2,
      leavesEntries_diverge cs rest p hs'.2 h.2, ?_⟩
    intro e₁ h₁ e₂ h₂
    obtain ⟨s, hs1⟩ := leaves_extend v (p ++ [k]) e₁ h₁
    obtain ⟨k', t, hk', ht⟩ := leavesEntries_extend rest p e₂ h₂
    obtain ⟨e', he', hek⟩ := List.mem_map.1 hk'
    have hne : k ≠ k' := by
      rw [← hek]; exact fun e => hs'.1 e' he' e.symm
    exact ⟨p, k, k', s, t, by rw [hs1]; simp, ht, hne⟩
end

mutual
theorem leaves_good (cs : List Char) : ∀ (v : Value) (p : List String),
    Value.tidy cs v = true → GoodPath cs p → ∀ e ∈ leaves p v, GoodPath cs e.1
  | .map [], p, _, hp, e, he => by
    rw [leaves_of_not_expanded p _ (by simp)] at he; rw [List.mem_singleton.1 he]; exact hp
  | .map ((k, v) :: m), p, h, hp, e, he => by
    rw [leaves_map_cons] at he
    rw [tidy_map, Bool.and_eq_true] at h
    exact leavesEntries_good cs ((k, v) :: m) p h.2
      (fun _ _ hx => goodPath_snoc cs p _ hp hx) e he
  | .seq xs, p, _, hp, e, he => by
    rw [leaves_of_not_expanded p _ (by simp)] at he; rw [List.mem_singleton.1 he]; exact hp
  | .null, p, _, hp, e, he => by
    rw [leaves_of_not_expanded p _ (by simp)] at he; rw [List.mem_singleton.1 he]; exact hp
  | .bool _, p, _, hp, e, he => by
    rw [leaves_of_not_expanded p _ (by simp)] at he; rw [List.mem_singleton.1 he]; exact hp
  | .num _, p, _, hp, e, he => by
    rw [leaves_of_not_expanded p _ (by simp)] at he; rw [List.mem_singleton.1 he]; exact hp
  | .str _, p, _, hp, e, he => by
    rw [leaves_of_not_expanded p _ (by simp)] at he; rw [List.mem_singleton.1 he]; exact hp
theorem leavesEntries_good (cs : List Char) :
    ∀ (m : List (String × Value)) (p : List String), tidyEntries cs m = true →
      (∀ x ∈ m, (∀ ch ∈ x.1.data, ch ∉ cs) → GoodPath cs (p ++ [x.1])) →
      ∀ e ∈ leavesEntries p m, GoodPath cs e.1
  | [], p, _, _, e, he => by simp [leavesEntries] at he
  | (k, v) :: rest, p, h, hp, e, he => by
    rw [leavesEntries_cons] at he
    rw [tidyEntries_cons, Bool.and_eq_true, Bool.and_eq_true] at h
    have hk : ∀ ch ∈ k.data, ch ∉ cs := key_free_of cs k h.1.1
    rcases List.mem_append.1 he with h1 | h1
    · exact leaves_good cs v _ h.1.2 (hp (k, v) (List.mem_cons_self _ _) hk) e h1
    · exact leavesEntries_good cs rest p h.2
        (fun x hx => hp x (List.mem_cons_of_mem _ hx)) e h1
end

/-! ## Merging the positions of a plain tree rebuilds it -/

theorem foldl_mergeLeaf_single (cfg : MergeConfig) (acc : Value) (p : List String) (v : Value)
    (h : ∀ e m, v ≠ .map (e :: m)) :
    (leaves p v).foldl (mergeLeaf cfg) acc = merge cfg acc (nest p v) := by
  rw [leaves_of_not_expanded p v h]; rfl

mutual
theorem foldl_leaves (cs : List Char) (cfg : MergeConfig) :
    ∀ (v : Value) (p : List String) (acc : Value), Value.plain cs v = true →
      (leaves p v).foldl (mergeLeaf cfg) acc = merge cfg acc (nest p v)
  | .map [], p, acc, _ => foldl_mergeLeaf_single cfg acc p _ (by simp)
  | .map ((k, v) :: m), p, acc, h => by
    rw [plain_map, Bool.and_eq_true] at h
    have hs : Sorted ((k, v) :: m) := (keysSorted_iff _).1 h.1
    have hp := h.2
    rw [plainEntries_cons, Bool.and_eq_true, Bool.and_eq_true] at hp
    rw [leaves_map_cons, leavesEntries_cons, List.foldl_append,
      foldl_leaves cs cfg v (p ++ [k]) acc hp.1.2, nest_snoc]
    exact foldl_leavesEntries cs cfg m p acc [(k, v)] (by simpa using hs) hp.2
  | .seq xs, p, acc, _ => foldl_mergeLeaf_single cfg acc p _ (by simp)
  | .null, p, acc, _ => foldl_mergeLeaf_single cfg acc p _ (by simp)
  | .bool _, p, acc, _ => foldl_mergeLeaf_single cfg acc p _ (by simp)
  | .num _, p, acc, _ => foldl_mergeLeaf_single cfg acc p _ (by simp)
  | .str _, p, acc, _ => foldl_mergeLeaf_single cfg acc p _ (by simp)
theorem foldl_leavesEntries (cs : List Char) (cfg : MergeConfig) :
    ∀ (todo : List (String × Value)) (p : List String) (acc : Value)
      (done : List (String × Value)), Sorted (done ++ todo) → plainEntries cs todo = true →
      (leavesEntries p todo).foldl (mergeLeaf cfg) (merge cfg acc (nest p (.map done)))
        = merge cfg acc (nest p (.map (done ++ todo)))
  | [], p, acc, done, _, _ => by simp [leavesEntries]
  | (k, v) :: rest, p, acc, done, hs, h => by
    rw [plainEntries_cons, Bool.and_eq_true, Bool.and_eq_true] at h
    have hk : ∀ e ∈ done, keyLt e.1 k = true := by
      intro e he
      exact (List.pairwise_append.1 hs).2.2 e he (k, v) (List.mem_cons_self _ _)
    rw [leavesEntries_cons, List.foldl_append, foldl_leaves cs cfg v (p ++ [k]) _ h.1.2,
      nest_snoc, (merge_nest_grow cfg done k v hk p).1 acc]
    have := foldl_leavesEntries cs cfg rest p acc (done ++ [(k, v)]) (by simpa using hs) h.2
    simpa using this
end

theorem mergeMap_onto_empty (cfg : MergeConfig) (m : GoMap) (hm : Sorted m) :
    mergeMap cfg [] m = m := by
  have h1 : Sorted (mergeMap cfg [] m) := mergeMap_sorted cfg m [] (by simp [Sorted])
  have h2 : (mergeMap cfg [] m).Perm ([] ++ m) :=
    mergeMap_perm cfg m [] (sorted_nodup_keys hm) (by simp)
  exact sorted_ext h1 hm (by simpa using h2)

/-! ## The flat map of a tidy tree lists its positions -/

theorem pathKeys_nodup (opts : Options) (cs : List Char) (hd : opts.Delimiter.data = cs) (hne : cs ≠ [])
    (l : List (List String × Value)) (hg : ∀ e ∈ l, GoodPath cs e.1)
    (hdv : l.Pairwise (fun e₁ e₂ => Diverge e₁.1 e₂.1)) :
    ((l.map (fun e => (pathKey opts e.1, e.2))).map Prod.fst).Nodup := by
  rw [List.map_map]
  refine List.Pairwise.map _ ?_ (List.Pairwise.imp_of_mem ?_ hdv
    (S := fun e₁ e₂ => pathKey opts e₁.1 ≠ pathKey opts e₂.1))
  · intro a b hab; exact hab
  · intro a b ha hb hab e
    exact diverge_ne hab (pathKey_injective opts cs hd hne (hg a ha) (hg b hb) e)

mutual
theorem flatten_leaves (opts : Options) (cs : List Char) (h0 : opts.MaxDepth = 0)
    (hd : opts.Delimiter.data = cs) (hne : cs ≠ []) :
    ∀ (v : Value) (p : List String) (d : Int), Value.tidy cs v = true → GoodPath cs p →
      ∃ fm, flatten (pathKey opts p) d v opts = .ok fm ∧
        fm.Perm ((leaves p v).map (fun e => (pathKey opts e.1, e.2)))
  | .map [], p, d, _, _ => by
    refine ⟨[(pathKey opts p, .map [])], ?_, ?_⟩
    · rw [flatten_map_eq]; simp [h0]
    · rw [leaves_of_not_expanded p _ (by simp)]; simp
  | .map ((k, v) :: m), p, d, h, hp => by
    rw [tidy_map, Bool.and_eq_true] at h
    obtain ⟨fm, h1, h2⟩ := flattenMap_leaves opts cs h0 hd hne ((k, v) :: m) p d []
      h.1 h.2 (fun x _ hx => goodPath_snoc cs p _ hp hx)
      (fun e he => absurd he (List.not_mem_nil _))
    refine ⟨fm, ?_, ?_⟩
    · rw [flatten_map_eq, if_neg (by simp [h0]), if_neg (by simp)]; exact h1
    · rw [leaves_map_cons]; simpa using h2
  | .seq xs, p, d, h, _ => by
    have hx : xs = [] := by simpa [Value.tidy] using h
    subst hx
    refine ⟨[(pathKey opts p, .seq [])], ?_, ?_⟩
    · rw [flatten_seq_eq]; simp
    · rw [leaves_of_not_expanded p _ (by simp)]; simp
  | .null, p, d, _, _ => by
    refine ⟨[(pathKey opts p, .null)], flatten_scalar (v := .null) rfl _ _ _, ?_⟩
    rw [leaves_of_not_expanded p _ (by simp)]; simp
  | .bool b, p, d, _, _ => by
    refine ⟨[(pathKey opts p, .bool b)], flatten_scalar (v := .bool b) rfl _ _ _, ?_⟩
    rw [leaves_of_not_expanded p _ (by simp)]; simp
  | .num b, p, d, _, _ => by
    refine ⟨[(pathKey opts p, .num b)], flatten_scalar (v := .num b) rfl _ _ _, ?_⟩
    rw [leaves_of_not_expanded p _ (by simp)]; simp
  | .str b, p, d, _, _ => by
    refine ⟨[(pathKey opts p, .str b)], flatten_scalar (v := .str b) rfl _ _ _, ?_⟩
    rw [leaves_of_not_expanded p _ (by simp)]; simp
theorem flattenMap_leaves (opts : Options) (cs : List Char) (h0 : opts.MaxDepth = 0)
    (hd : opts.Delimiter.data = cs) (hne : cs ≠ []) :
    ∀ (todo : List (String × Value)) (p : List String) (d : Int) (acc : GoMap),
      keysDistinct todo = true → tidyEntries cs todo = true →
      (∀ x ∈ todo, (∀ ch ∈ x.1.data, ch ∉ cs) → GoodPath cs (p ++ [x.1])) →
      (∀ e ∈ acc, ∀ e' ∈ leavesEntries p todo, e.1 ≠ pathKey opts e'.1) →
      ∃ fm, flattenMap (pathKey opts p) d todo opts acc = .ok fm ∧
        fm.Perm (acc ++ (leavesEntries p todo).map (fun e => (pathKey opts e.1, e.2)))
  | [], p, d, acc, _, _, _, _ => ⟨acc, by simp [flattenMap], by simp [leavesEntries]⟩
  | (k, v) :: rest, p, d, acc, hs, h, hg, hacc => by
    have hall_good := leavesEntries_good cs ((k, v) :: rest) p h hg
    have hall_div := leavesEntries_diverge cs ((k, v) :: rest) p hs h
    rw [leavesEntries_cons] at hall_good hall_div hacc
    have hcross := (List.pairwise_append.1 hall_div).2.2
    have hs' := (keysDistinct_cons k v rest).1 hs
    rw [tidyEntries_cons, Bool.and_eq_true, Bool.and_eq_true] at h
    have hk : ∀ ch ∈ k.data, ch ∉ cs := key_free_of cs k h.1.1
    have hpk : GoodPath cs (p ++ [k]) := hg (k, v) (List.mem_cons_self _ _) hk
    obtain ⟨fm1, hf1, hp1⟩ := flatten_leaves opts cs h0 hd hne v (p ++ [k]) (d + 1) h.1.2 hpk
    have hnd1 : (fm1.map Prod.fst).Nodup :=
      (hp1.map Prod.fst).nodup_iff.2 (pathKeys_nodup opts cs hd hne _
        (fun e he => hall_good e (List.mem_append_left _ he))
        (List.pairwise_append.1 hall_div).1)
    have hmem1 : ∀ e ∈ fm1, ∃ e' ∈ leaves (p ++ [k]) v, e = (pathKey opts e'.1, e'.2) := by
      intro e he
      obtain ⟨e', he', hee⟩ := List.mem_map.1 (hp1.subset he)
      exact ⟨e', he', hee.symm⟩
    have hup : (update acc fm1).Perm (acc ++ fm1) := by
      refine update_perm fm1 acc hnd1 ?_
      intro e he e' he'
      obtain ⟨l, hl, hel⟩ := hmem1 e he
      rw [hel]
      exact hacc e' he' l (List.mem_append_left _ hl)
    have hacc' : ∀ e ∈ update acc fm1, ∀ e' ∈ leavesEntries p rest,
        e.1 ≠ pathKey opts e'.1 := by
      intro e he e' he'
      rcases List.mem_append.1 (hup.subset he) with h1 | h1
      · exact hacc e h1 e' (List.mem_append_right _ he')
      · obtain ⟨l, hl, hel⟩ := hmem1 e h1
        rw [hel]
        intro heq
        exact diverge_ne (hcross l hl e' he')
          (pathKey_injective opts cs hd hne (hall_good l (List.mem_append_left _ hl))
            (hall_good e' (List.mem_append_right _ he')) heq)
    obtain ⟨fm, hf, hp⟩ := flattenMap_leaves opts cs h0 hd hne rest p d (update acc fm1) hs'.2 h.2
      (fun x hx => hg x (List.mem_cons_of_mem _ hx)) hacc'
    refine ⟨fm, ?_, ?_⟩
    · rw [flattenMap_cons, ← pathKey_snoc, hf1]; exact hf
    · refine hp.trans ?_
      rw [leavesEntries_cons, List.map_append, ← List.append_assoc]
      exact (hup.trans (List.Perm.append_left acc hp1)).append_right _
end

/-! ## Listing a tree in key order -/

theorem canon_map (m : List (String × Value)) :
    Value.canon (.map m) = .map (canonEntries m) := by
  rw [Value.canon]

theorem canonEntries_cons (k : String) (v : Value) (rest : List (String × Value)) :
    canonEntries ((k, v) :: rest) = mapSet k v.canon (canonEntries rest) := by
  rw [canonEntries]

theorem canon_of_not_container (v : Value) (h1 : ∀ m, v ≠ .map m) (h2 : ∀ xs, v ≠ .seq xs) :
    v.canon = v := by
  cases v with
  | map m => exact absurd rfl (h1 m)
  | seq xs => exact absurd rfl (h2 xs)
  | _ => simp [Value.canon]

theorem canon_seq_nil : Value.canon (.seq []) = .seq [] := by
  simp [Value.canon, canonList]

theorem mapUpsert_ne_nil (f : Option Value → Value) (k : String) :
    ∀ (m : GoMap), mapUpsert f k m ≠ []
  | [] => by simp [mapUpsert]
  | (k', o) :: rest => by
    simp only [mapUpsert]
    split_ifs <;> simp

theorem mem_canonEntries : ∀ (m : List (String × Value)) (e : String × Value),
    e ∈ canonEntries m → ∃ e' ∈ m, e = (e'.1, e'.2.canon)
  | [], e, h => by simp [canonEntries] at h
  | (k, v) :: rest, e, h => by
    rw [canonEntries_cons] at h
    rcases mem_mapSet h with h1 | h1
    · obtain ⟨e', he', hee⟩ := mem_canonEntries rest e h1
      exact ⟨e', List.mem_cons_of_mem _ he', hee⟩
    · exact ⟨(k, v), List.mem_cons_self _ _, h1⟩

theorem canonEntries_sorted : ∀ (m : List (String × Value)), Sorted (canonEntries m)
  | [] => by simp [canonEntries, Sorted]
  | (k, v) :: rest => by
    rw [canonEntries_cons]
    exact mapUpsert_sorted _ k _ (canonEntries_sorted rest)

theorem canonEntries_perm : ∀ (m : List (String × Value)), keysDistinct m = true →
    (canonEntries m).Perm (m.map (fun e => (e.1, e.2.canon)))
  | [], _ => by simp [canonEntries]
  | (k, v) :: rest, h => by
    have h' := (keysDistinct_cons k v rest).1 h
    rw [canonEntries_cons, List.map_cons]
    refine (mapUpsert_perm _ k _ ?_).trans ((canonEntries_perm rest h'.2).cons _)
    intro e he
    obtain ⟨e', he', hee⟩ := mem_canonEntries rest e he
    rw [hee]
    exact h'.1 e' he'

theorem plainEntries_of_forall (cs : List Char) : ∀ (m : List (String × Value)),
    (∀ e ∈ m, e.1.data.all (fun x => !cs.contains x) = true ∧ Value.plain cs e.2 = true) →
    plainEntries cs m = true
  | [], _ => by simp [plainEntries]
  | (k, v) :: rest, h => by
    rw [plainEntries_cons, Bool.and_eq_true, Bool.and_eq_true]
    exact ⟨h (k, v) (List.mem_cons_self _ _),
      plainEntries_of_forall cs rest (fun e he => h e (List.mem_cons_of_mem _ he))⟩

mutual
theorem tidy_canon_plain (cs : List Char) : ∀ (v : Value), Value.tidy cs v = true →
    Value.plain cs v.canon = true
  | .map m, h => by
    rw [tidy_map, Bool.and_eq_true] at h
    rw [canon_map, plain_map, Bool.and_eq_true]
    refine ⟨(keysSorted_iff _).2 (canonEntries_sorted m), plainEntries_of_forall cs _ ?_⟩
    intro e he
    obtain ⟨e', he', hee⟩ := mem_canonEntries m e he
    rw [hee]
    exact tidyEntries_canon_plain cs m h.2 e' he'
  | .seq xs, h => by
    have hx : xs = [] := by simpa [Value.tidy] using h
    subst hx
    rw [canon_seq_nil]; simp [Value.plain]
  | .null, _ => by simp [Value.canon, Value.plain]
  | .bool _, _ => by simp [Value.canon, Value.plain]
  | .num _, _ => by simp [Value.canon, Value.plain]
  | .str _, _ => by simp [Value.canon, Value.plain]
theorem tidyEntries_canon_plain (cs : List Char) : ∀ (m : List (String × Value)),
    tidyEntries cs m = true →
    ∀ e ∈ m, e.1.data.all (fun x => !cs.contains x) = true ∧ Value.plain cs e.2.canon = true
  | [], _, e, he => by simp at he
  | (k, v) :: rest, h, e, he => by
    rw [tidyEntries_cons, Bool.and_eq_true, Bool.and_eq_true] at h
    rcases List.mem_cons.1 he with h1 | h1
    · rw [h1]; exact ⟨h.1.1, tidy_canon_plain cs v h.1.2⟩
    · exact tidyEntries_canon_plain cs rest h.2 e h1
end

theorem leavesEntries_flatMap (p : List String) : ∀ (m : List (String × Value)),
    leavesEntries p m = m.flatMap (fun e => leaves (p ++ [e.1]) e.2)
  | [] => by simp [leavesEntries]
  | (k, v) :: rest => by
    rw [leavesEntries_cons, leavesEntries_flatMap p rest, List.flatMap_cons]

theorem leavesEntries_perm (p : List String) {m₁ m₂ : List (String × Value)}
    (h : m₁.Perm m₂) : (leavesEntries p m₁).Perm (leavesEntries p m₂) := by
  rw [leavesEntries_flatMap, leavesEntries_flatMap]
  exact h.flatMap_right _

theorem leaves_map_of_ne_nil (p : List String) (m : List (String × Value)) (h : m ≠ []) :
    leaves p (.map m) = leavesEntries p m := by
  cases m with
  | nil => exact absurd rfl h
  | cons e m => exact leaves_map_cons p e m

mutual
theorem leaves_canon (cs : List Char) : ∀ (v : Value) (p : List String),
    Value.tidy cs v = true → (leaves p v.canon).Perm (leaves p v)
  | .map [], p, _ => by simp [Value.canon, canonEntries]
  | .map ((k, v) :: m), p, h => by
    rw [tidy_map, Bool.and_eq_true] at h
    have hne : canonEntries ((k, v) :: m) ≠ [] := by
      rw [canonEntries_cons]; exact mapUpsert_ne_nil _ _ _
    rw [canon_map, leaves_map_of_ne_nil p _ hne, leaves_map_cons]
    exact (leavesEntries_perm p (canonEntries_perm _ h.1)).trans
      (leavesEntries_canon cs ((k, v) :: m) p h.2)
  | .seq xs, p, h => by
    have hx : xs = [] := by simpa [Value.tidy] using h
    subst hx
    rw [canon_seq_nil]
  | .null, p, _ => by simp [Value.canon]
  | .bool _, p, _ => by simp [Value.canon]
  | .num _, p, _ => by simp [Value.canon]
  | .str _, p, _ => by simp [Value.canon]
theorem leavesEntries_canon (cs : List Char) :
    ∀ (m : List (String × Value)) (p : List String), tidyEntries cs m = true →
      (leavesEntries p (m.map (fun e => (e.1, e.2.canon)))).Perm (leavesEntries p m)
  | [], p, _ => by simp [leavesEntries]
  | (k, v) :: rest, p, h => by
    rw [tidyEntries_cons, Bool.and_eq_true, Bool.and_eq_true] at h
    rw [List.map_cons, leavesEntries_cons, leavesEntries_cons]
    exact (leaves_canon cs v _ h.1.2).append (leavesEntries_canon cs rest p h.2)
end

theorem mapSet_front (k : String) (v : Value) :
    ∀ (m : GoMap), (∀ e ∈ m, keyLt k e.1 = true) → mapSet k v m = (k, v) :: m
  | [], _ => rfl
  | (k', o) :: rest, h => by
    simp [mapSet, mapUpsert, h (k', o) (List.mem_cons_self _ _)]

mutual
theorem canon_of_plain (cs : List Char) : ∀ (v : Value), Value.plain cs v = true →
    v.canon = v
  | .map m, h => by
    rw [plain_map, Bool.and_eq_true] at h
    rw [canon_map, canonEntries_of_plain cs m ((keysSorted_iff m).1 h.1) h.2]
  | .seq xs, h => by
    have hx : xs = [] := by simpa [Value.plain] using h
    subst hx
    exact canon_seq_nil
  | .null, _ => by simp [Value.canon]
  | .bool _, _ => by simp [Value.canon]
  | .num _, _ => by simp [Value.canon]
  | .str _, _ => by simp [Value.canon]
theorem canonEntries_of_plain (cs : List Char) : ∀ (m : List (String × Value)),
    Sorted m → plainEntries cs m = true → canonEntries m = m
  | [], _, _ => by simp [canonEntries]
  | (k, v) :: rest, hs, h => by
    have hs' := List.pairwise_cons.1 hs
    rw [plainEntries_cons, Bool.and_eq_true, Bool.and_eq_true] at h
    rw [canonEntries_cons, canon_of_plain cs v h.1.2, canonEntries_of_plain cs rest hs'.2 h.2]
    exact mapSet_front k v rest hs'.1
end

/-! ## The loop of `unflatten` as a fold -/

theorem unflattenLoop_fold (opts : Options) :
    ∀ (order : List (String × Value)) (nested : GoMap),
      (∀ e ∈ order, ∃ t, uf e.1 e.2 opts = .ok (.map t)) →
      ∃ n, unflattenLoop opts order nested = .ok n ∧
        Value.map n = order.foldl (mergeEntry opts) (.map nested)
  | [], nested, _ => ⟨nested, by simp [unflattenLoop], rfl⟩
  | (k, v) :: rest, nested, h => by
    obtain ⟨t, ht⟩ := h (k, v) (List.mem_cons_self _ _)
    obtain ⟨n, h1, h2⟩ := unflattenLoop_fold opts rest (mergeMap (mergeConfig opts) nested t)
      (fun e he => h e (List.mem_cons_of_mem _ he))
    refine ⟨n, ?_, ?_⟩
    · rw [unflattenLoop_step _ _ _ _ _ _ ht]; exact h1
    · rw [h2, List.foldl_cons]
      congr 1
      simp [mergeEntry, ht, merge_map_map]

theorem nest_goodPath_isMap (cs : List Char) (p : List String) (hp : GoodPath cs p)
    (x : Value) : ∃ t, nest p x = .map t := by
  obtain ⟨⟨k, rest, hp1, _⟩, _⟩ := hp
  subst hp1
  exact ⟨_, rfl⟩

/-! ## Round trip -/

theorem goodPath_top (cs : List Char) (V : GoMap) (htop : ∀ e ∈ V, e.1 ≠ "") :
    ∀ x ∈ V, (∀ ch ∈ x.1.data, ch ∉ cs) → GoodPath cs ([] ++ [x.1]) :=
  fun x hx hc => goodPath_single cs x.1 (htop x hx) hc

/-- The encoder on a tidy tree: the flat map lists the positions of the tree, each under
the flat key of its path. -/
theorem flatten_tidy (opts : Options) (cs : List Char) (h0 : opts.MaxDepth = 0)
    (hd : opts.Delimiter.data = cs) (hne : cs ≠ []) (V : GoMap) (hV : V ≠ [])
    (htop : ∀ e ∈ V, e.1 ≠ "") (htidy : Value.tidy cs (.map V) = true) :
    ∃ fm, flatten "" 0 (.map V) opts = .ok fm ∧
      fm.Perm ((leavesEntries [] V).map (fun e => (pathKey opts e.1, e.2))) := by
  rw [tidy_map, Bool.and_eq_true] at htidy
  obtain ⟨fm, hf, hp⟩ := flattenMap_leaves opts cs h0 hd hne V [] 0 [] htidy.1 htidy.2
    (goodPath_top cs V htop) (fun e he => absurd he (List.not_mem_nil _))
  have hpk : pathKey opts [] = "" := rfl
  rw [hpk] at hf
  rw [List.nil_append] at hp
  refine ⟨fm, ?_, hp⟩
  rw [flatten_map_eq, if_neg (by simp [h0]), if_neg (by simpa using hV)]
  exact hf

/-- The decoder on the positions of a key-ordered tree, visited in any order. -/
theorem unflatten_plain (opts : Options) (cs : List Char) (hA : opts.ArrayDelimiter = "")
    (hd : opts.Delimiter.data = cs) (hne : cs ≠ []) (W : GoMap) (hW : W ≠ [])
    (htop : ∀ e ∈ W, e.1 ≠ "") (hplain : Value.plain cs (.map W) = true)
    (order : List (String × Value))
    (hperm : order.Perm ((leavesEntries [] W).map (fun e => (pathKey opts e.1, e.2)))) :
    unflatten order opts = .ok W := by
  have htidy := plain_tidy cs _ hplain
  rw [tidy_map, Bool.and_eq_true] at htidy
  have hpl := hplain
  rw [plain_map, Bool.and_eq_true] at hpl
  have hsorted : Sorted W := (keysSorted_iff W).1 hpl.1
  have hgood := leavesEntries_good cs W [] htidy.2 (goodPath_top cs W htop)
  have hdiv := leavesEntries_diverge cs W [] htidy.1 htidy.2
  have huf : ∀ l ∈ leavesEntries [] W,
      uf (pathKey opts l.1) l.2 opts = .ok (nest l.1 l.2) :=
    fun l hl => uf_pathKey opts cs hA hd hne l.1 (hgood l hl) l.2
  have hstep : ∀ (acc : Value), ∀ l ∈ leavesEntries [] W,
      mergeEntry opts acc (pathKey opts l.1, l.2) = mergeLeaf (mergeConfig opts) acc l := by
    intro acc l hl
    simp only [mergeEntry, huf l hl, mergeLeaf]
  have hmem : ∀ e ∈ order, ∃ l ∈ leavesEntries [] W, e = (pathKey opts l.1, l.2) := by
    intro e he
    obtain ⟨l, hl, hle⟩ := List.mem_map.1 (hperm.subset he)
    exact ⟨l, hl, hle.symm⟩
  have hmap : ∀ e ∈ order, ∃ t, uf e.1 e.2 opts = .ok (.map t) := by
    intro e he
    obtain ⟨l, hl, hle⟩ := hmem e he
    obtain ⟨t, ht⟩ := nest_goodPath_isMap cs l.1 (hgood l hl) l.2
    exact ⟨t, by rw [hle, huf l hl, ht]⟩
  have hrel : ∀ l₁ ∈ leavesEntries [] W, ∀ l₂ ∈ leavesEntries [] W,
      l₁ = l₂ ∨ Diverge l₁.1 l₂.1 := by
    intro l₁ h₁ l₂ h₂
    refine List.Pairwise.forall_of_forall (R := fun a b => a = b ∨ Diverge a.1 b.1)
      ?_ (fun x _ => Or.inl rfl) (hdiv.imp (fun h => Or.inr h)) h₁ h₂
    intro a b hab
    rcases hab with h | h
    · exact Or.inl h.symm
    · exact Or.inr (diverge_symm h)
  have hcomm : ∀ x ∈ order, ∀ y ∈ order, ∀ z,
      mergeEntry opts (mergeEntry opts z x) y = mergeEntry opts (mergeEntry opts z y) x := by
    intro x hx y hy z
    obtain ⟨l₁, hl₁, e₁⟩ := hmem x hx
    obtain ⟨l₂, hl₂, e₂⟩ := hmem y hy
    rw [e₁, e₂, hstep _ l₁ hl₁, hstep _ l₂ hl₂, hstep _ l₂ hl₂, hstep _ l₁ hl₁]
    rcases hrel l₁ hl₁ l₂ hl₂ with h | h
    · rw [h]
    · exact merge_nest_comm (mergeConfig opts) h _ _ _
  obtain ⟨n, hn1, hn2⟩ := unflattenLoop_fold opts order [] hmap
  have e1 : order.foldl (mergeEntry opts) (.map [])
      = ((leavesEntries [] W).map (fun e => (pathKey opts e.1, e.2))).foldl
          (mergeEntry opts) (.map []) := hperm.foldl_eq' hcomm _
  have e2 : ((leavesEntries [] W).map (fun e => (pathKey opts e.1, e.2))).foldl
        (mergeEntry opts) (.map [])
      = (leavesEntries [] W).foldl (mergeLeaf (mergeConfig opts)) (.map []) := by
    rw [List.foldl_map]
    exact List.foldl_ext _ _ _ (fun a b hb => hstep a b hb)
  have e3 : (leavesEntries [] W).foldl (mergeLeaf (mergeConfig opts)) (.map [])
      = .map W := by
    have h3 := foldl_leaves cs (mergeConfig opts) (.map W) [] (.map []) hplain
    rw [leaves_map_of_ne_nil [] W hW] at h3
    rw [h3]
    simp only [nest]
    rw [merge_map_map, mergeMap_onto_empty _ _ hsorted]
  have hn : n = W := by
    have := hn2.trans (e1.trans (e2.trans e3))
    injection this
  show unflattenLoop opts order [] = _
  rw [hn1, hn]

/-- Round trip of a tidy tree, for every listing of its mappings and every order in which
the flat entries are merged: the decoder returns the tree, listed in key order. -/
theorem roundtrip_core (opts : Options) (cs : List Char) (hA : opts.ArrayDelimiter = "")
    (h0 : opts.MaxDepth = 0) (hd : opts.Delimiter.data = cs) (hne : cs ≠ []) (V : GoMap)
    (hV : V ≠ []) (htop : ∀ e ∈ V, e.1 ≠ "") (htidy : Value.tidy cs (.map V) = true) :
    (∃ fm, flatten "" 0 (.map V) opts = .ok fm ∧
      ∀ order : List (String × Value), order.Perm fm →
        unflatten order opts = .ok (canonEntries V)) ∧
    (Value.plain cs (.map V) = true → canonEntries V = V) := by
  have hsnd : Value.plain cs (.map V) = true → canonEntries V = V := by
    intro hp
    rw [plain_map, Bool.and_eq_true] at hp
    exact canonEntries_of_plain cs V ((keysSorted_iff V).1 hp.1) hp.2
  refine ⟨?_, hsnd⟩
  obtain ⟨fm, hf, hp⟩ := flatten_tidy opts cs h0 hd hne V hV htop htidy
  refine ⟨fm, hf, fun order hperm => ?_⟩
  have hplain := tidy_canon_plain cs _ htidy
  rw [canon_map] at hplain
  have hW : canonEntries V ≠ [] := by
    cases V with
    | nil => exact absurd rfl hV
    | cons e m =>
      obtain ⟨k, v⟩ := e
      rw [canonEntries_cons]; exact mapUpsert_ne_nil _ _ _
  have htopW : ∀ e ∈ canonEntries V, e.1 ≠ "" := by
    intro e he
    obtain ⟨e', he', hee⟩ := mem_canonEntries V e he
    rw [hee]; exact htop e' he'
  have hl := leaves_canon cs (.map V) [] htidy
  rw [canon_map, leaves_map_of_ne_nil [] _ hW, leaves_map_of_ne_nil [] _ hV] at hl
  exact unflatten_plain opts cs hA hd hne (canonEntries V) hW htopW hplain order
    (hperm.trans (hp.trans (hl.map _).symm))

/-! ## Claims on the round trip -/

/-- C1 as stated fails. With the default options a sequence comes back as a mapping keyed
by the decimal indices; the empty mapping comes back as a mapping with one empty key; a
key that contains `"."` is split; and an empty top-level key over a mapping is lost. -/
theorem roundtrip_default_fails :
    (Flatten [("a", .seq [.str "x", .str "y"])] none
        = .ok [("a.0", .str "x"), ("a.1", .str "y")] ∧
      Unflatten [("a.0", .str "x"), ("a.1", .str "y")] none
        = .ok [("a", .map [("0", .str "x"), ("1", .str "y")])] ∧
      Unflatten [("a.1", .str "y"), ("a.0", .str "x")] none
        = .ok [("a", .map [("0", .str "x"), ("1", .str "y")])]) ∧
    (Flatten [] none = .ok [("", .map [])] ∧
      Unflatten [("", .map [])] none = .ok [("", .map [])]) ∧
    (Flatten [("a.b", .num 1)] none = .ok [("a.b", .num 1)] ∧
      Unflatten [("a.b", .num 1)] none = .ok [("a", .map [("b", .num 1)])]) ∧
    (Flatten [("", .map [("a", .num 1)])] none = .ok [("a", .num 1)] ∧
      Unflatten [("a", .num 1)] none = .ok [("a", .num 1)]) := by
  refine ⟨⟨?_, ?_, ?_⟩, ⟨?_, ?_⟩, ⟨?_, ?_⟩, ⟨?_, ?_⟩⟩ <;> decide

/-- C1, amended. For every non-empty mapping `V` built only from mappings, scalars and
empty sequences, whose keys contain no `"."` and whose top-level keys are not empty, with
the default options `Flatten` returns a flat map, in whatever order the entries of the
mappings of `V` are visited, and `Unflatten` of that flat map returns `V`, in whatever
order the flat entries are merged.  The returned map is `V` with every mapping listed in
key order, which is `V` itself when `V` is listed so. -/
theorem roundtrip_default (V : GoMap) (hV : V ≠ []) (htop : ∀ e ∈ V, e.1 ≠ "")
    (htidy : Value.tidy ['.'] (.map V) = true) :
    (∃ fm, Flatten V none = .ok fm ∧
      ∀ order : List (String × Value), order.Perm fm →
        Unflatten order none = .ok (canonEntries V)) ∧
    (Value.plain ['.'] (.map V) = true → canonEntries V = V) :=
  roundtrip_core nilOptions ['.'] rfl rfl rfl (by simp) V hV htop htidy

/-- C1, amended, at a concrete input whose mappings are not listed in key order. -/
theorem roundtrip_default_witness :
    ∃ fm, Flatten [("d", .str "x"), ("a", .map [("c", .seq []), ("b", .num 1)]),
          ("e", .map [])] none = .ok fm ∧
      ∀ order : List (String × Value), order.Perm fm →
        Unflatten order none
          = .ok [("a", .map [("b", .num 1), ("c", .seq [])]), ("d", .str "x"), ("e", .map [])] :=
  (roundtrip_default [("d", .str "x"), ("a", .map [("c", .seq []), ("b", .num 1)]),
    ("e", .map [])] (by decide) (by decide) (by decide)).1

/-- C2 as stated fails. With delimiter `":"` a sequence comes back as a mapping, the empty
mapping comes back with one empty key and an empty top-level key over a mapping is lost;
and with the delimiter `"aa"`, which occurs in neither of the keys `"a"` and `"x"`, the
flat key `"aaax"` is split into `""` and `"ax"`. -/
theorem roundtrip_delimiter_fails :
    (Flatten [("a", .seq [.str "x"])] (some { nilOptions with Delimiter := ":" })
        = .ok [("a:0", .str "x")] ∧
      Unflatten [("a:0", .str "x")] (some { nilOptions with Delimiter := ":" })
        = .ok [("a", .map [("0", .str "x")])]) ∧
    (Flatten [("a", .map [("x", .num 1)])] (some { nilOptions with Delimiter := "aa" })
        = .ok [("aaax", .num 1)] ∧
      Unflatten [("aaax", .num 1)] (some { nilOptions with Delimiter := "aa" })
        = .ok [("", .map [("ax", .num 1)])]) ∧
    (Flatten [] (some { nilOptions with Delimiter := ":" }) = .ok [("", .map [])] ∧
      Unflatten [("", .map [])] (some { nilOptions with Delimiter := ":" })
        = .ok [("", .map [])]) ∧
    (Flatten [("", .map [("a", .num 1)])] (some { nilOptions with Delimiter := ":" })
        = .ok [("a", .num 1)] ∧
      Unflatten [("a", .num 1)] (some { nilOptions with Delimiter := ":" })
        = .ok [("a", .num 1)]) := by
  refine ⟨⟨?_, ?_⟩, ⟨?_, ?_⟩, ⟨?_, ?_⟩, ⟨?_, ?_⟩⟩ <;> decide

/-- C2, amended. For every non-empty delimiter `d` and every non-empty mapping `V` built
only from mappings, scalars and empty sequences, whose keys contain no character of `d` and
whose top-level keys are not empty, `Flatten` with delimiter `d` returns a flat map, in
whatever order the entries of the mappings of `V` are visited, and `Unflatten` of it with
the same delimiter returns `V`, in whatever order the flat entries are merged (all other
options at their defaults).  The returned map is `V` with every mapping listed in key
order, which is `V` itself when `V` is listed so. -/
theorem roundtrip_delimiter (d : String) (V : GoMap) (hd : d ≠ "") (hV : V ≠ [])
    (htop : ∀ e ∈ V, e.1 ≠ "") (htidy : Value.tidy d.data (.map V) = true) :
    (∃ fm, Flatten V (some { nilOptions with Delimiter := d }) = .ok fm ∧
      ∀ order : List (String × Value), order.Perm fm →
        Unflatten order (some { nilOptions with Delimiter := d }) = .ok (canonEntries V)) ∧
    (Value.plain d.data (.map V) = true → canonEntries V = V) :=
  roundtrip_core { nilOptions with Delimiter := d } d.data rfl rfl rfl
    (fun e => hd (String.ext e)) V hV htop htidy

/-- C2, amended, at a concrete input with the delimiter `"::"`. -/
theorem roundtrip_delimiter_witness :
    ∃ fm, Flatten [("k.1", .null),
          ("hello", .map [("world", .map [("again", .str "good morning")])])]
        (some { nilOptions with Delimiter := "::" }) = .ok fm ∧
      ∀ order : List (String × Value), order.Perm fm →
        Unflatten order (some { nilOptions with Delimiter := "::" })
          = .ok [("hello", .map [("world", .map [("again", .str "good morning")])]),
              ("k.1", .null)] :=
  (roundtrip_delimiter "::" [("k.1", .null),
    ("hello", .map [("world", .map [("again", .str "good morning")])])]
    (by decide) (by decide) (by decide) (by decide)).1

/-! ## The walk without cut-off stores leaves only -/

mutual
theorem flatten_leaf_values (opts : Options) (h0 : opts.MaxDepth = 0)
    (hs : opts.Safe = false) :
    ∀ (v : Value) (pfx : String) (d : Int),
      ∃ fm, flatten pfx d v opts = .ok fm ∧ ∀ e ∈ fm, e.2.isFlatLeaf = true
  | .map m, pfx, d => by
    rw [flatten_map_eq]
    simp only [h0, ne_eq, not_true_eq_false, false_and, if_false]
    by_cases hm : m.isEmpty = true
    · refine ⟨[(pfx, .map m)], by simp [hm], ?_⟩
      intro e he
      rw [List.mem_singleton] at he
      rw [he]; exact hm
    · simp only [hm]
      exact flattenMap_leaf_values opts h0 hs m pfx d []
        (fun e he => absurd he (List.not_mem_nil _))
  | .seq xs, pfx, d => by
    rw [flatten_seq_eq]
    simp only [hs]
    by_cases hx : xs.isEmpty = true
    · refine ⟨[(pfx, .seq xs)], by simp [hx], ?_⟩
      intro e he
      rw [List.mem_singleton] at he
      rw [he]; exact hx
    · simp only [hx]
      exact flattenSeq_leaf_values opts h0 hs xs pfx d 0 []
        (fun e he => absurd he (List.not_mem_nil _))
  | .null, pfx, d => ⟨[(pfx, .null)], by simp [flatten], by simp [Value.isFlatLeaf]⟩
  | .bool b, pfx, d => ⟨[(pfx, .bool b)], by simp [flatten], by simp [Value.isFlatLeaf]⟩
  | .num n, pfx, d => ⟨[(pfx, .num n)], by simp [flatten], by simp [Value.isFlatLeaf]⟩
  | .str s, pfx, d => ⟨[(pfx, .str s)], by simp [flatten], by simp [Value.isFlatLeaf]⟩
theorem flattenMap_leaf_values (opts : Options) (h0 : opts.MaxDepth = 0)
    (hs : opts.Safe = false) :
    ∀ (m : List (String × Value)) (pfx : String) (d : Int) (acc : GoMap),
      (∀ e ∈ acc, e.2.isFlatLeaf = true) →
      ∃ fm, flattenMap pfx d m opts acc = .ok fm ∧ ∀ e ∈ fm, e.2.isFlatLeaf = true
  | [], pfx, d, acc, hacc => ⟨acc, by simp [flattenMap], hacc⟩
  | (k, v) :: rest, pfx, d, acc, hacc => by
    obtain ⟨fm1, h1, hl⟩ := flatten_leaf_values opts h0 hs v (mapKey pfx k opts) (d + 1)
    rw [flattenMap_cons, h1]
    refine flattenMap_leaf_values opts h0 hs rest pfx d _ ?_
    intro e he
    rcases mem_update he with h | h
    · exact hacc e h
    · exact hl e h
theorem flattenSeq_leaf_values (opts : Options) (h0 : opts.MaxDepth = 0)
    (hs : opts.Safe = false) :
    ∀ (xs : List Value) (pfx : String) (d : Int) (i : Nat) (acc : GoMap),
      (∀ e ∈ acc, e.2.isFlatLeaf = true) →
      ∃ fm, flattenSeq pfx d i xs opts acc = .ok fm ∧ ∀ e ∈ fm, e.2.isFlatLeaf = true
  | [], pfx, d, i, acc, hacc => ⟨acc, by simp [flattenSeq], hacc⟩
  | v :: rest, pfx, d, i, acc, hacc => by
    obtain ⟨fm1, h1, hl⟩ := flatten_leaf_values opts h0 hs v (seqKey pfx i opts) (d + 1)
    rw [flattenSeq_cons, h1]
    refine flattenSeq_leaf_values opts h0 hs rest pfx d (i + 1) _ ?_
    intro e he
    rcases mem_update he with h | h
    · exact hacc e h
    · exact hl e h
end

/-! ## C11: an unset delimiter -/

/-- C11, the code at the failing input.  `Flatten` replaces the options only when the
pointer is nil.  Handed `Options{}`, `Options{MaxDepth: 2}` or `Options{Safe: true}`, it
joins the keys of `{"hello":{"world":"good morning"}}` with the empty delimiter and
returns `{"helloworld": "good morning"}`; with a nil pointer or with delimiter `"."` it
returns `{"hello.world": "good morning"}`, which is what the tests of `flat_test.go`
expect for `Options{}`. -/
theorem unset_delimiter_joins_with_nothing :
    Flatten [("hello", .map [("world", .str "good morning")])] (some zeroOptions)
        = .ok [("helloworld", .str "good morning")]
      ∧ Flatten [("hello", .map [("world", .str "good morning")])]
          (some { zeroOptions with MaxDepth := 2 })
        = .ok [("helloworld", .str "good morning")]
      ∧ Flatten [("hello", .map [("world", .str "good morning")])]
          (some { zeroOptions with Safe := true })
        = .ok [("helloworld", .str "good morning")]
      ∧ Flatten [("hello", .map [("world", .str "good morning")])]
          (some { zeroOptions with Delimiter := "." })
        = .ok [("hello.world", .str "good morning")]
      ∧ Flatten [("hello", .map [("world", .str "good morning")])] none
        = .ok [("hello.world", .str "good morning")] := by
  decide

/-! ## C13: the result of `Flatten` is one level deep -/

/-- C13.  With `maxDepth = 0` and `safe = false`, whatever the delimiter and the array
delimiter, `Flatten` returns a map for every nested mapping, and every value in it is a
scalar, an empty mapping or an empty sequence.  The same holds for a nil options
pointer. -/
theorem flatten_one_level :
    (∀ (opts : Options) (V : GoMap), opts.MaxDepth = 0 → opts.Safe = false →
        ∃ fm, Flatten V (some opts) = .ok fm ∧ ∀ e ∈ fm, e.2.isFlatLeaf = true)
      ∧ ∀ V : GoMap, ∃ fm, Flatten V none = .ok fm ∧ ∀ e ∈ fm, e.2.isFlatLeaf = true :=
  ⟨fun opts V h0 hs => flatten_leaf_values opts h0 hs (.map V) "" 0,
   fun V => flatten_leaf_values nilOptions rfl rfl (.map V) "" 0⟩

/-- C13 at work: a mapping that holds a sequence of a mapping and an empty sequence, with
bracketed indices. -/
theorem flatten_one_level_witness :
    ∃ fm, Flatten [("a", .seq [.map [("b", .num 1)], .seq []])]
        (some { nilOptions with ArrayDelimiter := "BRACKETS" }) = .ok fm ∧
      ∀ e ∈ fm, e.2.isFlatLeaf = true :=
  flatten_one_level.1 { nilOptions with ArrayDelimiter := "BRACKETS" }
    [("a", .seq [.map [("b", .num 1)], .seq []])] rfl rfl

/-! ## Index keys, and sequences whose elements are stored whole -/

theorem seqKey_injective (opts : Options) (pfx : String) (a b : Nat)
    (h : seqKey pfx a opts = seqKey pfx b opts) : a = b := by
  unfold seqKey at h
  simp only at h
  split_ifs at h
  · exact itoa_injective
      (string_append_left_cancel (string_append_right_cancel (string_append_left_cancel h)))
  · exact itoa_injective
      (string_append_left_cancel (string_append_right_cancel (string_append_left_cancel h)))
  · exact itoa_injective (string_append_left_cancel (string_append_right_cancel h))

theorem flattenSeq_whole (opts : Options) (pfx : String) (d : Int) :
    ∀ (xs : List Value) (i : Nat) (acc : GoMap),
      (∀ x ∈ xs, ∀ key, flatten key (d + 1) x opts = .ok [(key, x)]) →
      (∀ e ∈ acc, ∀ j, i ≤ j → e.1 ≠ seqKey pfx j opts) →
      ∃ fm, flattenSeq pfx d i xs opts acc = .ok fm ∧
        fm.Perm (acc ++ (List.enumFrom i xs).map (fun jv => (seqKey pfx jv.1 opts, jv.2)))
  | [], i, acc, _, _ => ⟨acc, by simp [flattenSeq], by simp⟩
  | v :: rest, i, acc, hsc, hacc => by
    have hv := hsc v (List.mem_cons_self _ _) (seqKey pfx i opts)
    have hacc' : ∀ e ∈ mapSet (seqKey pfx i opts) v acc, ∀ j, i + 1 ≤ j →
        e.1 ≠ seqKey pfx j opts := by
      intro e he j hj
      rcases mem_mapSet he with h | h
      · exact hacc e h j (by omega)
      · rw [h]; intro hk
        have := seqKey_injective opts pfx _ _ hk
        omega
    obtain ⟨fm, h1, h2⟩ := flattenSeq_whole opts pfx d rest (i + 1) _
      (fun x hx => hsc x (List.mem_cons_of_mem _ hx)) hacc'
    refine ⟨fm, ?_, ?_⟩
    · rw [flattenSeq_cons, hv]
      simpa [update_singleton] using h1
    · have h3 : (mapSet (seqKey pfx i opts) v acc).Perm ((seqKey pfx i opts, v) :: acc) :=
        mapUpsert_perm _ _ acc (fun e he => hacc e he i (le_refl _))
      refine h2.trans ?_
      simp only [List.enumFrom_cons, List.map_cons]
      exact (h3.append_right _).trans List.perm_middle.symm

/-! ## C15: `maxDepth` and sequences -/

/-- C15 as stated fails.  With delimiter `"."` and `maxDepth` 1, the sequence `[1, 2]`
met at depth 1 under the prefix `"a"` is expanded, not stored whole: `flatten("a", 1,
[1, 2])` is `{"a.0": 1, "a.1": 2}`, and so is `Flatten({"a": [1, 2]})`. -/
theorem sequence_expanded_past_max_depth :
    flatten "a" 1 (.seq [.num 1, .num 2]) { nilOptions with MaxDepth := 1 }
        = .ok [("a.0", .num 1), ("a.1", .num 2)]
      ∧ flatten "a" 1 (.seq [.num 1, .num 2]) { nilOptions with MaxDepth := 1 }
        ≠ .ok [("a", .seq [.num 1, .num 2])]
      ∧ Flatten [("a", .seq [.num 1, .num 2])] (some { nilOptions with MaxDepth := 1 })
        = .ok [("a.0", .num 1), ("a.1", .num 2)] := by
  decide

/-- C15, amended.  The cut-off of `maxDepth` is applied to mappings only.  For every
`maxDepth` n > 0, every prefix, every depth d >= n and `safe = false`, a non-empty sequence
whose elements are scalars or mappings is expanded: `flatten` returns one entry per
element, element `i` under its index key, a mapping element stored whole because it is
met at depth d + 1 >= n.  The result is never the one-entry map that stores the sequence
whole. -/
theorem max_depth_spares_sequences (opts : Options) (pfx : String) (d : Int)
    (xs : List Value) (hn : 0 < opts.MaxDepth) (hd : opts.MaxDepth ≤ d)
    (hS : opts.Safe = false) (hx : xs ≠ [])
    (hel : ∀ x ∈ xs, x.isScalar = true ∨ ∃ m, x = .map m) :
    ∃ fm, flatten pfx d (.seq xs) opts = .ok fm ∧
      fm.Perm (xs.enum.map (fun iv => (seqKey pfx iv.1 opts, iv.2))) ∧
      fm ≠ [(pfx, .seq xs)] := by
  have hwhole : ∀ x ∈ xs, ∀ key, flatten key (d + 1) x opts = .ok [(key, x)] := by
    intro x hxm key
    rcases hel x hxm with h | ⟨m, rfl⟩
    · exact flatten_scalar h key _ opts
    · rw [flatten_map_eq, if_pos ⟨by omega, by omega⟩]
  obtain ⟨fm, h1, h2⟩ := flattenSeq_whole opts pfx d xs 0 [] hwhole (by simp)
  have h2' : fm.Perm (xs.enum.map (fun iv => (seqKey pfx iv.1 opts, iv.2))) := by
    simpa [List.enum] using h2
  refine ⟨fm, ?_, h2', ?_⟩
  · rw [flatten_seq_eq, hS, if_neg (by simp), if_neg (by simpa using hx), h1]
  · intro hfm
    have hmem : (pfx, Value.seq xs) ∈ xs.enum.map (fun iv => (seqKey pfx iv.1 opts, iv.2)) :=
      h2'.subset (by rw [hfm]; exact List.mem_singleton.2 rfl)
    obtain ⟨iv, hiv, he⟩ := List.mem_map.1 hmem
    have hin : iv.2 ∈ xs := List.snd_mem_of_mem_enum hiv
    have hval : iv.2 = Value.seq xs := congrArg Prod.snd he
    rcases hel _ hin with h | ⟨m, h⟩
    · rw [hval] at h; simp [Value.isScalar] at h
    · rw [hval] at h; cases h

/-- C15, amended, at work: with `maxDepth` 1 the sequence under `"a"` is expanded at
depth 1 and its mapping element is stored whole. -/
theorem max_depth_spares_sequences_witness :
    ∃ fm, flatten "a" 1 (.seq [.num 1, .map [("b", .map [("c", .num 2)])]])
        { nilOptions with MaxDepth := 1 } = .ok fm ∧
      fm.Perm ([.num 1, .map [("b", .map [("c", .num 2)])]].enum.map
        (fun iv => (seqKey "a" iv.1 { nilOptions with MaxDepth := 1 }, iv.2))) ∧
      fm ≠ [("a", .seq [.num 1, .map [("b", .map [("c", .num 2)])]])] :=
  max_depth_spares_sequences { nilOptions with MaxDepth := 1 } "a" 1
    [.num 1, .map [("b", .map [("c", .num 2)])]] (by decide) (by decide) rfl (by decide)
    (by
      intro x hx
      simp only [List.mem_cons, List.mem_singleton, List.not_mem_nil, or_false] at hx
      rcases hx with rfl | rfl
      · exact Or.inl rfl
      · exact Or.inr ⟨_, rfl⟩)

/-! ## C16: an array delimiter name that is not recognized -/

/-- C16, the code at the failing input.  With the name `"FOO"`, `Flatten` returns no
error, but the key of an element below a non-empty prefix is the prefix followed by the
bare index, with neither bracket nor delimiter: `{"a": ["x"]}` gives `{"a0": "x"}`, where
NONE gives `{"a.0": "x"}`.  The same happens for every name that is neither empty nor
recognized.  The decoder `uf` treats such a name exactly as NONE. -/
theorem unrecognized_array_delimiter_glues_index :
    Flatten [("a", .seq [.str "x"])] (some { nilOptions with ArrayDelimiter := "FOO" })
        = .ok [("a0", .str "x")]
      ∧ Flatten [("a", .seq [.str "x"])] (some nilOptions) = .ok [("a.0", .str "x")]
      ∧ (∀ (opts : Options) (pfx : String) (i : Nat), opts.ArrayDelimiter ≠ "" →
          opts.ArrayDelimiter ≠ "PARENS" → opts.ArrayDelimiter ≠ "BRACKETS" →
          opts.ArrayDelimiter ≠ "CURLY_BRACES" → pfx ≠ "" →
          seqKey pfx i opts = pfx ++ strconvItoa i)
      ∧ uf "a.0" (.str "x") { nilOptions with ArrayDelimiter := "FOO" }
        = .ok (.map [("a", .map [("0", .str "x")])]) := by
  refine ⟨by decide, by decide, ?_, by decide⟩
  intro opts pfx i h0 h1 h2 h3 hp
  simp [seqKey, getArrayDelimiters, h0, h1, h2, h3, hp]

/-- C16 at work: the index key under the prefix `"a"` with the name `"FOO"`. -/
theorem unrecognized_array_delimiter_glues_index_witness :
    seqKey "a" 3 { nilOptions with ArrayDelimiter := "FOO" } = "a" ++ strconvItoa 3 :=
  unrecognized_array_delimiter_glues_index.2.2.1 { nilOptions with ArrayDelimiter := "FOO" }
    "a" 3 (by decide) (by decide) (by decide) (by decide) (by decide)

/-! ## The bracket pairs -/

theorem getArrayDelimiters_unrecognized {s : String} (h1 : s ≠ "PARENS")
    (h2 : s ≠ "BRACKETS") (h3 : s ≠ "CURLY_BRACES") :
    getArrayDelimiters s = .error (.err "array delimiter not supported") := by
  simp [getArrayDelimiters, h1, h2, h3]

theorem getArrayDelimiters_ok {s : String} {ad : String × String}
    (h : getArrayDelimiters s = .ok ad) :
    ∃ o c : Char, ad = (⟨[o]⟩, ⟨[c]⟩) ∧
      (o, c) ∈ [('(', ')'), ('[', ']'), ('\x7b', '\x7d')] := by
  unfold getArrayDelimiters at h
  split_ifs at h
  · injection h with h
    exact ⟨'(', ')', h.symm, by simp⟩
  · injection h with h
    exact ⟨'[', ']', h.symm, by simp⟩
  · injection h with h
    exact ⟨'\x7b', '\x7d', h.symm, by simp⟩

theorem uf_unrecognized (k : String) (v : Value) (opts : Options)
    (h1 : opts.ArrayDelimiter ≠ "PARENS") (h2 : opts.ArrayDelimiter ≠ "BRACKETS")
    (h3 : opts.ArrayDelimiter ≠ "CURLY_BRACES") :
    uf k v opts = .ok (nest (stringsSplit k opts.Delimiter) v) := by
  unfold uf
  simp only [getArrayDelimiters_unrecognized h1 h2 h3]
  exact ufLoop_error _ _ _ _

/-! ## The first segment of a normalized key -/

theorem replaceGo_single_head (o : Char) (d : List Char) : ∀ s : List Char,
    replaceGo [o] (d ++ [o]) 0 s = [] ∨
      (∃ t, replaceGo [o] (d ++ [o]) 0 s = d ++ (o :: t)) ∨
      (∃ c t, c ≠ o ∧ replaceGo [o] (d ++ [o]) 0 s = c :: t)
  | [] => Or.inl (by simp [replaceGo])
  | c :: cs => by
    by_cases hc : c = o
    · subst hc
      exact Or.inr (Or.inl ⟨replaceGo [c] (d ++ [c]) 0 cs, by simp [replaceGo]⟩)
    · have hb : ([o] : List Char).isPrefixOf (c :: cs) = false := by
        simp [List.isPrefixOf, Ne.symm hc]
      exact Or.inr (Or.inr ⟨c, replaceGo [o] (d ++ [o]) 0 cs, hc, by simp [replaceGo, hb]⟩)

theorem splitGo_first (sep : List Char) : ∀ (s cur : List Char) (skip : Nat),
    ∃ t rest, splitGo sep skip cur s = ⟨cur ++ t⟩ :: rest
  | [], cur, skip => ⟨[], [], by simp [splitGo]⟩
  | x :: cs, cur, 0 => by
    simp only [splitGo]
    split_ifs
    · exact ⟨[], splitGo sep (sep.length - 1) [] cs, by simp⟩
    · obtain ⟨t, rest, h⟩ := splitGo_first sep cs (cur ++ [x]) 0
      exact ⟨x :: t, rest, by rw [h]; simp⟩
  | x :: cs, cur, skip + 1 => by
    simp only [splitGo]
    exact splitGo_first sep cs cur skip

theorem first_segment_no_bracket (o : Char) (d : List Char) (hd : d ≠ []) (s : List Char) :
    ∃ first rest, splitGo d 0 [] (replaceGo [o] (d ++ [o]) 0 s) = first :: rest ∧
      ([o] : List Char).isPrefixOf first.data = false := by
  rcases replaceGo_single_head o d s with h | ⟨t, h⟩ | ⟨c, t, hc, h⟩
  · rw [h]
    exact ⟨⟨[]⟩, [], by simp [splitGo], by simp [List.isPrefixOf]⟩
  · rw [h]
    have := splitGo_at_sep d hd (o :: t) [] [] (fun x hx => absurd hx (List.not_mem_nil _))
    rw [List.nil_append] at this
    rw [this]
    exact ⟨_, _, rfl, by simp [List.isPrefixOf]⟩
  · rw [h]
    simp only [splitGo]
    split_ifs
    · exact ⟨_, _, rfl, by simp [List.isPrefixOf]⟩
    · obtain ⟨t', rest, h'⟩ := splitGo_first d t ([] ++ [c]) 0
      rw [h']
      exact ⟨_, _, rfl, by simp [List.isPrefixOf, Ne.symm hc]⟩

theorem ufStep_no_bracket (e : Except Failure (String × String)) (ad : String × String)
    (key : String) (n : Value) (h : stringsHasPrefix key ad.1 = false) :
    ufStep e ad key n = .ok (.map [(key, n)]) := by
  have hidx : getArrayIndex key ad = .error (.err "key doesn't start with delimiter") := by
    simp [getArrayIndex, h]
  unfold ufStep
  rw [hidx]
  cases e <;> rfl

theorem ufStep_fail (e : Except Failure (String × String)) (ad : String × String)
    (key : String) (n : Value) (f : Failure) (h : ufStep e ad key n = .error f) :
    f = .panic "index out of range" := by
  unfold ufStep at h
  cases e with
  | error g => cases hg : getArrayIndex key ad <;> rw [hg] at h <;> cases h
  | ok p =>
    cases hg : getArrayIndex key ad with
    | error g => rw [hg] at h; cases h
    | ok idx =>
      rw [hg] at h
      simp only at h
      split_ifs at h
      injection h with h
      exact h.symm

theorem ufLoop_fail (e : Except Failure (String × String)) (ad : String × String)
    (v : Value) (f : Failure) :
    ∀ keys : List String, ufLoop e ad v keys = .error f → f = .panic "index out of range"
  | [], h => by simp [ufLoop] at h
  | key :: rest, h => by
    rw [ufLoop] at h
    cases hr : ufLoop e ad v rest with
    | error g =>
      rw [hr] at h
      injection h with h
      subst h
      exact ufLoop_fail e ad v g rest hr
    | ok n =>
      rw [hr] at h
      exact ufStep_fail e ad key n f h

theorem ufLoop_root (e : Except Failure (String × String)) (ad : String × String)
    (v : Value) (first : String) (rest : List String)
    (h : stringsHasPrefix first ad.1 = false) :
    ufLoop e ad v (first :: rest) = .error (.panic "index out of range") ∨
      ∃ inner, ufLoop e ad v (first :: rest) = .ok (.map [(first, inner)]) := by
  rw [ufLoop]
  cases hr : ufLoop e ad v rest with
  | error g =>
    left
    rw [ufLoop_fail e ad v g rest hr]
  | ok n =>
    right
    exact ⟨n, ufStep_no_bracket e ad first n h⟩

theorem uf_segments (k : String) (opts : Options) (ad : String × String)
    (hd : opts.Delimiter ≠ "") (hA : getArrayDelimiters opts.ArrayDelimiter = .ok ad) :
    ∃ first rest,
      stringsSplit (stringsReplace k ad.1 (opts.Delimiter ++ ad.1)) opts.Delimiter
        = first :: rest ∧ stringsHasPrefix first ad.1 = false := by
  obtain ⟨o, c, rfl, -⟩ := getArrayDelimiters_ok hA
  have hd' : opts.Delimiter.data ≠ [] := fun h => hd (String.ext h)
  obtain ⟨first, rest, h1, h2⟩ := first_segment_no_bracket o opts.Delimiter.data hd' k.data
  refine ⟨first, rest, ?_, h2⟩
  simp only [stringsSplit, stringsReplace, hd', if_false, String.data_append]
  simpa using h1

/-! ## C19: no index without an array delimiter -/

/-- C19.  When the array delimiter is NONE or a name that is not recognized, `uf(k, v)`
returns `v` wrapped in one one-key mapping per segment of `k` split on the delimiter,
whatever the segments look like; no sequence is built. -/
theorem no_index_without_array_delimiter (k : String) (v : Value) (opts : Options)
    (h1 : opts.ArrayDelimiter ≠ "PARENS") (h2 : opts.ArrayDelimiter ≠ "BRACKETS")
    (h3 : opts.ArrayDelimiter ≠ "CURLY_BRACES") :
    uf k v opts = .ok (nest (stringsSplit k opts.Delimiter) v) :=
  uf_unrecognized k v opts h1 h2 h3

/-- C19 at work: with delimiter `"."` and no array delimiter, the key `"a.0"` decodes to
`{"a": {"0": "x"}}`, the all-digit segment being a mapping key. -/
theorem no_index_without_array_delimiter_witness :
    uf "a.0" (.str "x") nilOptions = .ok (.map [("a", .map [("0", .str "x")])]) :=
  (no_index_without_array_delimiter "a.0" (.str "x") nilOptions (by decide) (by decide)
    (by decide)).trans (by decide)

/-! ## C20: the root that `uf` returns -/

/-- C20.  With a non-empty delimiter, whatever the array delimiter, `uf(k, v)` either stops
on an index that is out of range or returns a one-key mapping: never a sequence, never
the bare `v`.  When a bracket pair is configured, the first segment of the normalized key
does not open with the bracket, so `getArrayIndex` refuses it. -/
theorem uf_root_is_mapping (k : String) (v : Value) (opts : Options)
    (hd : opts.Delimiter ≠ "") :
    (uf k v opts = .error (.panic "index out of range") ∨
        ∃ key inner, uf k v opts = .ok (.map [(key, inner)])) ∧
      ∀ ad, getArrayDelimiters opts.ArrayDelimiter = .ok ad →
        ∃ first rest,
          stringsSplit (stringsReplace k ad.1 (opts.Delimiter ++ ad.1)) opts.Delimiter
            = first :: rest ∧
          getArrayIndex first ad = .error (.err "key doesn't start with delimiter") := by
  have hd' : opts.Delimiter.data ≠ [] := fun h => hd (String.ext h)
  constructor
  · cases hA : getArrayDelimiters opts.ArrayDelimiter with
    | error f =>
      right
      have hu : uf k v opts = .ok (nest (stringsSplit k opts.Delimiter) v) := by
        unfold uf
        simp only [hA]
        exact ufLoop_error _ _ _ _
      rw [hu]
      cases hs : stringsSplit k opts.Delimiter with
      | nil => exact absurd hs (split_ne_nil k opts.Delimiter hd')
      | cons a r => exact ⟨a, nest r v, rfl⟩
    | ok ad =>
      obtain ⟨first, rest, hs, hp⟩ := uf_segments k opts ad hd hA
      have hu : uf k v opts = ufLoop (.ok ad) ad v (first :: rest) := by
        unfold uf
        simp only [hA]
        rw [hs]
      rw [hu]
      rcases ufLoop_root (.ok ad) ad v first rest hp with h | ⟨inner, h⟩
      · exact Or.inl h
      · exact Or.inr ⟨first, inner, h⟩
  · intro ad hA
    obtain ⟨first, rest, hs, hp⟩ := uf_segments k opts ad hd hA
    exact ⟨first, rest, hs, by simp [getArrayIndex, hp]⟩

/-- C20 at work: with BRACKETS, the key `"[3]"` normalizes to `".[3]"`, whose first
segment is empty. -/
theorem uf_root_is_mapping_witness :
    ({ nilOptions with ArrayDelimiter := "BRACKETS" } : Options).Delimiter ≠ "" ∧
      (uf "[3]" (.num 1) { nilOptions with ArrayDelimiter := "BRACKETS" }
          = .error (.panic "index out of range") ∨
        ∃ key inner, uf "[3]" (.num 1) { nilOptions with ArrayDelimiter := "BRACKETS" }
          = .ok (.map [(key, inner)])) :=
  ⟨by decide,
   (uf_root_is_mapping "[3]" (.num 1) { nilOptions with ArrayDelimiter := "BRACKETS" }
      (by decide)).1⟩

/-! ## C12: the root that `Unflatten` returns -/

theorem uf_empty_key (v : Value) (opts : Options) (hd : opts.Delimiter ≠ "") :
    uf "" v opts = .ok (.map [("", v)]) := by
  have hd' : opts.Delimiter.data ≠ [] := fun h => hd (String.ext h)
  have hsplit : stringsSplit "" opts.Delimiter = [""] :=
    split_single opts.Delimiter "" hd' (fun x hx => absurd hx (List.not_mem_nil _))
  cases hA : getArrayDelimiters opts.ArrayDelimiter with
  | error f =>
    unfold uf
    simp only [hA]
    rw [hsplit]
    exact ufLoop_error _ _ _ _
  | ok ad =>
    obtain ⟨o, c, rfl, -⟩ := getArrayDelimiters_ok hA
    have hr : stringsReplace "" ⟨[o]⟩ (opts.Delimiter ++ ⟨[o]⟩) = "" := by
      simp [stringsReplace, replaceGo]
    unfold uf
    simp only [hA]
    rw [hr, hsplit]
    simp only [ufLoop]
    exact ufStep_no_bracket _ _ _ _ (by simp [stringsHasPrefix, List.isPrefixOf])

/-- C12 as stated fails.  With the default options, the flat map whose sole key is the
empty string decodes to the mapping `{"": 5}`, not to the value `5`. -/
theorem unflatten_empty_key_stays_mapping :
    Unflatten [("", .num 5)] none = .ok [("", .num 5)] ∧
      uf "" (.num 5) nilOptions = .ok (.map [("", .num 5)]) := by
  decide

/-- C12, amended.  `Unflatten` returns a mapping at the root also when the sole key of the
flat map is the empty string: with a non-empty delimiter, whatever the other options,
`uf("", v)` is the one-key mapping `{"": v}` and `Unflatten({"": v})` returns `{"": v}`. -/
theorem unflatten_sole_empty_key (v : Value) (opts : Options) (hd : opts.Delimiter ≠ "") :
    uf "" v opts = .ok (.map [("", v)]) ∧
      Unflatten [("", v)] (some opts) = .ok [("", v)] := by
  have hu := uf_empty_key v opts hd
  refine ⟨hu, ?_⟩
  show unflattenLoop opts [("", v)] [] = _
  rw [unflattenLoop_step opts "" v [] [] [("", v)] hu]
  simp [unflattenLoop, mergeMap, mapUpsert, storeWith]

/-- C12, amended, at work: the flat map `{"": [1]}` with BRACKETS and delimiter `"."`. -/
theorem unflatten_sole_empty_key_witness :
    uf "" (.seq [.num 1]) { nilOptions with ArrayDelimiter := "BRACKETS" }
        = .ok (.map [("", .seq [.num 1])]) ∧
      Unflatten [("", .seq [.num 1])] (some { nilOptions with ArrayDelimiter := "BRACKETS" })
        = .ok [("", .seq [.num 1])] :=
  unflatten_sole_empty_key (.seq [.num 1]) { nilOptions with ArrayDelimiter := "BRACKETS" }
    (by decide)

/-! ## Sequences as index-keyed mappings -/

theorem seqAsMap_map (m : List (String × Value)) :
    (Value.map m).seqAsMap = .map (seqAsMapEntries m) := by
  rw [Value.seqAsMap]

theorem seqAsMap_seq_cons (x : Value) (xs : List Value) :
    (Value.seq (x :: xs)).seqAsMap = .map (seqAsMapFrom 0 (x :: xs)) := by
  rw [Value.seqAsMap]

theorem seqAsMapEntries_cons (k : String) (v : Value) (rest : List (String × Value)) :
    seqAsMapEntries ((k, v) :: rest) = (k, v.seqAsMap) :: seqAsMapEntries rest := by
  rw [seqAsMapEntries]

theorem seqAsMapFrom_cons (i : Nat) (v : Value) (rest : List Value) :
    seqAsMapFrom i (v :: rest) = (strconvItoa i, v.seqAsMap) :: seqAsMapFrom (i + 1) rest := by
  rw [seqAsMapFrom]

theorem positionsEntries_cons (p : List String) (k : String) (v : Value)
    (rest : List (String × Value)) :
    positionsEntries p ((k, v) :: rest) = positions (p ++ [k]) v ++ positionsEntries p rest := by
  rw [positionsEntries]

theorem positionsFrom_cons (p : List String) (i : Nat) (v : Value) (rest : List Value) :
    positionsFrom p i (v :: rest)
      = positions (p ++ [strconvItoa i]) v ++ positionsFrom p (i + 1) rest := by
  rw [positionsFrom]

mutual
theorem positions_eq : ∀ (v : Value) (p : List String),
    positions p v = leaves p v.seqAsMap
  | .map [], p => by simp [positions, Value.seqAsMap, seqAsMapEntries, leaves]
  | .map ((k, v) :: m), p => by
    rw [positions, seqAsMap_map, seqAsMapEntries_cons, leaves_map_cons,
      ← seqAsMapEntries_cons]
    exact positionsEntries_eq ((k, v) :: m) p
  | .seq [], p => by simp [positions, Value.seqAsMap, leaves]
  | .seq (x :: xs), p => by
    rw [positions, seqAsMap_seq_cons, seqAsMapFrom_cons, leaves_map_cons,
      ← seqAsMapFrom_cons]
    exact positionsFrom_eq (x :: xs) p 0
  | .null, p => by simp [positions, Value.seqAsMap, leaves]
  | .bool _, p => by simp [positions, Value.seqAsMap, leaves]
  | .num _, p => by simp [positions, Value.seqAsMap, leaves]
  | .str _, p => by simp [positions, Value.seqAsMap, leaves]
theorem positionsEntries_eq : ∀ (m : List (String × Value)) (p : List String),
    positionsEntries p m = leavesEntries p (seqAsMapEntries m)
  | [], p => by simp [positionsEntries, seqAsMapEntries, leavesEntries]
  | (k, v) :: rest, p => by
    rw [positionsEntries_cons, seqAsMapEntries_cons, leavesEntries_cons,
      positions_eq v, positionsEntries_eq rest]
theorem positionsFrom_eq : ∀ (xs : List Value) (p : List String) (i : Nat),
    positionsFrom p i xs = leavesEntries p (seqAsMapFrom i xs)
  | [], p, i => by simp [positionsFrom, seqAsMapFrom, leavesEntries]
  | v :: rest, p, i => by
    rw [positionsFrom_cons, seqAsMapFrom_cons, leavesEntries_cons,
      positions_eq v, positionsFrom_eq rest]
end

mutual
theorem positions_length : ∀ (v : Value) (p : List String),
    (positions p v).length = v.leafCount
  | .map [], p => by simp [positions, Value.leafCount]
  | .map ((k, v) :: m), p => by
    rw [positions, Value.leafCount]
    exact positionsEntries_length ((k, v) :: m) p
  | .seq [], p => by simp [positions, Value.leafCount]
  | .seq (x :: xs), p => by
    rw [positions, Value.leafCount]
    exact positionsFrom_length (x :: xs) p 0
  | .null, p => by simp [positions, Value.leafCount]
  | .bool _, p => by simp [positions, Value.leafCount]
  | .num _, p => by simp [positions, Value.leafCount]
  | .str _, p => by simp [positions, Value.leafCount]
theorem positionsEntries_length : ∀ (m : List (String × Value)) (p : List String),
    (positionsEntries p m).length = leafCountEntries m
  | [], p => by simp [positionsEntries, leafCountEntries]
  | (k, v) :: rest, p => by
    rw [positionsEntries_cons, List.length_append, positions_length v,
      positionsEntries_length rest, leafCountEntries]
theorem positionsFrom_length : ∀ (xs : List Value) (p : List String) (i : Nat),
    (positionsFrom p i xs).length = leafCountList xs
  | [], p, i => by simp [positionsFrom, leafCountList]
  | v :: rest, p, i => by
    rw [positionsFrom_cons, List.length_append, positions_length v,
      positionsFrom_length rest, leafCountList]
end

theorem mapKey_ne_empty (opts : Options) (pfx k : String) (hp : pfx ≠ "") :
    mapKey pfx k opts ≠ "" := by
  rw [mapKey, if_pos hp]
  exact string_ne_empty_append _ (string_ne_empty_append _ hp)

theorem seqKey_eq_mapKey (opts : Options) (hA : opts.ArrayDelimiter = "") (pfx : String)
    (i : Nat) (hp : pfx ≠ "") : seqKey pfx i opts = mapKey pfx (strconvItoa i) opts := by
  rw [seqKey_none opts pfx i hA hp, mapKey, if_pos hp]

mutual
theorem flatten_seqAsMap (opts : Options) (hA : opts.ArrayDelimiter = "")
    (h0 : opts.MaxDepth = 0) (hS : opts.Safe = false) :
    ∀ (v : Value) (pfx : String) (d : Int), pfx ≠ "" →
      flatten pfx d v opts = flatten pfx d v.seqAsMap opts
  | .map [], pfx, d, _ => by simp [Value.seqAsMap, seqAsMapEntries]
  | .map ((k, v) :: m), pfx, d, hp => by
    rw [seqAsMap_map, seqAsMapEntries_cons, flatten_map_eq, flatten_map_eq,
      ← seqAsMapEntries_cons]
    simp only [h0, ne_eq, not_true_eq_false, false_and, if_false, List.isEmpty_cons,
      Bool.false_eq_true]
    exact flattenMap_seqAsMap opts hA h0 hS ((k, v) :: m) pfx d []
      (fun e _ => mapKey_ne_empty opts pfx e.1 hp)
  | .seq [], pfx, d, _ => by simp [Value.seqAsMap]
  | .seq (x :: xs), pfx, d, hp => by
    rw [seqAsMap_seq_cons, seqAsMapFrom_cons, flatten_seq_eq, flatten_map_eq,
      ← seqAsMapFrom_cons]
    simp only [h0, hS, ne_eq, not_true_eq_false, false_and, if_false, List.isEmpty_cons,
      Bool.false_eq_true]
    exact flattenSeq_seqAsMap opts hA h0 hS (x :: xs) pfx d 0 [] hp
  | .null, pfx, d, _ => by simp [Value.seqAsMap]
  | .bool _, pfx, d, _ => by simp [Value.seqAsMap]
  | .num _, pfx, d, _ => by simp [Value.seqAsMap]
  | .str _, pfx, d, _ => by simp [Value.seqAsMap]
theorem flattenMap_seqAsMap (opts : Options) (hA : opts.ArrayDelimiter = "")
    (h0 : opts.MaxDepth = 0) (hS : opts.Safe = false) :
    ∀ (m : List (String × Value)) (pfx : String) (d : Int) (acc : GoMap),
      (∀ e ∈ m, mapKey pfx e.1 opts ≠ "") →
      flattenMap pfx d m opts acc = flattenMap pfx d (seqAsMapEntries m) opts acc
  | [], pfx, d, acc, _ => by simp [seqAsMapEntries]
  | (k, v) :: rest, pfx, d, acc, h => by
    rw [seqAsMapEntries_cons, flattenMap_cons, flattenMap_cons,
      ← flatten_seqAsMap opts hA h0 hS v _ _ (h (k, v) (List.mem_cons_self _ _))]
    cases flatten (mapKey pfx k opts) (d + 1) v opts with
    | error e => rfl
    | ok fm =>
      exact flattenMap_seqAsMap opts hA h0 hS rest pfx d _
        (fun e he => h e (List.mem_cons_of_mem _ he))
theorem flattenSeq_seqAsMap (opts : Options) (hA : opts.ArrayDelimiter = "")
    (h0 : opts.MaxDepth = 0) (hS : opts.Safe = false) :
    ∀ (xs : List Value) (pfx : String) (d : Int) (i : Nat) (acc : GoMap), pfx ≠ "" →
      flattenSeq pfx d i xs opts acc = flattenMap pfx d (seqAsMapFrom i xs) opts acc
  | [], pfx, d, i, acc, _ => by simp [seqAsMapFrom, flattenSeq, flattenMap]
  | v :: rest, pfx, d, i, acc, hp => by
    rw [seqAsMapFrom_cons, flattenSeq_cons, flattenMap_cons, seqKey_eq_mapKey opts hA pfx i hp,
      ← flatten_seqAsMap opts hA h0 hS v _ _ (mapKey_ne_empty opts pfx _ hp)]
    cases flatten (mapKey pfx (strconvItoa i) opts) (d + 1) v opts with
    | error e => rfl
    | ok fm => exact flattenSeq_seqAsMap opts hA h0 hS rest pfx d (i + 1) _ hp
end

theorem flatten_seqAsMap_top (opts : Options) (hA : opts.ArrayDelimiter = "")
    (h0 : opts.MaxDepth = 0) (hS : opts.Safe = false) (V : GoMap) (d : Int)
    (htop : ∀ e ∈ V, e.1 ≠ "") :
    flatten "" d (.map V) opts = flatten "" d (.map (seqAsMapEntries V)) opts := by
  cases V with
  | nil => simp [seqAsMapEntries]
  | cons e m =>
    obtain ⟨k, v⟩ := e
    rw [seqAsMapEntries_cons, flatten_map_eq, flatten_map_eq, ← seqAsMapEntries_cons]
    simp only [h0, ne_eq, not_true_eq_false, false_and, if_false, List.isEmpty_cons,
      Bool.false_eq_true]
    refine flattenMap_seqAsMap opts hA h0 hS ((k, v) :: m) "" d [] ?_
    intro e he
    have : mapKey "" e.1 opts = e.1 := by simp [mapKey]
    rw [this]
    exact htop e he

theorem mem_seqAsMapEntries : ∀ (m : List (String × Value)) (e : String × Value),
    e ∈ seqAsMapEntries m → ∃ e' ∈ m, e'.1 = e.1
  | [], e, h => by simp [seqAsMapEntries] at h
  | (k, v) :: rest, e, h => by
    rw [seqAsMapEntries_cons] at h
    rcases List.mem_cons.1 h with h | h
    · exact ⟨(k, v), List.mem_cons_self _ _, by rw [h]⟩
    · obtain ⟨e', he', hk⟩ := mem_seqAsMapEntries rest e h
      exact ⟨e', List.mem_cons_of_mem _ he', hk⟩

theorem keysDistinct_seqAsMapEntries : ∀ m : List (String × Value),
    keysDistinct m = true → keysDistinct (seqAsMapEntries m) = true
  | [], _ => by simp [seqAsMapEntries, keysDistinct]
  | (k, v) :: rest, h => by
    rw [seqAsMapEntries_cons]
    have h' := (keysDistinct_cons k v rest).1 h
    refine (keysDistinct_cons k _ _).2 ⟨?_, keysDistinct_seqAsMapEntries rest h'.2⟩
    intro e he
    obtain ⟨e', he', hk⟩ := mem_seqAsMapEntries rest e he
    rw [← hk]
    exact h'.1 e' he'

theorem mem_seqAsMapFrom : ∀ (xs : List Value) (i : Nat) (e : String × Value),
    e ∈ seqAsMapFrom i xs → ∃ j, i ≤ j ∧ e.1 = strconvItoa j
  | [], i, e, h => by simp [seqAsMapFrom] at h
  | v :: rest, i, e, h => by
    rw [seqAsMapFrom_cons] at h
    rcases List.mem_cons.1 h with h | h
    · exact ⟨i, le_refl _, by rw [h]⟩
    · obtain ⟨j, hj, hk⟩ := mem_seqAsMapFrom rest (i + 1) e h
      exact ⟨j, by omega, hk⟩

theorem keysDistinct_seqAsMapFrom : ∀ (xs : List Value) (i : Nat),
    keysDistinct (seqAsMapFrom i xs) = true
  | [], i => by simp [seqAsMapFrom, keysDistinct]
  | v :: rest, i => by
    rw [seqAsMapFrom_cons]
    refine (keysDistinct_cons _ _ _).2 ⟨?_, keysDistinct_seqAsMapFrom rest (i + 1)⟩
    intro e he hk
    obtain ⟨j, hj, hej⟩ := mem_seqAsMapFrom rest (i + 1) e he
    rw [hej] at hk
    have := itoa_injective hk
    omega

theorem itoa_free_of (cs : List Char) (hdig : ∀ ch ∈ cs, ch.isDigit = false) (i : Nat) :
    (strconvItoa i).data.all (fun x => !cs.contains x) = true := by
  rw [List.all_eq_true]
  intro x hx
  have hx' : x.isDigit = true := List.all_eq_true.1 (itoa_spec i).2.1 x hx
  have : x ∉ cs := fun hm => by rw [hdig x hm] at hx'; cases hx'
  simpa using this

theorem keyed_map (cs : List Char) (m : List (String × Value)) :
    Value.keyed cs (.map m) = (keysDistinct m && keyedEntries cs m) := by
  rw [Value.keyed]

theorem keyed_seq (cs : List Char) (xs : List Value) :
    Value.keyed cs (.seq xs) = keyedList cs xs := by
  rw [Value.keyed]

theorem keyedEntries_cons (cs : List Char) (k : String) (v : Value)
    (rest : List (String × Value)) :
    keyedEntries cs ((k, v) :: rest)
      = (k.data.all (fun x => !cs.contains x) && Value.keyed cs v && keyedEntries cs rest) := by
  rw [keyedEntries]

theorem keyedList_cons (cs : List Char) (v : Value) (rest : List Value) :
    keyedList cs (v :: rest) = (Value.keyed cs v && keyedList cs rest) := by
  rw [keyedList]

mutual
theorem keyed_tidy (cs : List Char) (hdig : ∀ ch ∈ cs, ch.isDigit = false) :
    ∀ v : Value, Value.keyed cs v = true → Value.tidy cs v.seqAsMap = true
  | .map m, h => by
    rw [keyed_map, Bool.and_eq_true] at h
    rw [seqAsMap_map, tidy_map, Bool.and_eq_true]
    exact ⟨keysDistinct_seqAsMapEntries m h.1, keyedEntries_tidy cs hdig m h.2⟩
  | .seq [], _ => by simp [Value.seqAsMap, Value.tidy]
  | .seq (x :: xs), h => by
    rw [keyed_seq] at h
    rw [seqAsMap_seq_cons, tidy_map, Bool.and_eq_true]
    exact ⟨keysDistinct_seqAsMapFrom _ _, keyedList_tidy cs hdig (x :: xs) 0 h⟩
  | .null, _ => by simp [Value.seqAsMap, Value.tidy]
  | .bool _, _ => by simp [Value.seqAsMap, Value.tidy]
  | .num _, _ => by simp [Value.seqAsMap, Value.tidy]
  | .str _, _ => by simp [Value.seqAsMap, Value.tidy]
theorem keyedEntries_tidy (cs : List Char) (hdig : ∀ ch ∈ cs, ch.isDigit = false) :
    ∀ m : List (String × Value), keyedEntries cs m = true →
      tidyEntries cs (seqAsMapEntries m) = true
  | [], _ => by simp [seqAsMapEntries, tidyEntries]
  | (k, v) :: rest, h => by
    rw [keyedEntries_cons, Bool.and_eq_true, Bool.and_eq_true] at h
    rw [seqAsMapEntries_cons, tidyEntries_cons, Bool.and_eq_true, Bool.and_eq_true]
    exact ⟨⟨h.1.1, keyed_tidy cs hdig v h.1.2⟩, keyedEntries_tidy cs hdig rest h.2⟩
theorem keyedList_tidy (cs : List Char) (hdig : ∀ ch ∈ cs, ch.isDigit = false) :
    ∀ (xs : List Value) (i : Nat), keyedList cs xs = true →
      tidyEntries cs (seqAsMapFrom i xs) = true
  | [], i, _ => by simp [seqAsMapFrom, tidyEntries]
  | v :: rest, i, h => by
    rw [keyedList_cons, Bool.and_eq_true] at h
    rw [seqAsMapFrom_cons, tidyEntries_cons, Bool.and_eq_true, Bool.and_eq_true]
    exact ⟨⟨itoa_free_of cs hdig i, keyed_tidy cs hdig v h.1⟩,
      keyedList_tidy cs hdig rest (i + 1) h.2⟩
end

/-- The encoder on a keyed tree: it returns what it returns on the tree with the sequences
written as index-keyed mappings, which is tidy. -/
theorem flatten_keyed (opts : Options) (cs : List Char) (hA : opts.ArrayDelimiter = "")
    (h0 : opts.MaxDepth = 0) (hS : opts.Safe = false)
    (hdig : ∀ ch ∈ cs, ch.isDigit = false) (V : GoMap) (htop : ∀ e ∈ V, e.1 ≠ "")
    (hk : Value.keyed cs (.map V) = true) :
    flatten "" 0 (.map V) opts = flatten "" 0 (.map (seqAsMapEntries V)) opts ∧
      Value.tidy cs (.map (seqAsMapEntries V)) = true ∧
      (∀ e ∈ seqAsMapEntries V, e.1 ≠ "") ∧
      positions [] (.map V) = leaves [] (.map (seqAsMapEntries V)) := by
  refine ⟨flatten_seqAsMap_top opts hA h0 hS V 0 htop, ?_, ?_, ?_⟩
  · have := keyed_tidy cs hdig (.map V) hk
    rwa [seqAsMap_map] at this
  · intro e he
    obtain ⟨e', he', hke⟩ := mem_seqAsMapEntries V e he
    rw [← hke]
    exact htop e' he'
  · rw [positions_eq, seqAsMap_map]

/-- The flat map of a keyed tree lists the positions of the tree, each under the flat key
of its path, and no two positions share a flat key. -/
theorem flatten_positions (opts : Options) (cs : List Char) (hA : opts.ArrayDelimiter = "")
    (h0 : opts.MaxDepth = 0) (hS : opts.Safe = false) (hd : opts.Delimiter.data = cs)
    (hne : cs ≠ []) (hdig : ∀ ch ∈ cs, ch.isDigit = false) (V : GoMap)
    (htop : ∀ e ∈ V, e.1 ≠ "") (hk : Value.keyed cs (.map V) = true) :
    ∃ fm, flatten "" 0 (.map V) opts = .ok fm ∧
      fm.Perm ((positions [] (.map V)).map (fun e => (pathKey opts e.1, e.2))) ∧
      (((positions [] (.map V)).map (fun e => (pathKey opts e.1, e.2))).map Prod.fst).Nodup := by
  obtain ⟨hf, htidy, htop', hpos⟩ := flatten_keyed opts cs hA h0 hS hdig V htop hk
  cases V with
  | nil =>
    refine ⟨[("", .map [])], by simp [flatten, h0], ?_, ?_⟩
    · simp [positions, pathKey]
    · simp [positions]
  | cons e m =>
    have hV' : seqAsMapEntries (e :: m) ≠ [] := by
      obtain ⟨k, v⟩ := e
      rw [seqAsMapEntries_cons]
      exact List.cons_ne_nil _ _
    obtain ⟨fm, hfm, hp⟩ := flatten_tidy opts cs h0 hd hne _ hV' htop' htidy
    rw [hpos, leaves_map_of_ne_nil [] _ hV']
    refine ⟨fm, by rw [hf]; exact hfm, hp, ?_⟩
    rw [tidy_map, Bool.and_eq_true] at htidy
    exact pathKeys_nodup opts cs hd hne _
      (leavesEntries_good cs _ [] htidy.2 (goodPath_top cs _ htop'))
      (leavesEntries_diverge cs _ [] htidy.1 htidy.2)

/-! ## C18: one flat entry per leaf -/

/-- C18.  With the default options, for every mapping `V` whose top-level keys are
non-empty and none of whose mapping keys contains `"."`, `Flatten(V)` returns a map that
lists the leaf positions of `V` (scalars, empty mappings, empty sequences; sequences are
entered), each position under the flat key of its path and with the value found there;
no two positions share a flat key; and the map has as many entries as `V` has leaves and
empty containers. -/
theorem one_entry_per_leaf (V : GoMap) (htop : ∀ e ∈ V, e.1 ≠ "")
    (hk : Value.keyed ['.'] (.map V) = true) :
    ∃ fm, Flatten V none = .ok fm ∧
      fm.Perm ((positions [] (.map V)).map (fun e => (pathKey nilOptions e.1, e.2))) ∧
      (((positions [] (.map V)).map (fun e => (pathKey nilOptions e.1, e.2))).map
        Prod.fst).Nodup ∧
      fm.length = (Value.map V).leafCount := by
  obtain ⟨fm, hf, hp, hnd⟩ := flatten_positions nilOptions ['.'] rfl rfl rfl rfl (by simp)
    (by decide) V htop hk
  refine ⟨fm, hf, hp, hnd, ?_⟩
  rw [hp.length_eq, List.length_map, positions_length]

/-- C18 at work: a mapping with a sequence of two elements, an empty mapping and a nested
scalar has four leaf positions and four flat entries. -/
theorem one_entry_per_leaf_witness :
    ∃ fm, Flatten [("a", .seq [.str "x", .map [("b", .num 1)]]), ("c", .map []),
        ("d", .map [("e", .null)])] none = .ok fm ∧
      fm.Perm ((positions [] (.map [("a", .seq [.str "x", .map [("b", .num 1)]]),
        ("c", .map []), ("d", .map [("e", .null)])])).map
          (fun e => (pathKey nilOptions e.1, e.2))) ∧
      (((positions [] (.map [("a", .seq [.str "x", .map [("b", .num 1)]]),
        ("c", .map []), ("d", .map [("e", .null)])])).map
          (fun e => (pathKey nilOptions e.1, e.2))).map Prod.fst).Nodup ∧
      fm.length = (Value.map [("a", .seq [.str "x", .map [("b", .num 1)]]),
        ("c", .map []), ("d", .map [("e", .null)])]).leafCount :=
  one_entry_per_leaf _ (by decide) (by decide)

/-! ## Merging in any order -/

theorem diverge_ne_nil {p q : List String} (h : Diverge p q) : p ≠ [] ∧ q ≠ [] := by
  obtain ⟨r, a, b, s, t, hp, hq, _⟩ := h
  rw [hp, hq]
  exact ⟨by simp, by simp⟩

/-- The decoder on entries whose keys split into non-empty, pairwise diverging paths: the
order of the entries does not matter. -/
theorem unflatten_any_order (opts : Options) (h1 : opts.ArrayDelimiter ≠ "PARENS")
    (h2 : opts.ArrayDelimiter ≠ "BRACKETS") (h3 : opts.ArrayDelimiter ≠ "CURLY_BRACES")
    (flat : List (String × Value))
    (hne : ∀ e ∈ flat, stringsSplit e.1 opts.Delimiter ≠ [])
    (hrel : ∀ x ∈ flat, ∀ y ∈ flat, x = y ∨
      Diverge (stringsSplit x.1 opts.Delimiter) (stringsSplit y.1 opts.Delimiter))
    (order : List (String × Value)) (hp : order.Perm flat) :
    unflatten order opts = unflatten flat opts := by
  have huf : ∀ e : String × Value,
      uf e.1 e.2 opts = .ok (nest (stringsSplit e.1 opts.Delimiter) e.2) :=
    fun e => uf_unrecognized e.1 e.2 opts h1 h2 h3
  have hmapF : ∀ e ∈ flat, ∃ t, uf e.1 e.2 opts = .ok (.map t) := by
    intro e he
    rw [huf e]
    cases hs : stringsSplit e.1 opts.Delimiter with
    | nil => exact absurd hs (hne e he)
    | cons a r => exact ⟨_, rfl⟩
  have hmapO : ∀ e ∈ order, ∃ t, uf e.1 e.2 opts = .ok (.map t) :=
    fun e he => hmapF e (hp.subset he)
  have hcomm : ∀ x ∈ order, ∀ y ∈ order, ∀ z,
      mergeEntry opts (mergeEntry opts z x) y = mergeEntry opts (mergeEntry opts z y) x := by
    intro x hx y hy z
    simp only [mergeEntry, huf x, huf y]
    rcases hrel x (hp.subset hx) y (hp.subset hy) with h | h
    · rw [h]
    · exact merge_nest_comm (mergeConfig opts) h _ _ _
  obtain ⟨n₁, ha₁, hb₁⟩ := unflattenLoop_fold opts order [] hmapO
  obtain ⟨n₂, ha₂, hb₂⟩ := unflattenLoop_fold opts flat [] hmapF
  have e1 : order.foldl (mergeEntry opts) (.map [])
      = flat.foldl (mergeEntry opts) (.map []) := hp.foldl_eq' hcomm _
  have hn : n₁ = n₂ := by
    have := hb₁.trans (e1.trans hb₂.symm)
    injection this
  show unflattenLoop opts order [] = unflattenLoop opts flat []
  rw [ha₁, ha₂, hn]

theorem pairwise_diverge_rel (d : String) (flat : List (String × Value))
    (hwf : flat.Pairwise (fun e₁ e₂ => Diverge (stringsSplit e₁.1 d) (stringsSplit e₂.1 d))) :
    ∀ x ∈ flat, ∀ y ∈ flat, x = y ∨ Diverge (stringsSplit x.1 d) (stringsSplit y.1 d) := by
  intro x hx y hy
  refine List.Pairwise.forall_of_forall
    (R := fun a b => a = b ∨ Diverge (stringsSplit a.1 d) (stringsSplit b.1 d))
    ?_ (fun x _ => Or.inl rfl) (hwf.imp (fun h => Or.inr h)) hx hy
  intro a b hab
  rcases hab with h | h
  · exact Or.inl h.symm
  · exact Or.inr (diverge_symm h)

theorem unflatten_two_orders (opts : Options) (h1 : opts.ArrayDelimiter ≠ "PARENS")
    (h2 : opts.ArrayDelimiter ≠ "BRACKETS") (h3 : opts.ArrayDelimiter ≠ "CURLY_BRACES")
    (flat : List (String × Value))
    (hwf : flat.Pairwise (fun e₁ e₂ =>
      Diverge (stringsSplit e₁.1 opts.Delimiter) (stringsSplit e₂.1 opts.Delimiter)))
    (o₁ o₂ : List (String × Value)) (p₁ : o₁.Perm flat) (p₂ : o₂.Perm flat) :
    unflatten o₁ opts = unflatten o₂ opts := by
  cases flat with
  | nil => rw [List.perm_nil.1 p₁, List.perm_nil.1 p₂]
  | cons a rest =>
    cases rest with
    | nil => rw [List.perm_singleton.1 p₁, List.perm_singleton.1 p₂]
    | cons b rest =>
      have hc := List.pairwise_cons.1 hwf
      have hne : ∀ e ∈ a :: b :: rest, stringsSplit e.1 opts.Delimiter ≠ [] := by
        intro e he
        rcases List.mem_cons.1 he with h | h
        · rw [h]; exact (diverge_ne_nil (hc.1 b (List.mem_cons_self _ _))).1
        · exact (diverge_ne_nil (hc.1 e h)).2
      have hrel := pairwise_diverge_rel opts.Delimiter _ hwf
      rw [unflatten_any_order opts h1 h2 h3 _ hne hrel o₁ p₁,
        unflatten_any_order opts h1 h2 h3 _ hne hrel o₂ p₂]

/-! ## The flat key of a path with bracketed indices -/

theorem segKey_foldl (opts : Options) (ad : String × String)
    (hA : getArrayDelimiters opts.ArrayDelimiter = .ok ad) :
    ∀ (rest : List Segment) (acc : String), acc ≠ "" →
      rest.foldl (segKey opts) acc = acc ++ encodeTail opts.Delimiter ad rest
  | [], acc, _ => by simp [encodeTail]
  | .key k :: rest, acc, h => by
    have h1 : segKey opts acc (.key k) = acc ++ opts.Delimiter ++ k := by
      simp [segKey, mapKey, h]
    have h2 : acc ++ opts.Delimiter ++ k ≠ "" := by
      rw [String.append_assoc]; exact string_ne_empty_append _ h
    rw [List.foldl_cons, h1, segKey_foldl opts ad hA rest _ h2, encodeTail]
    simp only [String.append_assoc]
  | .idx i :: rest, acc, h => by
    have h1 : segKey opts acc (.idx i) = acc ++ ad.1 ++ strconvItoa i ++ ad.2 := by
      simp only [segKey]
      exact seqKey_bracket opts acc i ad hA h
    have h2 : acc ++ ad.1 ++ strconvItoa i ++ ad.2 ≠ "" := by
      rw [String.append_assoc, String.append_assoc]; exact string_ne_empty_append _ h
    rw [List.foldl_cons, h1, segKey_foldl opts ad hA rest _ h2, encodeTail]
    simp only [String.append_assoc]

theorem encodePath_cons (opts : Options) (ad : String × String)
    (hA : getArrayDelimiters opts.ArrayDelimiter = .ok ad) (k0 : String)
    (rest : List Segment) (hk : k0 ≠ "") :
    encodePath opts (.key k0 :: rest) = k0 ++ encodeTail opts.Delimiter ad rest := by
  have h1 : segKey opts "" (.key k0) = k0 := by simp [segKey, mapKey]
  rw [encodePath, List.foldl_cons, h1, segKey_foldl opts ad hA rest k0 hk]

/-! ## Replacing a one-character string -/

theorem replaceGo_single (o : Char) (new : List Char) : ∀ s : List Char,
    replaceGo [o] new 0 s = s.flatMap (fun ch => if ch = o then new else [ch])
  | [] => by simp [replaceGo]
  | c :: cs => by
    have ih := replaceGo_single o new cs
    by_cases hc : c = o
    · subst hc
      simp [replaceGo, List.isPrefixOf, ih]
    · have hb : ([o] : List Char).isPrefixOf (c :: cs) = false := by
        simp [List.isPrefixOf, Ne.symm hc]
      simp [replaceGo, hb, ih, hc]

theorem stringsReplace_single (s : String) (o : Char) (new : String) :
    stringsReplace s ⟨[o]⟩ new
      = ⟨s.data.flatMap (fun ch => if ch = o then new.data else [ch])⟩ := by
  simp [stringsReplace, replaceGo_single]

theorem flatMap_keep (o : Char) (new : List Char) : ∀ l : List Char, (∀ ch ∈ l, ch ≠ o) →
    l.flatMap (fun ch => if ch = o then new else [ch]) = l
  | [], _ => by simp
  | x :: l, h => by
    have hx : x ≠ o := h x (List.mem_cons_self _ _)
    have ih := flatMap_keep o new l (fun ch hch => h ch (List.mem_cons_of_mem _ hch))
    simp [List.flatMap_cons, hx, ih]

theorem itoa_digits (i : Nat) : ∀ ch ∈ (strconvItoa i).data, ch.isDigit = true :=
  fun ch hch => List.all_eq_true.1 (itoa_spec i).2.1 ch hch

theorem key_decodable {d o : List Char} {k : String}
    (h : (Segment.key k).decodable d o = true) : ∀ ch ∈ k.data, ch ∉ d ∧ ch ∉ o := by
  intro ch hch
  have := List.all_eq_true.1 h ch hch
  simpa using this

theorem idx_decodable {d o : List Char} {i : Nat}
    (h : (Segment.idx i).decodable d o = true) : i + 1 < 2 ^ 63 := by
  simpa [Segment.decodable] using h

/-- The normalization of `uf` on the flat key of a path: a delimiter is put before every
bracketed index. -/
theorem normalize_tail (d : String) (o c : Char) (hdo : o ∉ d.data) (hco : c ≠ o)
    (hod : o.isDigit = false) :
    ∀ rest : List Segment, (∀ s ∈ rest, s.decodable d.data [o] = true) →
      (encodeTail d (⟨[o]⟩, ⟨[c]⟩) rest).data.flatMap
          (fun ch => if ch = o then d.data ++ [o] else [ch])
        = (pathTail d (rest.map (segText (⟨[o]⟩, ⟨[c]⟩)))).data
  | [], _ => by simp [encodeTail, pathTail]
  | .key k :: rest, h => by
    have ih := normalize_tail d o c hdo hco hod rest
      (fun s hs => h s (List.mem_cons_of_mem _ hs))
    have hk := key_decodable (h _ (List.mem_cons_self _ _))
    have h1 : d.data.flatMap (fun ch => if ch = o then d.data ++ [o] else [ch]) = d.data :=
      flatMap_keep o _ _ (fun ch hch e => hdo (e ▸ hch))
    have h2 : k.data.flatMap (fun ch => if ch = o then d.data ++ [o] else [ch]) = k.data :=
      flatMap_keep o _ _ (fun ch hch e => (hk ch hch).2 (by simp [e]))
    simp only [encodeTail, List.map_cons, pathTail, segText, String.data_append,
      List.flatMap_append, h1, h2, ih]
  | .idx i :: rest, h => by
    have ih := normalize_tail d o c hdo hco hod rest
      (fun s hs => h s (List.mem_cons_of_mem _ hs))
    have h2 : (strconvItoa i).data.flatMap (fun ch => if ch = o then d.data ++ [o] else [ch])
        = (strconvItoa i).data :=
      flatMap_keep o _ _ (fun ch hch e => by
        have := itoa_digits i ch hch
        rw [e, hod] at this
        cases this)
    simp only [encodeTail, List.map_cons, pathTail, segText, String.data_append,
      List.flatMap_append, h2, ih]
    simp [List.flatMap_cons, hco]

theorem normalize_key (d : String) (o c : Char) (hdo : o ∉ d.data) (hco : c ≠ o)
    (hod : o.isDigit = false) (k0 : String) (rest : List Segment)
    (h : ∀ s ∈ Segment.key k0 :: rest, s.decodable d.data [o] = true) :
    stringsReplace (k0 ++ encodeTail d (⟨[o]⟩, ⟨[c]⟩) rest) ⟨[o]⟩ (d ++ ⟨[o]⟩)
      = k0 ++ pathTail d (rest.map (segText (⟨[o]⟩, ⟨[c]⟩))) := by
  have hk := key_decodable (h _ (List.mem_cons_self _ _))
  have h2 : k0.data.flatMap (fun ch => if ch = o then d.data ++ [o] else [ch]) = k0.data :=
    flatMap_keep o _ _ (fun ch hch e => (hk ch hch).2 (by simp [e]))
  have ht := normalize_tail d o c hdo hco hod rest
    (fun s hs => h s (List.mem_cons_of_mem _ hs))
  rw [stringsReplace_single]
  apply String.ext
  simp only [String.data_append, List.flatMap_append, h2]
  rw [← ht]

theorem segText_free (d : String) (o c : Char) (hdo : o ∉ d.data) (hdc : c ∉ d.data)
    (hdd : ∀ ch ∈ d.data, ch.isDigit = false) (s : Segment)
    (h : s.decodable d.data [o] = true) :
    ∀ ch ∈ (segText (⟨[o]⟩, ⟨[c]⟩) s).data, ch ∉ d.data := by
  cases s with
  | key k => exact fun ch hch => (key_decodable h ch hch).1
  | idx i =>
    intro ch hch hd
    simp only [segText, String.data_append, List.mem_append, List.mem_singleton] at hch
    rcases hch with (hch | hch) | hch
    · exact hdo (hch ▸ hd)
    · have := itoa_digits i ch hch
      rw [hdd ch hd] at this
      cases this
    · exact hdc (hch ▸ hd)

/-! ## Reading an index back -/

theorem atoi_itoa (i : Nat) (hi : i < 2 ^ 63) : strconvAtoi (strconvItoa i) = some (i : Int) := by
  obtain ⟨hv, hall, hne⟩ := itoa_spec i
  cases hds : (strconvItoa i).data with
  | nil => exact absurd hds hne
  | cons x r =>
    have hx : x.isDigit = true := itoa_digits i x (by rw [hds]; exact List.mem_cons_self _ _)
    have hm : x ≠ '-' := fun e => by rw [e] at hx; exact absurd hx (by decide)
    have hp : x ≠ '+' := fun e => by rw [e] at hx; exact absurd hx (by decide)
    rw [hds] at hall hv
    have hlt : ¬ ((2 : Int) ^ 63 ≤ (i : Int)) := by
      have : ((i : Nat) : Int) < (2 : Int) ^ 63 := by exact_mod_cast hi
      omega
    have hge : ¬ ((i : Int) < -(2 : Int) ^ 63) := by omega
    unfold strconvAtoi
    rw [hds]
    split
    · rename_i heq; injection heq with h1 _; exact absurd h1 hm
    · rename_i heq; injection heq with h1 _; exact absurd h1 hp
    · rename_i heq
      simp only [hall, hv, List.isEmpty_cons, Bool.not_true, Bool.or_self, Bool.false_eq_true,
        if_false, hlt, hge, or_self]

theorem getArrayIndex_idx (o c : Char) (hco : c ≠ o) (hod : o.isDigit = false)
    (hcd : c.isDigit = false) (i : Nat) (hi : i < 2 ^ 63) :
    getArrayIndex (⟨[o]⟩ ++ strconvItoa i ++ ⟨[c]⟩) (⟨[o]⟩, ⟨[c]⟩) = .ok (i : Int) := by
  have hno : ∀ ch ∈ (strconvItoa i).data, ch ≠ o := fun ch hch e => by
    have := itoa_digits i ch hch
    rw [e, hod] at this
    cases this
  have hnc : ∀ ch ∈ (strconvItoa i).data, ch ≠ c := fun ch hch e => by
    have := itoa_digits i ch hch
    rw [e, hcd] at this
    cases this
  have hp : stringsHasPrefix (⟨[o]⟩ ++ strconvItoa i ++ ⟨[c]⟩) ⟨[o]⟩ = true := by
    simp [stringsHasPrefix, List.isPrefixOf]
  have h1 : stringsReplace (⟨[o]⟩ ++ strconvItoa i ++ ⟨[c]⟩) ⟨[o]⟩ ""
      = strconvItoa i ++ ⟨[c]⟩ := by
    rw [stringsReplace_single]
    apply String.ext
    have hk := flatMap_keep o [] (strconvItoa i).data hno
    have hd0 : ("" : String).data = [] := rfl
    simp only [String.data_append, List.flatMap_append, hd0, hk]
    simp [List.flatMap_cons, hco]
  have h2 : stringsReplace (strconvItoa i ++ ⟨[c]⟩) ⟨[c]⟩ "" = strconvItoa i := by
    rw [stringsReplace_single]
    apply String.ext
    have hk := flatMap_keep c [] (strconvItoa i).data hnc
    have hd0 : ("" : String).data = [] := rfl
    simp only [String.data_append, List.flatMap_append, hd0, hk]
    simp [List.flatMap_cons]
  simp only [getArrayIndex, hp, if_true, h1, h2, atoi_itoa i hi]

theorem ufStep_idx (o c : Char) (hco : c ≠ o) (hod : o.isDigit = false)
    (hcd : c.isDigit = false) (i : Nat) (hi : i + 1 < 2 ^ 63) (n : Value) :
    ufStep (.ok (⟨[o]⟩, ⟨[c]⟩)) (⟨[o]⟩, ⟨[c]⟩) (⟨[o]⟩ ++ strconvItoa i ++ ⟨[c]⟩) n
      = .ok (.seq (List.replicate i .null ++ [n])) := by
  have hg := getArrayIndex_idx o c hco hod hcd i (by omega)
  have h1 : ¬ ((i : Int) < 0 ∨ (2 : Int) ^ 63 ≤ (i : Int) + 1) := by
    have : ((i + 1 : Nat) : Int) < (2 : Int) ^ 63 := by exact_mod_cast hi
    push_cast at this
    omega
  unfold ufStep
  rw [hg]
  simp only [h1, if_false, Int.toNat_ofNat]

theorem ufStep_key (e : Except Failure (String × String)) (o c : Char) (k : String)
    (hk : ∀ ch ∈ k.data, ch ≠ o) (n : Value) :
    ufStep e (⟨[o]⟩, ⟨[c]⟩) k n = .ok (.map [(k, n)]) := by
  apply ufStep_no_bracket
  cases hd : k.data with
  | nil => simp [stringsHasPrefix, hd, List.isPrefixOf]
  | cons x r =>
    have hx : x ≠ o := hk x (by rw [hd]; exact List.mem_cons_self _ _)
    simp [stringsHasPrefix, hd, List.isPrefixOf, Ne.symm hx]

theorem ufLoop_segments (d : List Char) (o c : Char) (hco : c ≠ o) (hod : o.isDigit = false)
    (hcd : c.isDigit = false) (v : Value) :
    ∀ segs : List Segment, (∀ s ∈ segs, s.decodable d [o] = true) →
      ufLoop (.ok (⟨[o]⟩, ⟨[c]⟩)) (⟨[o]⟩, ⟨[c]⟩) v (segs.map (segText (⟨[o]⟩, ⟨[c]⟩)))
        = .ok (singlePath segs v)
  | [], _ => rfl
  | .key k :: rest, h => by
    have ih := ufLoop_segments d o c hco hod hcd v rest
      (fun s hs => h s (List.mem_cons_of_mem _ hs))
    have hk := key_decodable (h _ (List.mem_cons_self _ _))
    rw [List.map_cons, ufLoop, ih]
    exact ufStep_key _ o c k (fun ch hch e => (hk ch hch).2 (by simp [e])) _
  | .idx i :: rest, h => by
    have ih := ufLoop_segments d o c hco hod hcd v rest
      (fun s hs => h s (List.mem_cons_of_mem _ hs))
    have hi := idx_decodable (h _ (List.mem_cons_self _ _))
    rw [List.map_cons, ufLoop, ih]
    exact ufStep_idx o c hco hod hcd i hi _

/-- The decoder on the flat key of a path that starts with a non-empty mapping key. -/
theorem uf_encodePath (opts : Options) (o c : Char)
    (hA : getArrayDelimiters opts.ArrayDelimiter = .ok (⟨[o]⟩, ⟨[c]⟩))
    (hne : opts.Delimiter.data ≠ []) (hdo : o ∉ opts.Delimiter.data)
    (hdc : c ∉ opts.Delimiter.data) (hdd : ∀ ch ∈ opts.Delimiter.data, ch.isDigit = false)
    (hco : c ≠ o) (hod : o.isDigit = false) (hcd : c.isDigit = false)
    (k0 : String) (rest : List Segment) (v : Value) (hk0 : k0 ≠ "")
    (h : ∀ s ∈ Segment.key k0 :: rest, s.decodable opts.Delimiter.data [o] = true) :
    uf (encodePath opts (.key k0 :: rest)) v opts = .ok (singlePath (.key k0 :: rest) v) := by
  have hsplit : stringsSplit (k0 ++ pathTail opts.Delimiter
        (rest.map (segText (⟨[o]⟩, ⟨[c]⟩)))) opts.Delimiter
      = k0 :: rest.map (segText (⟨[o]⟩, ⟨[c]⟩)) := by
    apply split_pathTail opts.Delimiter hne
    intro x hx
    rcases List.mem_cons.1 hx with hx | hx
    · rw [hx]
      exact fun ch hch => (key_decodable (h _ (List.mem_cons_self _ _)) ch hch).1
    · obtain ⟨s, hs, hsx⟩ := List.mem_map.1 hx
      rw [← hsx]
      exact segText_free opts.Delimiter o c hdo hdc hdd s (h s (List.mem_cons_of_mem _ hs))
  rw [encodePath_cons opts _ hA k0 rest hk0]
  unfold uf
  simp only [hA]
  rw [normalize_key opts.Delimiter o c hdo hco hod k0 rest h, hsplit]
  exact ufLoop_segments opts.Delimiter.data o c hco hod hcd v (.key k0 :: rest) h

/-! ## C17: decoding the flat key of a path -/

/-- C17.  With PARENS, BRACKETS or CURLY_BRACES and delimiter `"."`, take a path that
starts with a non-empty mapping key, whose mapping keys contain neither `"."` nor the
opening bracket, and whose indices `i` are slice positions (`i + 1` is an `int`).  Then
`uf` applied to the flat key that `flatten` builds for the path and to a value `v`
returns the single-path value: a one-key mapping for each mapping key, and for each index
`i` a sequence of length `i + 1` with nulls before position `i`. -/
theorem decode_inverts_encode (opts : Options) (ad : String × String) (k0 : String)
    (rest : List Segment) (v : Value)
    (hA : getArrayDelimiters opts.ArrayDelimiter = .ok ad) (hd : opts.Delimiter = ".")
    (hk0 : k0 ≠ "")
    (h : ∀ s ∈ Segment.key k0 :: rest, s.decodable ['.'] ad.1.data = true) :
    uf (encodePath opts (.key k0 :: rest)) v opts = .ok (singlePath (.key k0 :: rest) v) := by
  obtain ⟨o, c, rfl, hoc⟩ := getArrayDelimiters_ok hA
  have hdata : opts.Delimiter.data = ['.'] := by rw [hd]
  have hfacts : o ≠ '.' ∧ c ≠ '.' ∧ c ≠ o ∧ o.isDigit = false ∧ c.isDigit = false := by
    simp only [List.mem_cons, Prod.mk.injEq, List.mem_singleton, List.not_mem_nil,
      or_false] at hoc
    rcases hoc with ⟨rfl, rfl⟩ | ⟨rfl, rfl⟩ | ⟨rfl, rfl⟩ <;> decide
  obtain ⟨h1, h2, h3, h4, h5⟩ := hfacts
  refine uf_encodePath opts o c hA (by rw [hdata]; simp) (by rw [hdata]; simpa using h1)
    (by rw [hdata]; simpa using h2) ?_ h3 h4 h5 k0 rest v hk0 (by rw [hdata]; exact h)
  intro ch hch
  rw [hdata, List.mem_singleton] at hch
  rw [hch]
  decide

/-- C17 at work: with BRACKETS, the path `a`, `2`, `b` has the flat key `"a[2].b"`, which
is the key under which `Flatten` stores the value at that path, and which decodes to
`{"a": [null, null, {"b": v}]}`. -/
theorem decode_inverts_encode_witness :
    encodePath { nilOptions with ArrayDelimiter := "BRACKETS" } [.key "a", .idx 2, .key "b"]
        = "a[2].b"
      ∧ Flatten [("a", .seq [.null, .null, .map [("b", .str "v")]])]
          (some { nilOptions with ArrayDelimiter := "BRACKETS" })
        = .ok [("a[0]", .null), ("a[1]", .null), ("a[2].b", .str "v")]
      ∧ uf "a[2].b" (.str "v") { nilOptions with ArrayDelimiter := "BRACKETS" }
        = .ok (.map [("a", .seq [.null, .null, .map [("b", .str "v")]])]) :=
  ⟨by decide, by decide,
   (decode_inverts_encode { nilOptions with ArrayDelimiter := "BRACKETS" } ("[", "]") "a"
      [.idx 2, .key "b"] (.str "v") rfl rfl (by decide) (by decide) :)⟩

/-! ## C9: a scalar and a longer conflicting key -/

/-- C9 as stated fails.  A key `k` that itself contains the delimiter, one that shares a
character with a longer delimiter, or one with an array bracket is never stored as
`{k: s}`, whichever entry is merged first.  And with `sliceDeepMerge` on, `unflatten` turns
`Overwrite` off: when the entry `"travis" -> "true"` is merged after the longer key, the
mapping decoded from the longer key stays. -/
theorem scalar_key_not_kept :
    Unflatten [("a_b_c", .num 1), ("a_b", .str "x")] (some { nilOptions with Delimiter := "_" })
        = .ok [("a", .map [("b", .str "x")])]
      ∧ Unflatten [("a_b", .str "x"), ("a_b_c", .num 1)]
          (some { nilOptions with Delimiter := "_" })
        = .ok [("a", .map [("b", .str "x")])]
      ∧ Unflatten [("aaab", .num 1), ("a", .str "x")]
          (some { nilOptions with Delimiter := "aa" })
        = .ok [("", .map [("ab", .num 1)]), ("a", .str "x")]
      ∧ Unflatten [("a[0]_b", .num 1), ("a[0]", .str "x")]
          (some { nilOptions with Delimiter := "_", ArrayDelimiter := "BRACKETS" })
        = .ok [("a", .seq [.str "x"])]
      ∧ Unflatten [("travis_build_dir", .str "/home/foo"), ("travis", .str "true")]
          (some { nilOptions with Delimiter := "_", SliceDeepMerge := true })
        = .ok [("travis", .map [("build", .map [("dir", .str "/home/foo")])])] := by
  refine ⟨?_, ?_, ?_, ?_, ?_⟩ <;> decide

/-- C9, amended.  With the array delimiter NONE or a name that is not recognized,
`sliceDeepMerge` off, a non-empty delimiter `d`, a key `k` that contains no character of
`d` and a non-null scalar `s`: for the flat map of the entry `k -> s` and an entry whose key
is `k + d + rest`, `Unflatten` returns exactly `{k: s}`, whichever of the two entries is
merged first. -/
theorem scalar_kept_both_orders (opts : Options) (k rest : String) (s v : Value)
    (h1 : opts.ArrayDelimiter ≠ "PARENS") (h2 : opts.ArrayDelimiter ≠ "BRACKETS")
    (h3 : opts.ArrayDelimiter ≠ "CURLY_BRACES") (hS : opts.SliceDeepMerge = false)
    (hd : opts.Delimiter ≠ "") (hk : ∀ x ∈ k.data, x ∉ opts.Delimiter.data)
    (hs : s.isScalar = true) (hn : s ≠ .null) :
    Unflatten [(k ++ opts.Delimiter ++ rest, v), (k, s)] (some opts) = .ok [(k, s)] ∧
      Unflatten [(k, s), (k ++ opts.Delimiter ++ rest, v)] (some opts) = .ok [(k, s)] := by
  have hd' : opts.Delimiter.data ≠ [] := fun e => hd (String.ext e)
  have hne : stringsSplit rest opts.Delimiter ≠ [] := split_ne_nil rest _ hd'
  obtain ⟨m, hm⟩ := nest_cons_isMap _ v hne
  have hu1 : uf (k ++ opts.Delimiter ++ rest) v opts = .ok (.map [(k, .map m)]) := by
    rw [uf_unrecognized _ _ _ h1 h2 h3, split_cons _ k rest hd' hk, nest, hm]
  have hu2 : uf k s opts = .ok (.map [(k, s)]) := by
    rw [uf_unrecognized _ _ _ h1 h2 h3, split_single _ k hd' hk]; rfl
  have hO : (mergeConfig opts).Overwrite = true := by simp [mergeConfig, hS]
  constructor
  · show unflattenLoop opts _ [] = _
    rw [unflattenLoop_step _ _ _ _ _ _ hu1, unflattenLoop_step _ _ _ _ _ _ hu2]
    simp only [unflattenLoop, mergeMap_cons, mergeMap_nil, mapUpsert_nil, mapUpsert_hit,
      storeWith, merge_scalar _ _ s hO hs hn]
  · show unflattenLoop opts _ [] = _
    rw [unflattenLoop_step _ _ _ _ _ _ hu2, unflattenLoop_step _ _ _ _ _ _ hu1]
    simp only [unflattenLoop, mergeMap_cons, mergeMap_nil, mapUpsert_nil, mapUpsert_hit,
      storeWith, merge_scalar_kept _ s m hs hn]

/-- C9, amended, at the input of the repository's test "do not overwrite", in both
orders. -/
theorem scalar_kept_both_orders_witness :
    Unflatten [("travis" ++ "_" ++ "build_dir", .str "/home/foo"), ("travis", .str "true")]
        (some { nilOptions with Delimiter := "_" }) = .ok [("travis", .str "true")] ∧
      Unflatten [("travis", .str "true"), ("travis" ++ "_" ++ "build_dir", .str "/home/foo")]
        (some { nilOptions with Delimiter := "_" }) = .ok [("travis", .str "true")] :=
  scalar_kept_both_orders { nilOptions with Delimiter := "_" } "travis" "build_dir"
    (.str "true") (.str "/home/foo") (by decide) (by decide) (by decide) rfl (by decide)
    (by decide) rfl (by decide)

/-! ## Merging single-path values with sequences -/

theorem merge_null_left (c : MergeConfig) (x : Value) : merge c .null x = x := by
  cases x <;> simp [merge]

theorem merge_null_right (c : MergeConfig) (x : Value) (h : c.OverwriteNilInMaps = false) :
    merge c x .null = x := by
  cases x <;> simp [merge, h]

theorem merge_seq_seq (c : MergeConfig) (a b : List Value) (h : c.SliceDeepMerge = true) :
    merge c (.seq a) (.seq b) = .seq (mergeSeq c a b) := by
  simp [merge, h]

theorem mergeSeq_nil_right (c : MergeConfig) (a : List Value) : mergeSeq c a [] = a := by
  cases a <;> simp [mergeSeq]

theorem mergeSeq_nil_left (c : MergeConfig) (b : List Value) : mergeSeq c [] b = b := by
  cases b <;> simp [mergeSeq]

theorem mergeSeq_cons (c : MergeConfig) (a b : Value) (as bs : List Value) :
    mergeSeq c (a :: as) (b :: bs) = merge c a b :: mergeSeq c as bs := by
  rw [mergeSeq]

theorem merge_onto_nonseq (c : MergeConfig) (o : Value) (ho : ∀ z, o ≠ .seq z) :
    (∀ b : List Value, merge c o (.seq b) = .seq b) ∨
      (∀ b : List Value, merge c o (.seq b) = o) := by
  cases o with
  | seq z => exact absurd rfl (ho z)
  | null => exact Or.inl (fun b => by simp [merge])
  | bool x => exact Or.inr (fun b => by simp [merge])
  | num x => exact Or.inr (fun b => by simp [merge])
  | str x => exact Or.inr (fun b => by simp [merge])
  | map m =>
    by_cases hO : c.Overwrite = true
    · exact Or.inl (fun b => by simp [merge, hO])
    · exact Or.inr (fun b => by simp [merge, hO])

theorem singlePath_cons (seg : Segment) (r : List Segment) (v : Value) :
    singlePath (seg :: r) v = wrapSegment seg (singlePath r v) := rfl

/-- Two values for one position of a sequence, merged into any sequence in either order. -/
theorem mergeSeq_same_index (c : MergeConfig) (P Q : Value)
    (h : ∀ o, merge c (merge c o P) Q = merge c (merge c o Q) P) :
    ∀ (i : Nat) (xs : List Value),
      mergeSeq c (mergeSeq c xs (List.replicate i .null ++ [P])) (List.replicate i .null ++ [Q])
        = mergeSeq c (mergeSeq c xs (List.replicate i .null ++ [Q]))
            (List.replicate i .null ++ [P])
  | 0, [] => by
    have := h .null
    rw [merge_null_left, merge_null_left] at this
    simp [mergeSeq_nil_left, mergeSeq_cons, mergeSeq_nil_right, this]
  | 0, x :: xs => by
    simp [mergeSeq_cons, mergeSeq_nil_right, h x]
  | i + 1, [] => by
    have ih := mergeSeq_same_index c P Q h i []
    simp only [mergeSeq_nil_left] at ih
    simp only [List.replicate_succ, List.cons_append, mergeSeq_nil_left, mergeSeq_cons, ih]
  | i + 1, x :: xs => by
    have ih := mergeSeq_same_index c P Q h i xs
    simp only [List.replicate_succ, List.cons_append, mergeSeq_cons, ih]

/-- Two values for different positions of a sequence, merged into any sequence in either
order, when a null does not overwrite. -/
theorem mergeSeq_other_index (c : MergeConfig) (hn : c.OverwriteNilInMaps = false)
    (S T : Value) :
    ∀ (i j : Nat) (xs : List Value), i ≠ j →
      mergeSeq c (mergeSeq c xs (List.replicate i .null ++ [S])) (List.replicate j .null ++ [T])
        = mergeSeq c (mergeSeq c xs (List.replicate j .null ++ [T]))
            (List.replicate i .null ++ [S])
  | 0, 0, _, h => absurd rfl h
  | 0, j + 1, [], _ => by
    simp [List.replicate_succ, mergeSeq_nil_left, mergeSeq_cons, mergeSeq_nil_right,
      merge_null_left, merge_null_right c _ hn]
  | 0, j + 1, x :: xs, _ => by
    simp [List.replicate_succ, mergeSeq_cons, mergeSeq_nil_right, merge_null_right c _ hn]
  | i + 1, 0, [], _ => by
    simp [List.replicate_succ, mergeSeq_nil_left, mergeSeq_cons, mergeSeq_nil_right,
      merge_null_left, merge_null_right c _ hn]
  | i + 1, 0, x :: xs, _ => by
    simp [List.replicate_succ, mergeSeq_cons, mergeSeq_nil_right, merge_null_right c _ hn]
  | i + 1, j + 1, [], h => by
    have ih := mergeSeq_other_index c hn S T i j [] (by omega)
    simp only [mergeSeq_nil_left] at ih
    simp only [List.replicate_succ, List.cons_append, mergeSeq_nil_left, mergeSeq_cons, ih]
  | i + 1, j + 1, x :: xs, h => by
    have ih := mergeSeq_other_index c hn S T i j xs (by omega)
    simp only [List.replicate_succ, List.cons_append, mergeSeq_cons, ih]

theorem merge_flip (c : MergeConfig) (P Q : Value)
    (h : ∀ o, merge c (merge c o P) Q = merge c (merge c o Q) P) :
    merge c P Q = merge c Q P := by
  have := h .null
  rwa [merge_null_left, merge_null_left] at this

theorem wrap_key_comm (c : MergeConfig) (k : String) (P Q : Value)
    (h : ∀ o, merge c (merge c o P) Q = merge c (merge c o Q) P) (o : Value) :
    merge c (merge c o (.map [(k, P)])) (.map [(k, Q)])
      = merge c (merge c o (.map [(k, Q)])) (.map [(k, P)]) := by
  have h2 : merge c (.map [(k, P)]) (.map [(k, Q)])
      = merge c (.map [(k, Q)]) (.map [(k, P)]) := by
    rw [merge_map_map, merge_map_map, mergeMap_single, mergeMap_single, mapUpsert_hit,
      mapUpsert_hit]
    simp only [storeWith, merge_flip c P Q h]
  by_cases ho : ∃ z, o = .map z
  · obtain ⟨z, rfl⟩ := ho
    rw [merge_map_map, merge_map_map, merge_map_map, merge_map_map, mergeMap_single,
      mergeMap_single, mergeMap_single, mergeMap_single, mapUpsert_twice, mapUpsert_twice]
    congr 2
    funext o
    cases o with
    | none => simp only [storeWith, merge_flip c P Q h]
    | some old => simp only [storeWith, h old]
  · have ho' : ∀ z, o ≠ .map z := fun z hz => ho ⟨z, hz⟩
    rcases merge_onto_nonmap c o ho' with e0 | e0
    · rw [e0, e0, h2]
    · rw [e0, e0, e0]

theorem wrap_idx_comm (c : MergeConfig) (hdeep : c.SliceDeepMerge = true) (i : Nat)
    (P Q : Value) (h : ∀ o, merge c (merge c o P) Q = merge c (merge c o Q) P) (o : Value) :
    merge c (merge c o (.seq (List.replicate i .null ++ [P])))
        (.seq (List.replicate i .null ++ [Q]))
      = merge c (merge c o (.seq (List.replicate i .null ++ [Q])))
          (.seq (List.replicate i .null ++ [P])) := by
  have h2 : merge c (.seq (List.replicate i .null ++ [P]))
        (.seq (List.replicate i .null ++ [Q]))
      = merge c (.seq (List.replicate i .null ++ [Q]))
          (.seq (List.replicate i .null ++ [P])) := by
    have := mergeSeq_same_index c P Q h i []
    simp only [mergeSeq_nil_left] at this
    rw [merge_seq_seq c _ _ hdeep, merge_seq_seq c _ _ hdeep, this]
  by_cases ho : ∃ z, o = .seq z
  · obtain ⟨z, rfl⟩ := ho
    rw [merge_seq_seq c _ _ hdeep, merge_seq_seq c _ _ hdeep, merge_seq_seq c _ _ hdeep,
      merge_seq_seq c _ _ hdeep, mergeSeq_same_index c P Q h i z]
  · have ho' : ∀ z, o ≠ .seq z := fun z hz => ho ⟨z, hz⟩
    rcases merge_onto_nonseq c o ho' with e0 | e0
    · rw [e0, e0, h2]
    · rw [e0, e0, e0]

theorem fork_key_comm (c : MergeConfig) (a b : String) (hab : a ≠ b) (S T : Value)
    (o : Value) :
    merge c (merge c o (.map [(a, S)])) (.map [(b, T)])
      = merge c (merge c o (.map [(b, T)])) (.map [(a, S)]) := by
  have h2 : merge c (.map [(a, S)]) (.map [(b, T)])
      = merge c (.map [(b, T)]) (.map [(a, S)]) := by
    rw [merge_map_map, merge_map_map, mergeMap_single, mergeMap_single]
    have := mapUpsert_comm (storeWith S (fun old => merge c old S))
      (storeWith T (fun old => merge c old T)) a b hab []
    simpa [mapUpsert_nil, storeWith] using this
  by_cases ho : ∃ z, o = .map z
  · obtain ⟨z, rfl⟩ := ho
    rw [merge_map_map, merge_map_map, merge_map_map, merge_map_map, mergeMap_single,
      mergeMap_single, mergeMap_single, mergeMap_single, mapUpsert_comm _ _ a b hab]
  · have ho' : ∀ z, o ≠ .map z := fun z hz => ho ⟨z, hz⟩
    rcases merge_onto_nonmap c o ho' with e0 | e0
    · rw [e0, e0, h2]
    · rw [e0, e0, e0]

theorem fork_idx_comm (c : MergeConfig) (hdeep : c.SliceDeepMerge = true)
    (hn : c.OverwriteNilInMaps = false) (i j : Nat) (hij : i ≠ j) (S T : Value) (o : Value) :
    merge c (merge c o (.seq (List.replicate i .null ++ [S])))
        (.seq (List.replicate j .null ++ [T]))
      = merge c (merge c o (.seq (List.replicate j .null ++ [T])))
          (.seq (List.replicate i .null ++ [S])) := by
  have h2 : merge c (.seq (List.replicate i .null ++ [S]))
        (.seq (List.replicate j .null ++ [T]))
      = merge c (.seq (List.replicate j .null ++ [T]))
          (.seq (List.replicate i .null ++ [S])) := by
    have := mergeSeq_other_index c hn S T i j [] hij
    simp only [mergeSeq_nil_left] at this
    rw [merge_seq_seq c _ _ hdeep, merge_seq_seq c _ _ hdeep, this]
  by_cases ho : ∃ z, o = .seq z
  · obtain ⟨z, rfl⟩ := ho
    rw [merge_seq_seq c _ _ hdeep, merge_seq_seq c _ _ hdeep, merge_seq_seq c _ _ hdeep,
      merge_seq_seq c _ _ hdeep, mergeSeq_other_index c hn S T i j z hij]
  · have ho' : ∀ z, o ≠ .seq z := fun z hz => ho ⟨z, hz⟩
    rcases merge_onto_nonseq c o ho' with e0 | e0
    · rw [e0, e0, h2]
    · rw [e0, e0, e0]

theorem merge_single_comm_aux (c : MergeConfig) (a b : Segment) (hab : a ≠ b)
    (hk : a.sameKind b = true)
    (hc : a.isKey = true ∨ (c.SliceDeepMerge = true ∧ c.OverwriteNilInMaps = false))
    (s t : List Segment) (x y : Value) :
    ∀ r : List Segment, (c.SliceDeepMerge = true ∨ ∀ z ∈ r, z.isKey = true) →
      ∀ o : Value,
        merge c (merge c o (singlePath (r ++ a :: s) x)) (singlePath (r ++ b :: t) y)
          = merge c (merge c o (singlePath (r ++ b :: t) y)) (singlePath (r ++ a :: s) x)
  | [], _ => by
    intro o
    simp only [List.nil_append, singlePath_cons]
    cases a with
    | key ka =>
      cases b with
      | key kb =>
        exact fork_key_comm c ka kb (fun e => hab (by rw [e])) _ _ o
      | idx j => simp [Segment.sameKind] at hk
    | idx i =>
      cases b with
      | key kb => simp [Segment.sameKind] at hk
      | idx j =>
        rcases hc with hc | ⟨hdeep, hn⟩
        · simp [Segment.isKey] at hc
        · exact fork_idx_comm c hdeep hn i j (fun e => hab (by rw [e])) _ _ o
  | seg :: r, hr => by
    have hr' : c.SliceDeepMerge = true ∨ ∀ z ∈ r, z.isKey = true := by
      rcases hr with h | h
      · exact Or.inl h
      · exact Or.inr (fun z hz => h z (List.mem_cons_of_mem _ hz))
    have ih := merge_single_comm_aux c a b hab hk hc s t x y r hr'
    intro o
    simp only [List.cons_append, singlePath_cons]
    cases seg with
    | key k => exact wrap_key_comm c k _ _ ih o
    | idx i =>
      have hdeep : c.SliceDeepMerge = true := by
        rcases hr with h | h
        · exact h
        · have := h (.idx i) (List.mem_cons_self _ _)
          simp [Segment.isKey] at this
      exact wrap_idx_comm c hdeep i _ _ ih o

/-- Entries at paths that are apart can be merged in either order. -/
theorem merge_single_comm (c : MergeConfig) {p q : List Segment} (h : Apart c p q)
    (x y o : Value) :
    merge c (merge c o (singlePath p x)) (singlePath q y)
      = merge c (merge c o (singlePath q y)) (singlePath p x) := by
  obtain ⟨r, a, b, s, t, hp, hq, hab, hk, hr, hc⟩ := h
  subst hp; subst hq
  exact merge_single_comm_aux c a b hab hk hc s t x y r hr o

theorem fork_ne {p q : List Segment} (h : Fork p q) : p ≠ q := by
  obtain ⟨r, a, b, s, t, hp, hq, hab, _⟩ := h
  rw [hp, hq]
  intro e
  have := List.append_cancel_left e
  injection this with h1 _
  exact hab h1

theorem sameKind_isKey {a b : Segment} (h : a.sameKind b = true) : a.isKey = b.isKey := by
  cases a <;> cases b <;> simp [Segment.sameKind, Segment.isKey] at h ⊢

theorem fork_apart (c : MergeConfig) (hdeep : c.SliceDeepMerge = true)
    (hn : c.OverwriteNilInMaps = false) {p q : List Segment} (h : Fork p q) : Apart c p q := by
  obtain ⟨r, a, b, s, t, hp, hq, hab, hk⟩ := h
  exact ⟨r, a, b, s, t, hp, hq, hab, hk, Or.inl hdeep, Or.inr ⟨hdeep, hn⟩⟩

/-! ## Decoding bracketed flat keys, in any order -/

theorem bracket_facts {s : String} {o c : Char}
    (h : getArrayDelimiters s = .ok (⟨[o]⟩, ⟨[c]⟩)) :
    c ≠ o ∧ o.isDigit = false ∧ c.isDigit = false := by
  obtain ⟨o', c', hoc, hmem⟩ := getArrayDelimiters_ok h
  have ho : o = o' := by
    have := congrArg (fun p : String × String => p.1.data) hoc
    simpa using this
  have hc : c = c' := by
    have := congrArg (fun p : String × String => p.2.data) hoc
    simpa using this
  subst ho; subst hc
  simp only [List.mem_cons, Prod.mk.injEq, List.mem_singleton, List.not_mem_nil,
    or_false] at hmem
  rcases hmem with ⟨rfl, rfl⟩ | ⟨rfl, rfl⟩ | ⟨rfl, rfl⟩ <;> decide

theorem uf_good (opts : Options) (o c : Char) (hB : BracketSetup opts o c)
    (p : List Segment) (hp : GoodSegs opts.Delimiter.data [o] p) (v : Value) :
    uf (encodePath opts p) v opts = .ok (singlePath p v) := by
  obtain ⟨hA, hne, hdo, hdc, hdd⟩ := hB
  obtain ⟨h3, h4, h5⟩ := bracket_facts hA
  obtain ⟨⟨k, rest, rfl, hk⟩, hall⟩ := hp
  exact uf_encodePath opts o c hA hne hdo hdc hdd h3 h4 h5 k rest v hk hall

theorem singlePath_injective : ∀ (p q : List Segment),
    singlePath p (.str "") = singlePath q (.str "") → p = q
  | [], [], _ => rfl
  | [], b :: t, h => by
    rw [singlePath_cons] at h
    cases b <;> simp [singlePath, wrapSegment] at h
  | a :: s, [], h => by
    rw [singlePath_cons] at h
    cases a <;> simp [singlePath, wrapSegment] at h
  | a :: s, b :: t, h => by
    rw [singlePath_cons, singlePath_cons] at h
    cases a with
    | key ka =>
      cases b with
      | key kb =>
        simp only [wrapSegment, Value.map.injEq, List.cons.injEq, Prod.mk.injEq, and_true] at h
        rw [h.1, singlePath_injective s t h.2]
      | idx j => simp [wrapSegment] at h
    | idx i =>
      cases b with
      | key kb => simp [wrapSegment] at h
      | idx j =>
        simp only [wrapSegment, Value.seq.injEq] at h
        have hlen := congrArg List.length h
        simp only [List.length_append, List.length_replicate, List.length_singleton] at hlen
        have hij : i = j := by omega
        subst hij
        have := List.append_cancel_left h
        simp only [List.cons.injEq, and_true] at this
        rw [singlePath_injective s t this]

theorem encodePath_injective (opts : Options) (o c : Char) (hB : BracketSetup opts o c)
    {p q : List Segment} (hp : GoodSegs opts.Delimiter.data [o] p)
    (hq : GoodSegs opts.Delimiter.data [o] q) (h : encodePath opts p = encodePath opts q) :
    p = q := by
  have h1 := uf_good opts o c hB p hp (.str "")
  have h2 := uf_good opts o c hB q hq (.str "")
  rw [h, h2] at h1
  injection h1 with h1
  exact singlePath_injective p q h1.symm

/-- The decoder on the bracketed flat keys of paths that are pairwise apart: the order of
the entries does not matter. -/
theorem unflatten_paths_any_order (opts : Options) (o c : Char)
    (hB : BracketSetup opts o c) (L : List (List Segment × Value))
    (hg : ∀ e ∈ L, GoodSegs opts.Delimiter.data [o] e.1)
    (hap : ∀ x ∈ L, ∀ y ∈ L, x = y ∨ Apart (mergeConfig opts) x.1 y.1 ∨
      Apart (mergeConfig opts) y.1 x.1)
    (order : List (String × Value))
    (hp : order.Perm (L.map (fun e => (encodePath opts e.1, e.2)))) :
    unflatten order opts = unflatten (L.map (fun e => (encodePath opts e.1, e.2))) opts := by
  have hmem : ∀ e ∈ L.map (fun e => (encodePath opts e.1, e.2)),
      ∃ l ∈ L, e = (encodePath opts l.1, l.2) := by
    intro e he
    obtain ⟨l, hl, hle⟩ := List.mem_map.1 he
    exact ⟨l, hl, hle.symm⟩
  have huf : ∀ l ∈ L, uf (encodePath opts l.1) l.2 opts = .ok (singlePath l.1 l.2) :=
    fun l hl => uf_good opts o c hB l.1 (hg l hl) l.2
  have hmapF : ∀ e ∈ L.map (fun e => (encodePath opts e.1, e.2)),
      ∃ t, uf e.1 e.2 opts = .ok (.map t) := by
    intro e he
    obtain ⟨l, hl, hel⟩ := hmem e he
    obtain ⟨⟨k, rest, hk, _⟩, _⟩ := hg l hl
    rw [hel, huf l hl, hk]
    exact ⟨_, rfl⟩
  have hmapO : ∀ e ∈ order, ∃ t, uf e.1 e.2 opts = .ok (.map t) :=
    fun e he => hmapF e (hp.subset he)
  have hcomm : ∀ x ∈ order, ∀ y ∈ order, ∀ z,
      mergeEntry opts (mergeEntry opts z x) y = mergeEntry opts (mergeEntry opts z y) x := by
    intro x hx y hy z
    obtain ⟨l₁, hl₁, e₁⟩ := hmem x (hp.subset hx)
    obtain ⟨l₂, hl₂, e₂⟩ := hmem y (hp.subset hy)
    rw [e₁, e₂]
    simp only [mergeEntry, huf l₁ hl₁, huf l₂ hl₂]
    rcases hap l₁ hl₁ l₂ hl₂ with h | h | h
    · rw [h]
    · exact merge_single_comm (mergeConfig opts) h _ _ _
    · exact (merge_single_comm (mergeConfig opts) h _ _ _).symm
  obtain ⟨n₁, ha₁, hb₁⟩ := unflattenLoop_fold opts order [] hmapO
  obtain ⟨n₂, ha₂, hb₂⟩ := unflattenLoop_fold opts _ [] hmapF
  have e1 := hp.foldl_eq' hcomm (Value.map [])
  have hn : n₁ = n₂ := by
    have := hb₁.trans (e1.trans hb₂.symm)
    injection this
  show unflattenLoop opts order [] = unflattenLoop opts _ []
  rw [ha₁, ha₂, hn]

theorem pairwise_apart_rel (c : MergeConfig) (L : List (List Segment × Value))
    (h : L.Pairwise (fun e₁ e₂ => Apart c e₁.1 e₂.1)) :
    ∀ x ∈ L, ∀ y ∈ L, x = y ∨ Apart c x.1 y.1 ∨ Apart c y.1 x.1 := by
  intro x hx y hy
  refine List.Pairwise.forall_of_forall
    (R := fun a b => a = b ∨ Apart c a.1 b.1 ∨ Apart c b.1 a.1)
    ?_ (fun x _ => Or.inl rfl) (h.imp (fun h => Or.inr (Or.inl h))) hx hy
  intro a b hab
  rcases hab with h | h | h
  · exact Or.inl h.symm
  · exact Or.inr (Or.inr h)
  · exact Or.inr (Or.inl h)

/-! ## The leaf positions of a tree with bracketed indices -/

theorem segPositions_map_cons (p : List Segment) (e : String × Value)
    (m : List (String × Value)) :
    segPositions p (.map (e :: m)) = segPositionsEntries p (e :: m) := by
  rw [segPositions]

theorem segPositions_seq_cons (p : List Segment) (x : Value) (xs : List Value) :
    segPositions p (.seq (x :: xs)) = segPositionsFrom p 0 (x :: xs) := by
  rw [segPositions]

theorem segPositionsEntries_cons (p : List Segment) (k : String) (v : Value)
    (rest : List (String × Value)) :
    segPositionsEntries p ((k, v) :: rest)
      = segPositions (p ++ [.key k]) v ++ segPositionsEntries p rest := by
  rw [segPositionsEntries]

theorem segPositionsFrom_cons (p : List Segment) (i : Nat) (v : Value) (rest : List Value) :
    segPositionsFrom p i (v :: rest)
      = segPositions (p ++ [.idx i]) v ++ segPositionsFrom p (i + 1) rest := by
  rw [segPositionsFrom]

theorem segPositions_leaf (p : List Segment) (v : Value)
    (h1 : ∀ e m, v ≠ .map (e :: m)) (h2 : ∀ x xs, v ≠ .seq (x :: xs)) :
    segPositions p v = [(p, v)] := by
  cases v with
  | map m =>
    cases m with
    | nil => simp [segPositions]
    | cons e m => exact absurd rfl (h1 e m)
  | seq xs =>
    cases xs with
    | nil => simp [segPositions]
    | cons x xs => exact absurd rfl (h2 x xs)
  | _ => simp [segPositions]

theorem bracketed_map (d o : List Char) (m : List (String × Value)) :
    Value.bracketed d o (.map m) = (keysDistinct m && bracketedEntries d o m) := by
  rw [Value.bracketed]

theorem bracketed_seq (d o : List Char) (xs : List Value) :
    Value.bracketed d o (.seq xs)
      = (decide (xs.length < 2 ^ 63) && bracketedList d o xs) := by
  rw [Value.bracketed]

theorem bracketedEntries_cons (d o : List Char) (k : String) (v : Value)
    (rest : List (String × Value)) :
    bracketedEntries d o ((k, v) :: rest)
      = ((Segment.key k).decodable d o && Value.bracketed d o v
          && bracketedEntries d o rest) := by
  rw [bracketedEntries]

theorem bracketedList_cons (d o : List Char) (v : Value) (rest : List Value) :
    bracketedList d o (v :: rest) = (Value.bracketed d o v && bracketedList d o rest) := by
  rw [bracketedList]

mutual
theorem segPositions_extend : ∀ (v : Value) (p : List Segment),
    ∀ e ∈ segPositions p v, ∃ s, e.1 = p ++ s
  | .map [], p, e, he => by
    rw [segPositions_leaf p _ (by simp) (by simp)] at he
    exact ⟨[], by rw [List.mem_singleton.1 he]; simp⟩
  | .map ((k, v) :: m), p, e, he => by
    rw [segPositions_map_cons] at he
    obtain ⟨k', s, _, h⟩ := segPositionsEntries_extend ((k, v) :: m) p e he
    exact ⟨.key k' :: s, h⟩
  | .seq [], p, e, he => by
    rw [segPositions_leaf p _ (by simp) (by simp)] at he
    exact ⟨[], by rw [List.mem_singleton.1 he]; simp⟩
  | .seq (x :: xs), p, e, he => by
    rw [segPositions_seq_cons] at he
    obtain ⟨j, s, _, _, h⟩ := segPositionsFrom_extend (x :: xs) p 0 e he
    exact ⟨.idx j :: s, h⟩
  | .null, p, e, he => by
    rw [segPositions_leaf p _ (by simp) (by simp)] at he
    exact ⟨[], by rw [List.mem_singleton.1 he]; simp⟩
  | .bool _, p, e, he => by
    rw [segPositions_leaf p _ (by simp) (by simp)] at he
    exact ⟨[], by rw [List.mem_singleton.1 he]; simp⟩
  | .num _, p, e, he => by
    rw [segPositions_leaf p _ (by simp) (by simp)] at he
    exact ⟨[], by rw [List.mem_singleton.1 he]; simp⟩
  | .str _, p, e, he => by
    rw [segPositions_leaf p _ (by simp) (by simp)] at he
    exact ⟨[], by rw [List.mem_singleton.1 he]; simp⟩
theorem segPositionsEntries_extend : ∀ (m : List (String × Value)) (p : List Segment),
    ∀ e ∈ segPositionsEntries p m, ∃ k s, k ∈ m.map Prod.fst ∧ e.1 = p ++ .key k :: s
  | [], p, e, he => by simp [segPositionsEntries] at he
  | (k, v) :: rest, p, e, he => by
    rw [segPositionsEntries_cons] at he
    rcases List.mem_append.1 he with h | h
    · obtain ⟨s, hs⟩ := segPositions_extend v (p ++ [.key k]) e h
      exact ⟨k, s, by simp, by rw [hs]; simp⟩
    · obtain ⟨k', s, hk', hs⟩ := segPositionsEntries_extend rest p e h
      exact ⟨k', s, List.mem_cons_of_mem _ hk', hs⟩
theorem segPositionsFrom_extend : ∀ (xs : List Value) (p : List Segment) (i : Nat),
    ∀ e ∈ segPositionsFrom p i xs,
      ∃ j s, i ≤ j ∧ j < i + xs.length ∧ e.1 = p ++ .idx j :: s
  | [], p, i, e, he => by simp [segPositionsFrom] at he
  | v :: rest, p, i, e, he => by
    rw [segPositionsFrom_cons] at he
    rcases List.mem_append.1 he with h | h
    · obtain ⟨s, hs⟩ := segPositions_extend v (p ++ [.idx i]) e h
      exact ⟨i, s, le_refl _, by simp, by rw [hs]; simp⟩
    · obtain ⟨j, s, h1, h2, hs⟩ := segPositionsFrom_extend rest p (i + 1) e h
      exact ⟨j, s, by omega, by simp only [List.length_cons]; omega, hs⟩
end

mutual
theorem segPositions_fork (d o : List Char) : ∀ (v : Value) (p : List Segment),
    Value.bracketed d o v = true → (segPositions p v).Pairwise (fun e₁ e₂ => Fork e₁.1 e₂.1)
  | .map [], p, _ => by rw [segPositions_leaf p _ (by simp) (by simp)]; simp
  | .map ((k, v) :: m), p, h => by
    rw [segPositions_map_cons]
    rw [bracketed_map, Bool.and_eq_true] at h
    exact segPositionsEntries_fork d o ((k, v) :: m) p h.1 h.2
  | .seq [], p, _ => by rw [segPositions_leaf p _ (by simp) (by simp)]; simp
  | .seq (x :: xs), p, h => by
    rw [segPositions_seq_cons]
    rw [bracketed_seq, Bool.and_eq_true] at h
    exact segPositionsFrom_fork d o (x :: xs) p 0 h.2
  | .null, p, _ => by rw [segPositions_leaf p _ (by simp) (by simp)]; simp
  | .bool _, p, _ => by rw [segPositions_leaf p _ (by simp) (by simp)]; simp
  | .num _, p, _ => by rw [segPositions_leaf p _ (by simp) (by simp)]; simp
  | .str _, p, _ => by rw [segPositions_leaf p _ (by simp) (by simp)]; simp
theorem segPositionsEntries_fork (d o : List Char) :
    ∀ (m : List (String × Value)) (p : List Segment),
      keysDistinct m = true → bracketedEntries d o m = true →
      (segPositionsEntries p m).Pairwise (fun e₁ e₂ => Fork e₁.1 e₂.1)
  | [], p, _, _ => by simp [segPositionsEntries]
  | (k, v) :: rest, p, hs, h => by
    rw [segPositionsEntries_cons]
    rw [bracketedEntries_cons, Bool.and_eq_true, Bool.and_eq_true] at h
    have hs' := (keysDistinct_cons k v rest).1 hs
    refine List.pairwise_append.2 ⟨segPositions_fork d o v _ h.1.2,
      segPositionsEntries_fork d o rest p hs'.2 h.2, ?_⟩
    intro e₁ h₁ e₂ h₂
    obtain ⟨s, hs1⟩ := segPositions_extend v (p ++ [.key k]) e₁ h₁
    obtain ⟨k', t, hk', ht⟩ := segPositionsEntries_extend rest p e₂ h₂
    obtain ⟨e', he', hek⟩ := List.mem_map.1 hk'
    have hne : Segment.key k ≠ Segment.key k' := by
      intro e
      injection e with e
      rw [← hek] at e
      exact hs'.1 e' he' e.symm
    exact ⟨p, .key k, .key k', s, t, by rw [hs1]; simp, ht, hne, rfl⟩
theorem segPositionsFrom_fork (d o : List Char) :
    ∀ (xs : List Value) (p : List Segment) (i : Nat), bracketedList d o xs = true →
      (segPositionsFrom p i xs).Pairwise (fun e₁ e₂ => Fork e₁.1 e₂.1)
  | [], p, i, _ => by simp [segPositionsFrom]
  | v :: rest, p, i, h => by
    rw [segPositionsFrom_cons]
    rw [bracketedList_cons, Bool.and_eq_true] at h
    refine List.pairwise_append.2 ⟨segPositions_fork d o v _ h.1,
      segPositionsFrom_fork d o rest p (i + 1) h.2, ?_⟩
    intro e₁ h₁ e₂ h₂
    obtain ⟨s, hs1⟩ := segPositions_extend v (p ++ [.idx i]) e₁ h₁
    obtain ⟨j, t, hj, _, ht⟩ := segPositionsFrom_extend rest p (i + 1) e₂ h₂
    have hne : Segment.idx i ≠ Segment.idx j := by
      intro e
      injection e with e
      omega
    exact ⟨p, .idx i, .idx j, s, t, by rw [hs1]; simp, ht, hne, rfl⟩
end

theorem goodSegs_snoc (d o : List Char) (p : List Segment) (seg : Segment)
    (hp : GoodSegs d o p) (hs : seg.decodable d o = true) : GoodSegs d o (p ++ [seg]) := by
  obtain ⟨⟨k, rest, hk, hne⟩, hall⟩ := hp
  refine ⟨⟨k, rest ++ [seg], by rw [hk]; simp, hne⟩, ?_⟩
  intro s hs'
  rcases List.mem_append.1 hs' with h | h
  · exact hall s h
  · rw [List.mem_singleton.1 h]; exact hs

mutual
theorem segPositions_good (d o : List Char) : ∀ (v : Value) (p : List Segment),
    Value.bracketed d o v = true → GoodSegs d o p →
    ∀ e ∈ segPositions p v, GoodSegs d o e.1
  | .map [], p, _, hp, e, he => by
    rw [segPositions_leaf p _ (by simp) (by simp)] at he
    rw [List.mem_singleton.1 he]; exact hp
  | .map ((k, v) :: m), p, h, hp, e, he => by
    rw [segPositions_map_cons] at he
    rw [bracketed_map, Bool.and_eq_true] at h
    exact segPositionsEntries_good d o ((k, v) :: m) p h.2
      (fun x _ hx => goodSegs_snoc d o p _ hp hx) e he
  | .seq [], p, _, hp, e, he => by
    rw [segPositions_leaf p _ (by simp) (by simp)] at he
    rw [List.mem_singleton.1 he]; exact hp
  | .seq (x :: xs), p, h, hp, e, he => by
    rw [segPositions_seq_cons] at he
    rw [bracketed_seq, Bool.and_eq_true, decide_eq_true_eq] at h
    exact segPositionsFrom_good d o (x :: xs) p 0 h.2 hp (by omega) e he
  | .null, p, _, hp, e, he => by
    rw [segPositions_leaf p _ (by simp) (by simp)] at he
    rw [List.mem_singleton.1 he]; exact hp
  | .bool _, p, _, hp, e, he => by
    rw [segPositions_leaf p _ (by simp) (by simp)] at he
    rw [List.mem_singleton.1 he]; exact hp
  | .num _, p, _, hp, e, he => by
    rw [segPositions_leaf p _ (by simp) (by simp)] at he
    rw [List.mem_singleton.1 he]; exact hp
  | .str _, p, _, hp, e, he => by
    rw [segPositions_leaf p _ (by simp) (by simp)] at he
    rw [List.mem_singleton.1 he]; exact hp
theorem segPositionsEntries_good (d o : List Char) :
    ∀ (m : List (String × Value)) (p : List Segment), bracketedEntries d o m = true →
      (∀ x ∈ m, (Segment.key x.1).decodable d o = true → GoodSegs d o (p ++ [.key x.1])) →
      ∀ e ∈ segPositionsEntries p m, GoodSegs d o e.1
  | [], p, _, _, e, he => by simp [segPositionsEntries] at he
  | (k, v) :: rest, p, h, hp, e, he => by
    rw [segPositionsEntries_cons] at he
    rw [bracketedEntries_cons, Bool.and_eq_true, Bool.and_eq_true] at h
    rcases List.mem_append.1 he with h1 | h1
    · exact segPositions_good d o v _ h.1.2 (hp (k, v) (List.mem_cons_self _ _) h.1.1) e h1
    · exact segPositionsEntries_good d o rest p h.2
        (fun x hx => hp x (List.mem_cons_of_mem _ hx)) e h1
theorem segPositionsFrom_good (d o : List Char) :
    ∀ (xs : List Value) (p : List Segment) (i : Nat), bracketedList d o xs = true →
      GoodSegs d o p → i + xs.length < 2 ^ 63 →
      ∀ e ∈ segPositionsFrom p i xs, GoodSegs d o e.1
  | [], p, i, _, _, _, e, he => by simp [segPositionsFrom] at he
  | v :: rest, p, i, h, hp, hi, e, he => by
    rw [segPositionsFrom_cons] at he
    rw [bracketedList_cons, Bool.and_eq_true] at h
    simp only [List.length_cons] at hi
    rcases List.mem_append.1 he with h1 | h1
    · refine segPositions_good d o v _ h.1 (goodSegs_snoc d o p _ hp ?_) e h1
      simp only [Segment.decodable, decide_eq_true_eq]
      omega
    · exact segPositionsFrom_good d o rest p (i + 1) h.2 hp (by omega) e h1
end

/-! ## The flat map of a tree with bracketed indices lists its leaf positions -/

theorem encodePath_snoc (opts : Options) (p : List Segment) (seg : Segment) :
    encodePath opts (p ++ [seg]) = segKey opts (encodePath opts p) seg := by
  simp [encodePath, List.foldl_append]

theorem encodeKeys_nodup (opts : Options) (o c : Char) (hB : BracketSetup opts o c)
    (l : List (List Segment × Value)) (hg : ∀ e ∈ l, GoodSegs opts.Delimiter.data [o] e.1)
    (hf : l.Pairwise (fun e₁ e₂ => Fork e₁.1 e₂.1)) :
    ((l.map (fun e => (encodePath opts e.1, e.2))).map Prod.fst).Nodup := by
  rw [List.map_map]
  refine List.Pairwise.map _ ?_ (List.Pairwise.imp_of_mem ?_ hf
    (S := fun e₁ e₂ => encodePath opts e₁.1 ≠ encodePath opts e₂.1))
  · intro a b hab; exact hab
  · intro a b ha hb hab e
    exact fork_ne hab (encodePath_injective opts o c hB (hg a ha) (hg b hb) e)

mutual
theorem flatten_segPositions (opts : Options) (o c : Char) (hB : BracketSetup opts o c)
    (h0 : opts.MaxDepth = 0) (hS : opts.Safe = false) :
    ∀ (v : Value) (p : List Segment) (d : Int),
      Value.bracketed opts.Delimiter.data [o] v = true →
      GoodSegs opts.Delimiter.data [o] p →
      ∃ fm, flatten (encodePath opts p) d v opts = .ok fm ∧
        fm.Perm ((segPositions p v).map (fun e => (encodePath opts e.1, e.2)))
  | .map [], p, d, _, _ => by
    refine ⟨[(encodePath opts p, .map [])], ?_, ?_⟩
    · rw [flatten_map_eq]; simp [h0]
    · rw [segPositions_leaf p _ (by simp) (by simp)]; simp
  | .map ((k, v) :: m), p, d, h, hp => by
    rw [bracketed_map, Bool.and_eq_true] at h
    obtain ⟨fm, h1, h2⟩ := flattenMap_segPositions opts o c hB h0 hS ((k, v) :: m) p d []
      h.1 h.2 (fun x _ hx => goodSegs_snoc _ _ p _ hp hx)
      (fun e he => absurd he (List.not_mem_nil _))
    refine ⟨fm, ?_, ?_⟩
    · rw [flatten_map_eq, if_neg (by simp [h0]), if_neg (by simp)]; exact h1
    · rw [segPositions_map_cons]; simpa using h2
  | .seq [], p, d, _, _ => by
    refine ⟨[(encodePath opts p, .seq [])], ?_, ?_⟩
    · rw [flatten_seq_eq]; simp
    · rw [segPositions_leaf p _ (by simp) (by simp)]; simp
  | .seq (x :: xs), p, d, h, hp => by
    rw [bracketed_seq, Bool.and_eq_true, decide_eq_true_eq] at h
    obtain ⟨fm, h1, h2⟩ := flattenSeq_segPositions opts o c hB h0 hS (x :: xs) p d 0 []
      h.2 hp (by omega) (fun e he => absurd he (List.not_mem_nil _))
    refine ⟨fm, ?_, ?_⟩
    · rw [flatten_seq_eq, hS, if_neg (by simp), if_neg (by simp)]; exact h1
    · rw [segPositions_seq_cons]; simpa using h2
  | .null, p, d, _, _ => by
    refine ⟨[(encodePath opts p, .null)], flatten_scalar (v := .null) rfl _ _ _, ?_⟩
    rw [segPositions_leaf p _ (by simp) (by simp)]; simp
  | .bool b, p, d, _, _ => by
    refine ⟨[(encodePath opts p, .bool b)], flatten_scalar (v := .bool b) rfl _ _ _, ?_⟩
    rw [segPositions_leaf p _ (by simp) (by simp)]; simp
  | .num b, p, d, _, _ => by
    refine ⟨[(encodePath opts p, .num b)], flatten_scalar (v := .num b) rfl _ _ _, ?_⟩
    rw [segPositions_leaf p _ (by simp) (by simp)]; simp
  | .str b, p, d, _, _ => by
    refine ⟨[(encodePath opts p, .str b)], flatten_scalar (v := .str b) rfl _ _ _, ?_⟩
    rw [segPositions_leaf p _ (by simp) (by simp)]; simp
theorem flattenMap_segPositions (opts : Options) (o c : Char) (hB : BracketSetup opts o c)
    (h0 : opts.MaxDepth = 0) (hS : opts.Safe = false) :
    ∀ (todo : List (String × Value)) (p : List Segment) (d : Int) (acc : GoMap),
      keysDistinct todo = true → bracketedEntries opts.Delimiter.data [o] todo = true →
      (∀ x ∈ todo, (Segment.key x.1).decodable opts.Delimiter.data [o] = true →
        GoodSegs opts.Delimiter.data [o] (p ++ [.key x.1])) →
      (∀ e ∈ acc, ∀ e' ∈ segPositionsEntries p todo, e.1 ≠ encodePath opts e'.1) →
      ∃ fm, flattenMap (encodePath opts p) d todo opts acc = .ok fm ∧
        fm.Perm (acc ++ (segPositionsEntries p todo).map
          (fun e => (encodePath opts e.1, e.2)))
  | [], p, d, acc, _, _, _, _ => ⟨acc, by simp [flattenMap], by simp [segPositionsEntries]⟩
  | (k, v) :: rest, p, d, acc, hs, h, hg, hacc => by
    have hall_good := segPositionsEntries_good _ _ ((k, v) :: rest) p h hg
    have hall_fork := segPositionsEntries_fork _ _ ((k, v) :: rest) p hs h
    rw [segPositionsEntries_cons] at hall_good hall_fork hacc
    have hcross := (List.pairwise_append.1 hall_fork).2.2
    have hs' := (keysDistinct_cons k v rest).1 hs
    rw [bracketedEntries_cons, Bool.and_eq_true, Bool.and_eq_true] at h
    have hpk : GoodSegs opts.Delimiter.data [o] (p ++ [.key k]) :=
      hg (k, v) (List.mem_cons_self _ _) h.1.1
    obtain ⟨fm1, hf1, hp1⟩ :=
      flatten_segPositions opts o c hB h0 hS v (p ++ [.key k]) (d + 1) h.1.2 hpk
    have hnd1 : (fm1.map Prod.fst).Nodup :=
      (hp1.map Prod.fst).nodup_iff.2 (encodeKeys_nodup opts o c hB _
        (fun e he => hall_good e (List.mem_append_left _ he))
        (List.pairwise_append.1 hall_fork).1)
    have hmem1 : ∀ e ∈ fm1, ∃ e' ∈ segPositions (p ++ [.key k]) v,
        e = (encodePath opts e'.1, e'.2) := by
      intro e he
      obtain ⟨e', he', hee⟩ := List.mem_map.1 (hp1.subset he)
      exact ⟨e', he', hee.symm⟩
    have hup : (update acc fm1).Perm (acc ++ fm1) := by
      refine update_perm fm1 acc hnd1 ?_
      intro e he e' he'
      obtain ⟨l, hl, hel⟩ := hmem1 e he
      rw [hel]
      exact hacc e' he' l (List.mem_append_left _ hl)
    have hacc' : ∀ e ∈ update acc fm1, ∀ e' ∈ segPositionsEntries p rest,
        e.1 ≠ encodePath opts e'.1 := by
      intro e he e' he'
      rcases List.mem_append.1 (hup.subset he) with h1 | h1
      · exact hacc e h1 e' (List.mem_append_right _ he')
      · obtain ⟨l, hl, hel⟩ := hmem1 e h1
        rw [hel]
        intro heq
        exact fork_ne (hcross l hl e' he')
          (encodePath_injective opts o c hB (hall_good l (List.mem_append_left _ hl))
            (hall_good e' (List.mem_append_right _ he')) heq)
    obtain ⟨fm, hf, hp⟩ := flattenMap_segPositions opts o c hB h0 hS rest p d
      (update acc fm1) hs'.2 h.2 (fun x hx => hg x (List.mem_cons_of_mem _ hx)) hacc'
    refine ⟨fm, ?_, ?_⟩
    · have hkey : mapKey (encodePath opts p) k opts = encodePath opts (p ++ [.key k]) := by
        rw [encodePath_snoc]; rfl
      rw [flattenMap_cons, hkey, hf1]; exact hf
    · refine hp.trans ?_
      rw [segPositionsEntries_cons, List.map_append, ← List.append_assoc]
      exact (hup.trans (List.Perm.append_left acc hp1)).append_right _
theorem flattenSeq_segPositions (opts : Options) (o c : Char) (hB : BracketSetup opts o c)
    (h0 : opts.MaxDepth = 0) (hS : opts.Safe = false) :
    ∀ (todo : List Value) (p : List Segment) (d : Int) (i : Nat) (acc : GoMap),
      bracketedList opts.Delimiter.data [o] todo = true →
      GoodSegs opts.Delimiter.data [o] p → i + todo.length < 2 ^ 63 →
      (∀ e ∈ acc, ∀ e' ∈ segPositionsFrom p i todo, e.1 ≠ encodePath opts e'.1) →
      ∃ fm, flattenSeq (encodePath opts p) d i todo opts acc = .ok fm ∧
        fm.Perm (acc ++ (segPositionsFrom p i todo).map
          (fun e => (encodePath opts e.1, e.2)))
  | [], p, d, i, acc, _, _, _, _ => ⟨acc, by simp [flattenSeq], by simp [segPositionsFrom]⟩
  | v :: rest, p, d, i, acc, h, hg, hi, hacc => by
    have hall_good := segPositionsFrom_good _ _ (v :: rest) p i h hg hi
    have hall_fork := segPositionsFrom_fork _ _ (v :: rest) p i h
    rw [segPositionsFrom_cons] at hall_good hall_fork hacc
    have hcross := (List.pairwise_append.1 hall_fork).2.2
    rw [bracketedList_cons, Bool.and_eq_true] at h
    simp only [List.length_cons] at hi
    have hpk : GoodSegs opts.Delimiter.data [o] (p ++ [.idx i]) := by
      refine goodSegs_snoc _ _ p _ hg ?_
      simp only [Segment.decodable, decide_eq_true_eq]
      omega
    obtain ⟨fm1, hf1, hp1⟩ :=
      flatten_segPositions opts o c hB h0 hS v (p ++ [.idx i]) (d + 1) h.1 hpk
    have hnd1 : (fm1.map Prod.fst).Nodup :=
      (hp1.map Prod.fst).nodup_iff.2 (encodeKeys_nodup opts o c hB _
        (fun e he => hall_good e (List.mem_append_left _ he))
        (List.pairwise_append.1 hall_fork).1)
    have hmem1 : ∀ e ∈ fm1, ∃ e' ∈ segPositions (p ++ [.idx i]) v,
        e = (encodePath opts e'.1, e'.2) := by
      intro e he
      obtain ⟨e', he', hee⟩ := List.mem_map.1 (hp1.subset he)
      exact ⟨e', he', hee.symm⟩
    have hup : (update acc fm1).Perm (acc ++ fm1) := by
      refine update_perm fm1 acc hnd1 ?_
      intro e he e' he'
      obtain ⟨l, hl, hel⟩ := hmem1 e he
      rw [hel]
      exact hacc e' he' l (List.mem_append_left _ hl)
    have hacc' : ∀ e ∈ update acc fm1, ∀ e' ∈ segPositionsFrom p (i + 1) rest,
        e.1 ≠ encodePath opts e'.1 := by
      intro e he e' he'
      rcases List.mem_append.1 (hup.subset he) with h1 | h1
      · exact hacc e h1 e' (List.mem_append_right _ he')
      · obtain ⟨l, hl, hel⟩ := hmem1 e h1
        rw [hel]
        intro heq
        exact fork_ne (hcross l hl e' he')
          (encodePath_injective opts o c hB (hall_good l (List.mem_append_left _ hl))
            (hall_good e' (List.mem_append_right _ he')) heq)
    obtain ⟨fm, hf, hp⟩ := flattenSeq_segPositions opts o c hB h0 hS rest p d (i + 1)
      (update acc fm1) h.2 hg (by omega) hacc'
    refine ⟨fm, ?_, ?_⟩
    · have hkey : seqKey (encodePath opts p) i opts = encodePath opts (p ++ [.idx i]) := by
        rw [encodePath_snoc]; rfl
      rw [flattenSeq_cons, hkey, hf1]; exact hf
    · refine hp.trans ?_
      rw [segPositionsFrom_cons, List.map_append, ← List.append_assoc]
      exact (hup.trans (List.Perm.append_left acc hp1)).append_right _
end

/-- The encoder with bracketed indices on a bracketed tree: the flat map lists the leaf
positions of the tree, each under the flat key of its path; the paths are good and fork
pairwise. -/
theorem flatten_bracketed (opts : Options) (o c : Char) (hB : BracketSetup opts o c)
    (h0 : opts.MaxDepth = 0) (hS : opts.Safe = false) (e : String × Value) (m : GoMap)
    (htop : ∀ x ∈ e :: m, x.1 ≠ "")
    (hV : Value.bracketed opts.Delimiter.data [o] (.map (e :: m)) = true) :
    ∃ fm, flatten "" 0 (.map (e :: m)) opts = .ok fm ∧
      fm.Perm ((segPositionsEntries [] (e :: m)).map (fun l => (encodePath opts l.1, l.2))) ∧
      (∀ l ∈ segPositionsEntries [] (e :: m), GoodSegs opts.Delimiter.data [o] l.1) ∧
      (segPositionsEntries [] (e :: m)).Pairwise (fun l₁ l₂ => Fork l₁.1 l₂.1) := by
  rw [bracketed_map, Bool.and_eq_true] at hV
  have hgtop : ∀ x ∈ e :: m, (Segment.key x.1).decodable opts.Delimiter.data [o] = true →
      GoodSegs opts.Delimiter.data [o] ([] ++ [.key x.1]) := by
    intro x hx hdx
    refine ⟨⟨x.1, [], rfl, htop x hx⟩, ?_⟩
    intro s hs
    simp only [List.nil_append, List.mem_singleton] at hs
    rw [hs]; exact hdx
  obtain ⟨fm, hf, hp⟩ := flattenMap_segPositions opts o c hB h0 hS (e :: m) [] 0 []
    hV.1 hV.2 hgtop (fun x hx => absurd hx (List.not_mem_nil _))
  have hpk : encodePath opts [] = "" := rfl
  rw [hpk] at hf
  rw [List.nil_append] at hp
  refine ⟨fm, ?_, hp, segPositionsEntries_good _ _ (e :: m) [] hV.2 hgtop,
    segPositionsEntries_fork _ _ (e :: m) [] hV.1 hV.2⟩
  rw [flatten_map_eq, if_neg (by simp [h0]), if_neg (by simp)]
  exact hf

/-! ## C14: the order of the merge -/

theorem bracketSetup_of (opts : Options) (o c : Char)
    (hA : getArrayDelimiters opts.ArrayDelimiter = .ok (⟨[o]⟩, ⟨[c]⟩))
    (hd : opts.Delimiter ≠ "")
    (hch : ∀ ch ∈ opts.Delimiter.data, ch.isDigit = false ∧ ch ∉ [o] ∧ ch ∉ [c]) :
    BracketSetup opts o c := by
  refine ⟨hA, fun h => hd (String.ext h), ?_, ?_, fun ch hc => (hch ch hc).1⟩
  · intro h; exact (hch o h).2.1 (List.mem_singleton.2 rfl)
  · intro h; exact (hch c h).2.2 (List.mem_singleton.2 rfl)

/-- C14 as stated fails.  With BRACKETS and `sliceDeepMerge` off, `Flatten` of
`{"a": ["x", "y"]}` is `{"a[0]": "x", "a[1]": "y"}`; merging these two entries in the one
order gives `{"a": [null, "y"]}` and in the other order `{"a": ["x"]}`, the sequence decoded
last replacing the one decoded first.  With `sliceDeepMerge` and `overwriteNilInMaps`
both on, the null that pads the sequence of `"a[1]"` overwrites `"x"` in the one order and
not in the other. -/
theorem merge_order_matters_with_brackets :
    Flatten [("a", .seq [.str "x", .str "y"])]
        (some { nilOptions with ArrayDelimiter := "BRACKETS" })
        = .ok [("a[0]", .str "x"), ("a[1]", .str "y")]
      ∧ Unflatten [("a[0]", .str "x"), ("a[1]", .str "y")]
          (some { nilOptions with ArrayDelimiter := "BRACKETS" })
        = .ok [("a", .seq [.null, .str "y"])]
      ∧ Unflatten [("a[1]", .str "y"), ("a[0]", .str "x")]
          (some { nilOptions with ArrayDelimiter := "BRACKETS" })
        = .ok [("a", .seq [.str "x"])]
      ∧ Unflatten [("a[0]", .str "x"), ("a[1]", .str "y")]
          (some { nilOptions with
            ArrayDelimiter := "BRACKETS", SliceDeepMerge := true, OverwriteNilInMaps := true })
        = .ok [("a", .seq [.null, .str "y"])]
      ∧ Unflatten [("a[1]", .str "y"), ("a[0]", .str "x")]
          (some { nilOptions with
            ArrayDelimiter := "BRACKETS", SliceDeepMerge := true, OverwriteNilInMaps := true })
        = .ok [("a", .seq [.str "x", .str "y"])] := by
  decide

/-- C14, amended.  Merging the entries of a flat map in any two orders gives the same
`Unflatten` result in each of these cases.  (1) The array delimiter is NONE or a name that
is not recognized and the keys split on the delimiter into pairwise diverging paths.
(2) Such is every map that `Flatten` produces, with `safe` off, `maxDepth` 0 and a
non-empty delimiter without digits, from a tree whose top-level keys are non-empty and
whose mapping keys contain no character of the delimiter, sequences of any length
included.  (3) A bracket pair is configured, the delimiter is non-empty and holds neither
a digit nor a bracket of the pair, and the keys are the flat keys of paths that are
pairwise apart: they fork at two keys of one mapping or two indices of one sequence, they
share a sequence only when `sliceDeepMerge` is on, and they fork at two indices only when
besides `overwriteNilInMaps` is off; a flat map without any index segment is of this
kind whatever the merge options.  (4) Such is every map that `Flatten` produces with a
bracket pair, `sliceDeepMerge` on, `overwriteNilInMaps` off, `safe` off and `maxDepth` 0
from a tree whose top-level keys are non-empty and whose mapping keys contain neither a
character of the delimiter nor the opening bracket, sequences of two or more elements
included. -/
theorem merge_order_independent :
    (∀ (opts : Options) (flat o₁ o₂ : List (String × Value)),
        opts.ArrayDelimiter ≠ "PARENS" → opts.ArrayDelimiter ≠ "BRACKETS" →
        opts.ArrayDelimiter ≠ "CURLY_BRACES" →
        flat.Pairwise (fun e₁ e₂ =>
          Diverge (stringsSplit e₁.1 opts.Delimiter) (stringsSplit e₂.1 opts.Delimiter)) →
        o₁.Perm flat → o₂.Perm flat →
        Unflatten o₁ (some opts) = Unflatten o₂ (some opts))
      ∧ (∀ (opts : Options) (V : GoMap),
        opts.ArrayDelimiter = "" → opts.MaxDepth = 0 → opts.Safe = false →
        opts.Delimiter ≠ "" → (∀ ch ∈ opts.Delimiter.data, ch.isDigit = false) →
        (∀ e ∈ V, e.1 ≠ "") → Value.keyed opts.Delimiter.data (.map V) = true →
        ∃ fm, Flatten V (some opts) = .ok fm ∧
          ∀ o₁ o₂ : List (String × Value), o₁.Perm fm → o₂.Perm fm →
            Unflatten o₁ (some opts) = Unflatten o₂ (some opts))
      ∧ (∀ (opts : Options) (ad : String × String) (L : List (List Segment × Value))
          (o₁ o₂ : List (String × Value)),
        getArrayDelimiters opts.ArrayDelimiter = .ok ad → opts.Delimiter ≠ "" →
        (∀ ch ∈ opts.Delimiter.data,
          ch.isDigit = false ∧ ch ∉ ad.1.data ∧ ch ∉ ad.2.data) →
        (∀ e ∈ L, GoodSegs opts.Delimiter.data ad.1.data e.1) →
        L.Pairwise (fun e₁ e₂ => Apart (mergeConfig opts) e₁.1 e₂.1) →
        o₁.Perm (L.map (fun e => (encodePath opts e.1, e.2))) →
        o₂.Perm (L.map (fun e => (encodePath opts e.1, e.2))) →
        Unflatten o₁ (some opts) = Unflatten o₂ (some opts))
      ∧ ∀ (opts : Options) (ad : String × String) (V : GoMap),
        getArrayDelimiters opts.ArrayDelimiter = .ok ad → opts.Delimiter ≠ "" →
        (∀ ch ∈ opts.Delimiter.data,
          ch.isDigit = false ∧ ch ∉ ad.1.data ∧ ch ∉ ad.2.data) →
        opts.SliceDeepMerge = true → opts.OverwriteNilInMaps = false →
        opts.MaxDepth = 0 → opts.Safe = false → (∀ e ∈ V, e.1 ≠ "") →
        Value.bracketed opts.Delimiter.data ad.1.data (.map V) = true →
        ∃ fm, Flatten V (some opts) = .ok fm ∧
          ∀ o₁ o₂ : List (String × Value), o₁.Perm fm → o₂.Perm fm →
            Unflatten o₁ (some opts) = Unflatten o₂ (some opts) := by
  refine ⟨?_, ?_, ?_, ?_⟩
  · intro opts flat o₁ o₂ h1 h2 h3 hwf p₁ p₂
    exact unflatten_two_orders opts h1 h2 h3 flat hwf o₁ o₂ p₁ p₂
  · intro opts V hA h0 hS hd hdig htop hk
    have hne : opts.Delimiter.data ≠ [] := fun h => hd (String.ext h)
    obtain ⟨hf, htidy, htop', -⟩ :=
      flatten_keyed opts opts.Delimiter.data hA h0 hS hdig V htop hk
    cases V with
    | nil =>
      refine ⟨[("", .map [])], by simp [Flatten, flatten, h0], ?_⟩
      intro o₁ o₂ p₁ p₂
      rw [List.perm_singleton.1 p₁, List.perm_singleton.1 p₂]
    | cons e m =>
      have hV' : seqAsMapEntries (e :: m) ≠ [] := by
        obtain ⟨k, v⟩ := e
        rw [seqAsMapEntries_cons]
        exact List.cons_ne_nil _ _
      obtain ⟨⟨fm, hfm, hall⟩, -⟩ :=
        roundtrip_core opts opts.Delimiter.data hA h0 rfl hne _ hV' htop' htidy
      refine ⟨fm, ?_, ?_⟩
      · show flatten "" 0 (.map (e :: m)) opts = _
        rw [hf]; exact hfm
      · intro o₁ o₂ p₁ p₂
        show unflatten o₁ opts = unflatten o₂ opts
        rw [hall o₁ p₁, hall o₂ p₂]
  · intro opts ad L o₁ o₂ hA hd hch hg hap p₁ p₂
    obtain ⟨o, c, rfl, -⟩ := getArrayDelimiters_ok hA
    have hB := bracketSetup_of opts o c hA hd hch
    have hrel := pairwise_apart_rel (mergeConfig opts) L hap
    show unflatten o₁ opts = unflatten o₂ opts
    rw [unflatten_paths_any_order opts o c hB L hg hrel o₁ p₁,
      unflatten_paths_any_order opts o c hB L hg hrel o₂ p₂]
  · intro opts ad V hA hd hch hdeep hn h0 hS htop hV
    obtain ⟨o, c, rfl, -⟩ := getArrayDelimiters_ok hA
    have hB := bracketSetup_of opts o c hA hd hch
    cases V with
    | nil =>
      refine ⟨[("", .map [])], by simp [Flatten, flatten, h0], ?_⟩
      intro o₁ o₂ p₁ p₂
      rw [List.perm_singleton.1 p₁, List.perm_singleton.1 p₂]
    | cons e m =>
      obtain ⟨fm, hf, hp, hg, hfork⟩ := flatten_bracketed opts o c hB h0 hS e m htop hV
      refine ⟨fm, hf, ?_⟩
      intro o₁ o₂ p₁ p₂
      have hc1 : (mergeConfig opts).SliceDeepMerge = true := by simp [mergeConfig, hdeep]
      have hc2 : (mergeConfig opts).OverwriteNilInMaps = false := by simp [mergeConfig, hn]
      have hrel := pairwise_apart_rel (mergeConfig opts) _
        (hfork.imp (fun h => fork_apart (mergeConfig opts) hc1 hc2 h))
      show unflatten o₁ opts = unflatten o₂ opts
      rw [unflatten_paths_any_order opts o c hB _ hg hrel o₁ (p₁.trans hp),
        unflatten_paths_any_order opts o c hB _ hg hrel o₂ (p₂.trans hp)]

/-- C14, amended, at work.  The two entries of `{"a": ["x", "y"]}` flattened with the
default options, whose keys split into the diverging paths `a, 0` and `a, 1`; the flat map
of that tree with the default options; with BRACKETS and `sliceDeepMerge` off, two entries
that fork at the keys `a` and `b` before their sequences; and the flat map of the tree
with BRACKETS, `sliceDeepMerge` on and `overwriteNilInMaps` off. -/
theorem merge_order_independent_witness :
    Unflatten [("a.1", .str "y"), ("a.0", .str "x")] (some nilOptions)
        = Unflatten [("a.0", .str "x"), ("a.1", .str "y")] (some nilOptions)
      ∧ (∃ fm, Flatten [("a", .seq [.str "x", .str "y"])] (some nilOptions) = .ok fm ∧
          ∀ o₁ o₂ : List (String × Value), o₁.Perm fm → o₂.Perm fm →
            Unflatten o₁ (some nilOptions) = Unflatten o₂ (some nilOptions))
      ∧ Unflatten [("b[0]", .str "y"), ("a[0]", .str "x")]
          (some { nilOptions with ArrayDelimiter := "BRACKETS" })
        = Unflatten [("a[0]", .str "x"), ("b[0]", .str "y")]
          (some { nilOptions with ArrayDelimiter := "BRACKETS" })
      ∧ ∃ fm, Flatten [("a", .seq [.str "x", .str "y"])]
          (some { nilOptions with ArrayDelimiter := "BRACKETS", SliceDeepMerge := true })
            = .ok fm ∧
          ∀ o₁ o₂ : List (String × Value), o₁.Perm fm → o₂.Perm fm →
            Unflatten o₁
                (some { nilOptions with ArrayDelimiter := "BRACKETS", SliceDeepMerge := true })
              = Unflatten o₂
                (some { nilOptions with
                  ArrayDelimiter := "BRACKETS", SliceDeepMerge := true }) :=
  ⟨merge_order_independent.1 nilOptions [("a.0", .str "x"), ("a.1", .str "y")]
    [("a.1", .str "y"), ("a.0", .str "x")] [("a.0", .str "x"), ("a.1", .str "y")]
    (by decide) (by decide) (by decide)
    (List.pairwise_cons.2 ⟨fun e he => by
        rw [List.mem_singleton] at he
        rw [he]
        exact ⟨["a"], "0", "1", [], [], by decide, by decide, by decide⟩,
      List.pairwise_singleton _ _⟩)
    (List.Perm.swap _ _ _) (List.Perm.refl _),
   merge_order_independent.2.1 nilOptions [("a", .seq [.str "x", .str "y"])] rfl rfl rfl
    (by decide) (by decide) (by decide) (by decide),
   merge_order_independent.2.2.1 { nilOptions with ArrayDelimiter := "BRACKETS" } ("[", "]")
    [([.key "a", .idx 0], .str "x"), ([.key "b", .idx 0], .str "y")]
    [("b[0]", .str "y"), ("a[0]", .str "x")] [("a[0]", .str "x"), ("b[0]", .str "y")]
    rfl (by decide) (by decide)
    (by
      intro e he
      simp only [List.mem_cons, List.mem_singleton, List.not_mem_nil, or_false] at he
      rcases he with rfl | rfl
      · exact ⟨⟨"a", [.idx 0], rfl, by decide⟩, by decide⟩
      · exact ⟨⟨"b", [.idx 0], rfl, by decide⟩, by decide⟩)
    (List.pairwise_cons.2 ⟨fun e he => by
        rw [List.mem_singleton] at he
        rw [he]
        exact ⟨[], .key "a", .key "b", [.idx 0], [.idx 0], rfl, rfl, by decide, rfl,
          Or.inr (fun z hz => absurd hz (List.not_mem_nil _)), Or.inl rfl⟩,
      List.pairwise_singleton _ _⟩)
    (by
      have : List.map (fun e : List Segment × Value =>
          (encodePath { nilOptions with ArrayDelimiter := "BRACKETS" } e.1, e.2))
          [([.key "a", .idx 0], .str "x"), ([.key "b", .idx 0], .str "y")]
            = [("a[0]", .str "x"), ("b[0]", .str "y")] := by decide
      rw [this]
      exact List.Perm.swap _ _ _)
    (by
      have : List.map (fun e : List Segment × Value =>
          (encodePath { nilOptions with ArrayDelimiter := "BRACKETS" } e.1, e.2))
          [([.key "a", .idx 0], .str "x"), ([.key "b", .idx 0], .str "y")]
            = [("a[0]", .str "x"), ("b[0]", .str "y")] := by decide
      rw [this]),
   merge_order_independent.2.2.2
    { nilOptions with ArrayDelimiter := "BRACKETS", SliceDeepMerge := true } ("[", "]")
    [("a", .seq [.str "x", .str "y"])] rfl (by decide) (by decide) rfl rfl rfl rfl
    (by decide) (by decide)⟩

/-! ## The flat map of a shaped tree in safe mode -/

theorem shaped_map (cs : List Char) (m : List (String × Value)) :
    Value.shaped cs (.map m) = (keysDistinct m && shapedEntries cs m) := by
  rw [Value.shaped]

theorem shapedEntries_cons (cs : List Char) (k : String) (v : Value)
    (rest : List (String × Value)) :
    shapedEntries cs ((k, v) :: rest)
      = (k.data.all (fun x => !cs.contains x) && Value.shaped cs v && shapedEntries cs rest) := by
  rw [shapedEntries]

theorem cutLeaves_map_cons (n depth : Int) (p : List String) (e : String × Value)
    (m : List (String × Value)) :
    cutLeaves n depth p (.map (e :: m))
      = if n ≠ 0 ∧ depth ≥ n then [(p, .map (e :: m))]
        else cutLeavesEntries n depth p (e :: m) := by
  rw [cutLeaves]

theorem cutLeavesEntries_cons (n depth : Int) (p : List String) (k : String) (v : Value)
    (rest : List (String × Value)) :
    cutLeavesEntries n depth p ((k, v) :: rest)
      = cutLeaves n (depth + 1) (p ++ [k]) v ++ cutLeavesEntries n depth p rest := by
  rw [cutLeavesEntries]

theorem cutLeaves_of_not_expanded (n depth : Int) (p : List String) (v : Value)
    (h : ∀ e m, v ≠ .map (e :: m)) : cutLeaves n depth p v = [(p, v)] := by
  cases v with
  | map m =>
    cases m with
    | nil => simp [cutLeaves]
    | cons e m => exact absurd rfl (h e m)
  | _ => simp [cutLeaves]

mutual
theorem cutLeaves_extend (n : Int) : ∀ (v : Value) (depth : Int) (p : List String),
    ∀ e ∈ cutLeaves n depth p v, ∃ s, e.1 = p ++ s
  | .map [], depth, p, e, he => by
    rw [cutLeaves_of_not_expanded n depth p _ (by simp)] at he
    exact ⟨[], by rw [List.mem_singleton.1 he]; simp⟩
  | .map ((k, v) :: m), depth, p, e, he => by
    rw [cutLeaves_map_cons] at he
    split_ifs at he
    · exact ⟨[], by rw [List.mem_singleton.1 he]; simp⟩
    · obtain ⟨k', s, _, h⟩ := cutLeavesEntries_extend n ((k, v) :: m) depth p e he
      exact ⟨k' :: s, h⟩
  | .seq xs, depth, p, e, he => by
    rw [cutLeaves_of_not_expanded n depth p _ (by simp)] at he
    exact ⟨[], by rw [List.mem_singleton.1 he]; simp⟩
  | .null, depth, p, e, he => by
    rw [cutLeaves_of_not_expanded n depth p _ (by simp)] at he
    exact ⟨[], by rw [List.mem_singleton.1 he]; simp⟩
  | .bool _, depth, p, e, he => by
    rw [cutLeaves_of_not_expanded n depth p _ (by simp)] at he
    exact ⟨[], by rw [List.mem_singleton.1 he]; simp⟩
  | .num _, depth, p, e, he => by
    rw [cutLeaves_of_not_expanded n depth p _ (by simp)] at he
    exact ⟨[], by rw [List.mem_singleton.1 he]; simp⟩
  | .str _, depth, p, e, he => by
    rw [cutLeaves_of_not_expanded n depth p _ (by simp)] at he
    exact ⟨[], by rw [List.mem_singleton.1 he]; simp⟩
theorem cutLeavesEntries_extend (n : Int) :
    ∀ (m : List (String × Value)) (depth : Int) (p : List String),
      ∀ e ∈ cutLeavesEntries n depth p m, ∃ k s, k ∈ m.map Prod.fst ∧ e.1 = p ++ k :: s
  | [], depth, p, e, he => by simp [cutLeavesEntries] at he
  | (k, v) :: rest, depth, p, e, he => by
    rw [cutLeavesEntries_cons] at he
    rcases List.mem_append.1 he with h | h
    · obtain ⟨s, hs⟩ := cutLeaves_extend n v (depth + 1) (p ++ [k]) e h
      exact ⟨k, s, by simp, by rw [hs]; simp⟩
    · obtain ⟨k', s, hk', hs⟩ := cutLeavesEntries_extend n rest depth p e h
      exact ⟨k', s, List.mem_cons_of_mem _ hk', hs⟩
end

mutual
theorem cutLeaves_diverge (n : Int) (cs : List Char) :
    ∀ (v : Value) (depth : Int) (p : List String), Value.shaped cs v = true →
      (cutLeaves n depth p v).Pairwise (fun e₁ e₂ => Diverge e₁.1 e₂.1)
  | .map [], depth, p, _ => by rw [cutLeaves_of_not_expanded n depth p _ (by simp)]; simp
  | .map ((k, v) :: m), depth, p, h => by
    rw [cutLeaves_map_cons]
    rw [shaped_map, Bool.and_eq_true] at h
    split_ifs
    · simp
    · exact cutLeavesEntries_diverge n cs ((k, v) :: m) depth p h.1 h.2
  | .seq xs, depth, p, _ => by rw [cutLeaves_of_not_expanded n depth p _ (by simp)]; simp
  | .null, depth, p, _ => by rw [cutLeaves_of_not_expanded n depth p _ (by simp)]; simp
  | .bool _, depth, p, _ => by rw [cutLeaves_of_not_expanded n depth p _ (by simp)]; simp
  | .num _, depth, p, _ => by rw [cutLeaves_of_not_expanded n depth p _ (by simp)]; simp
  | .str _, depth, p, _ => by rw [cutLeaves_of_not_expanded n depth p _ (by simp)]; simp
theorem cutLeavesEntries_diverge (n : Int) (cs : List Char) :
    ∀ (m : List (String × Value)) (depth : Int) (p : List String),
      keysDistinct m = true → shapedEntries cs m = true →
      (cutLeavesEntries n depth p m).Pairwise (fun e₁ e₂ => Diverge e₁.1 e₂.1)
  | [], depth, p, _, _ => by simp [cutLeavesEntries]
  | (k, v) :: rest, depth, p, hs, h => by
    rw [cutLeavesEntries_cons]
    rw [shapedEntries_cons, Bool.and_eq_true, Bool.and_eq_true] at h
    have hs' := (keysDistinct_cons k v rest).1 hs
    refine List.pairwise_append.2 ⟨cutLeaves_diverge n cs v _ _ h.1.2,
      cutLeavesEntries_diverge n cs rest depth p hs'.2 h.2, ?_⟩
    intro e₁ h₁ e₂ h₂
    obtain ⟨s, hs1⟩ := cutLeaves_extend n v (depth + 1) (p ++ [k]) e₁ h₁
    obtain ⟨k', t, hk', ht⟩ := cutLeavesEntries_extend n rest depth p e₂ h₂
    obtain ⟨e', he', hek⟩ := List.mem_map.1 hk'
    have hne : k ≠ k' := by
      rw [← hek]; exact fun e => hs'.1 e' he' e.symm
    exact ⟨p, k, k', s, t, by rw [hs1]; simp, ht, hne⟩
end

mutual
theorem cutLeaves_good (n : Int) (cs : List Char) :
    ∀ (v : Value) (depth : Int) (p : List String), Value.shaped cs v = true →
      GoodPath cs p → ∀ e ∈ cutLeaves n depth p v, GoodPath cs e.1
  | .map [], depth, p, _, hp, e, he => by
    rw [cutLeaves_of_not_expanded n depth p _ (by simp)] at he
    rw [List.mem_singleton.1 he]; exact hp
  | .map ((k, v) :: m), depth, p, h, hp, e, he => by
    rw [cutLeaves_map_cons] at he
    rw [shaped_map, Bool.and_eq_true] at h
    split_ifs at he
    · rw [List.mem_singleton.1 he]; exact hp
    · exact cutLeavesEntries_good n cs ((k, v) :: m) depth p h.2
        (fun _ _ hx => goodPath_snoc cs p _ hp hx) e he
  | .seq xs, depth, p, _, hp, e, he => by
    rw [cutLeaves_of_not_expanded n depth p _ (by simp)] at he
    rw [List.mem_singleton.1 he]; exact hp
  | .null, depth, p, _, hp, e, he => by
    rw [cutLeaves_of_not_expanded n depth p _ (by simp)] at he
    rw [List.mem_singleton.1 he]; exact hp
  | .bool _, depth, p, _, hp, e, he => by
    rw [cutLeaves_of_not_expanded n depth p _ (by simp)] at he
    rw [List.mem_singleton.1 he]; exact hp
  | .num _, depth, p, _, hp, e, he => by
    rw [cutLeaves_of_not_expanded n depth p _ (by simp)] at he
    rw [List.mem_singleton.1 he]; exact hp
  | .str _, depth, p, _, hp, e, he => by
    rw [cutLeaves_of_not_expanded n depth p _ (by simp)] at he
    rw [List.mem_singleton.1 he]; exact hp
theorem cutLeavesEntries_good (n : Int) (cs : List Char) :
    ∀ (m : List (String × Value)) (depth : Int) (p : List String),
      shapedEntries cs m = true →
      (∀ x ∈ m, (∀ ch ∈ x.1.data, ch ∉ cs) → GoodPath cs (p ++ [x.1])) →
      ∀ e ∈ cutLeavesEntries n depth p m, GoodPath cs e.1
  | [], depth, p, _, _, e, he => by simp [cutLeavesEntries] at he
  | (k, v) :: rest, depth, p, h, hp, e, he => by
    rw [cutLeavesEntries_cons] at he
    rw [shapedEntries_cons, Bool.and_eq_true, Bool.and_eq_true] at h
    have hk : ∀ ch ∈ k.data, ch ∉ cs := key_free_of cs k h.1.1
    rcases List.mem_append.1 he with h1 | h1
    · exact cutLeaves_good n cs v _ _ h.1.2 (hp (k, v) (List.mem_cons_self _ _) hk) e h1
    · exact cutLeavesEntries_good n cs rest depth p h.2
        (fun x hx => hp x (List.mem_cons_of_mem _ hx)) e h1
end

mutual
theorem flatten_cutLeaves (opts : Options) (cs : List Char) (hS : opts.Safe = true)
    (hd : opts.Delimiter.data = cs) (hne : cs ≠ []) :
    ∀ (v : Value) (p : List String) (d : Int), Value.shaped cs v = true → GoodPath cs p →
      ∃ fm, flatten (pathKey opts p) d v opts = .ok fm ∧
        fm.Perm ((cutLeaves opts.MaxDepth d p v).map (fun e => (pathKey opts e.1, e.2)))
  | .map [], p, d, _, _ => by
    refine ⟨[(pathKey opts p, .map [])], ?_, ?_⟩
    · rw [flatten_map_eq]; simp
    · rw [cutLeaves_of_not_expanded _ _ p _ (by simp)]; simp
  | .map ((k, v) :: m), p, d, h, hp => by
    rw [shaped_map, Bool.and_eq_true] at h
    rw [flatten_map_eq, cutLeaves_map_cons]
    by_cases hcut : opts.MaxDepth ≠ 0 ∧ d ≥ opts.MaxDepth
    · rw [if_pos hcut, if_pos hcut]
      exact ⟨_, rfl, by simp⟩
    · rw [if_neg hcut, if_neg (by simp), if_neg hcut]
      obtain ⟨fm, h1, h2⟩ := flattenMap_cutLeaves opts cs hS hd hne ((k, v) :: m) p d []
        h.1 h.2 (fun x _ hx => goodPath_snoc cs p _ hp hx)
        (fun e he => absurd he (List.not_mem_nil _))
      exact ⟨fm, h1, by simpa using h2⟩
  | .seq xs, p, d, _, _ => by
    refine ⟨[(pathKey opts p, .seq xs)], ?_, ?_⟩
    · rw [flatten_seq_eq, if_pos hS]
    · rw [cutLeaves_of_not_expanded _ _ p _ (by simp)]; simp
  | .null, p, d, _, _ => by
    refine ⟨[(pathKey opts p, .null)], flatten_scalar (v := .null) rfl _ _ _, ?_⟩
    rw [cutLeaves_of_not_expanded _ _ p _ (by simp)]; simp
  | .bool b, p, d, _, _ => by
    refine ⟨[(pathKey opts p, .bool b)], flatten_scalar (v := .bool b) rfl _ _ _, ?_⟩
    rw [cutLeaves_of_not_expanded _ _ p _ (by simp)]; simp
  | .num b, p, d, _, _ => by
    refine ⟨[(pathKey opts p, .num b)], flatten_scalar (v := .num b) rfl _ _ _, ?_⟩
    rw [cutLeaves_of_not_expanded _ _ p _ (by simp)]; simp
  | .str b, p, d, _, _ => by
    refine ⟨[(pathKey opts p, .str b)], flatten_scalar (v := .str b) rfl _ _ _, ?_⟩
    rw [cutLeaves_of_not_expanded _ _ p _ (by simp)]; simp
theorem flattenMap_cutLeaves (opts : Options) (cs : List Char) (hS : opts.Safe = true)
    (hd : opts.Delimiter.data = cs) (hne : cs ≠ []) :
    ∀ (todo : List (String × Value)) (p : List String) (d : Int) (acc : GoMap),
      keysDistinct todo = true → shapedEntries cs todo = true →
      (∀ x ∈ todo, (∀ ch ∈ x.1.data, ch ∉ cs) → GoodPath cs (p ++ [x.1])) →
      (∀ e ∈ acc, ∀ e' ∈ cutLeavesEntries opts.MaxDepth d p todo, e.1 ≠ pathKey opts e'.1) →
      ∃ fm, flattenMap (pathKey opts p) d todo opts acc = .ok fm ∧
        fm.Perm (acc ++ (cutLeavesEntries opts.MaxDepth d p todo).map
          (fun e => (pathKey opts e.1, e.2)))
  | [], p, d, acc, _, _, _, _ => ⟨acc, by simp [flattenMap], by simp [cutLeavesEntries]⟩
  | (k, v) :: rest, p, d, acc, hs, h, hg, hacc => by
    have hall_good := cutLeavesEntries_good opts.MaxDepth cs ((k, v) :: rest) d p h hg
    have hall_div := cutLeavesEntries_diverge opts.MaxDepth cs ((k, v) :: rest) d p hs h
    rw [cutLeavesEntries_cons] at hall_good hall_div hacc
    have hcross := (List.pairwise_append.1 hall_div).2.2
    have hs' := (keysDistinct_cons k v rest).1 hs
    rw [shapedEntries_cons, Bool.and_eq_true, Bool.and_eq_true] at h
    have hk : ∀ ch ∈ k.data, ch ∉ cs := key_free_of cs k h.1.1
    have hpk : GoodPath cs (p ++ [k]) := hg (k, v) (List.mem_cons_self _ _) hk
    obtain ⟨fm1, hf1, hp1⟩ :=
      flatten_cutLeaves opts cs hS hd hne v (p ++ [k]) (d + 1) h.1.2 hpk
    have hnd1 : (fm1.map Prod.fst).Nodup :=
      (hp1.map Prod.fst).nodup_iff.2 (pathKeys_nodup opts cs hd hne _
        (fun e he => hall_good e (List.mem_append_left _ he))
        (List.pairwise_append.1 hall_div).1)
    have hmem1 : ∀ e ∈ fm1, ∃ e' ∈ cutLeaves opts.MaxDepth (d + 1) (p ++ [k]) v,
        e = (pathKey opts e'.1, e'.2) := by
      intro e he
      obtain ⟨e', he', hee⟩ := List.mem_map.1 (hp1.subset he)
      exact ⟨e', he', hee.symm⟩
    have hup : (update acc fm1).Perm (acc ++ fm1) := by
      refine update_perm fm1 acc hnd1 ?_
      intro e he e' he'
      obtain ⟨l, hl, hel⟩ := hmem1 e he
      rw [hel]
      exact hacc e' he' l (List.mem_append_left _ hl)
    have hacc' : ∀ e ∈ update acc fm1, ∀ e' ∈ cutLeavesEntries opts.MaxDepth d p rest,
        e.1 ≠ pathKey opts e'.1 := by
      intro e he e' he'
      rcases List.mem_append.1 (hup.subset he) with h1 | h1
      · exact hacc e h1 e' (List.mem_append_right _ he')
      · obtain ⟨l, hl, hel⟩ := hmem1 e h1
        rw [hel]
        intro heq
        exact diverge_ne (hcross l hl e' he')
          (pathKey_injective opts cs hd hne (hall_good l (List.mem_append_left _ hl))
            (hall_good e' (List.mem_append_right _ he')) heq)
    obtain ⟨fm, hf, hp⟩ := flattenMap_cutLeaves opts cs hS hd hne rest p d
      (update acc fm1) hs'.2 h.2 (fun x hx => hg x (List.mem_cons_of_mem _ hx)) hacc'
    refine ⟨fm, ?_, ?_⟩
    · rw [flattenMap_cons, ← pathKey_snoc, hf1]; exact hf
    · refine hp.trans ?_
      rw [cutLeavesEntries_cons, List.map_append, ← List.append_assoc]
      exact (hup.trans (List.Perm.append_left acc hp1)).append_right _
end

/-- The encoder in safe mode on a shaped tree: the flat map lists the positions reached
through mapping keys that are not cut off, each under the flat key of its path. -/
theorem flatten_shaped_safe (opts : Options) (hS : opts.Safe = true)
    (hd : opts.Delimiter ≠ "") (V : GoMap) (htop : ∀ e ∈ V, e.1 ≠ "")
    (hV : Value.shaped opts.Delimiter.data (.map V) = true) :
    ∃ fm, flatten "" 0 (.map V) opts = .ok fm ∧
      fm.Perm ((cutLeaves opts.MaxDepth 0 [] (.map V)).map
        (fun e => (pathKey opts e.1, e.2))) := by
  have hne : opts.Delimiter.data ≠ [] := fun h => hd (String.ext h)
  cases V with
  | nil => exact ⟨[("", .map [])], by simp [flatten], by simp [cutLeaves, pathKey]⟩
  | cons e m =>
    rw [shaped_map, Bool.and_eq_true] at hV
    rw [flatten_map_eq, cutLeaves_map_cons]
    by_cases hcut : opts.MaxDepth ≠ 0 ∧ (0 : Int) ≥ opts.MaxDepth
    · rw [if_pos hcut, if_pos hcut]
      exact ⟨_, rfl, by simp [pathKey]⟩
    · rw [if_neg hcut, if_neg (by simp), if_neg hcut]
      obtain ⟨fm, hf, hp⟩ := flattenMap_cutLeaves opts _ hS rfl hne (e :: m) [] 0 []
        hV.1 hV.2 (goodPath_top _ (e :: m) htop)
        (fun e he => absurd he (List.not_mem_nil _))
      have hpk : pathKey opts [] = "" := rfl
      rw [hpk] at hf
      rw [List.nil_append] at hp
      exact ⟨fm, hf, hp⟩

mutual
theorem cutLeaves_zero : ∀ (v : Value) (depth : Int) (p : List String),
    cutLeaves 0 depth p v = leaves p v
  | .map [], depth, p => by simp [cutLeaves, leaves]
  | .map ((k, v) :: m), depth, p => by
    rw [cutLeaves_map_cons, if_neg (by simp), leaves_map_cons]
    exact cutLeavesEntries_zero ((k, v) :: m) depth p
  | .seq xs, depth, p => by simp [cutLeaves, leaves]
  | .null, depth, p => by simp [cutLeaves, leaves]
  | .bool _, depth, p => by simp [cutLeaves, leaves]
  | .num _, depth, p => by simp [cutLeaves, leaves]
  | .str _, depth, p => by simp [cutLeaves, leaves]
theorem cutLeavesEntries_zero : ∀ (m : List (String × Value)) (depth : Int)
    (p : List String), cutLeavesEntries 0 depth p m = leavesEntries p m
  | [], depth, p => by simp [cutLeavesEntries, leavesEntries]
  | (k, v) :: rest, depth, p => by
    rw [cutLeavesEntries_cons, leavesEntries_cons, cutLeaves_zero v,
      cutLeavesEntries_zero rest]
end

/-! ## C5: safe mode -/

/-- C5 as stated fails.  With `safe = true` a sequence of the input need not be a value of
the result: with `maxDepth` 1 the mapping around the sequence is stored whole; a sequence
inside a sequence is stored inside it; and a sequence whose flat key collides with a
later key is overwritten. -/
theorem safe_sequence_not_a_value :
    Flatten [("a", .map [("b", .seq [.num 1, .num 2])])]
        (some { nilOptions with Safe := true, MaxDepth := 1 })
        = .ok [("a", .map [("b", .seq [.num 1, .num 2])])]
      ∧ Flatten [("a", .seq [.seq [.num 1]])] (some { nilOptions with Safe := true })
        = .ok [("a", .seq [.seq [.num 1]])]
      ∧ Flatten [("a", .map [("b", .seq [.num 1])]), ("a.b", .num 2)]
          (some { nilOptions with Safe := true })
        = .ok [("a.b", .num 2)] := by
  decide

/-- C5, amended.  Safe mode: with `safe = true` no sequence is expanded: `flatten` of a
sequence returns the one-entry map storing the sequence whole under the prefix; every
entry of a flattened value is a whole sub-value found by descending through mapping keys
only, and the result is the same whatever `arrayDelimiter` is set, so no flat key has an
array-index segment; with delimiter `"."`, `{"a":[1,2]}` flattens to `{"a": [1,2]}`.  And
with a non-empty delimiter, for a nested mapping whose top-level keys are non-empty and
whose mapping keys outside sequences contain no character of the delimiter, the result
lists the positions reached through mapping keys that `maxDepth` does not cut off, so
every sequence at such a position is a value of the result, under the flat key of its
path; with `maxDepth = 0` these are all the positions reached through mapping keys. -/
theorem safe_mode_keeps_sequences :
    (∀ (opts : Options) (pfx : String) (d : Int) (xs : List Value), opts.Safe = true →
      flatten pfx d (.seq xs) opts = .ok [(pfx, .seq xs)]) ∧
    (∀ (opts : Options) (pfx : String) (d : Int) (v : Value) (fm : GoMap),
      opts.Safe = true → flatten pfx d v opts = .ok fm →
      ∀ e ∈ fm, Located opts pfx v e.1 e.2) ∧
    (∀ (opts : Options) (ad pfx : String) (d : Int) (v : Value), opts.Safe = true →
      flatten pfx d v { opts with ArrayDelimiter := ad } = flatten pfx d v opts) ∧
    Flatten [("a", .seq [.num 1, .num 2])] (some { nilOptions with Safe := true })
      = .ok [("a", .seq [.num 1, .num 2])] ∧
    (∀ (opts : Options) (V : GoMap), opts.Safe = true → opts.Delimiter ≠ "" →
      (∀ e ∈ V, e.1 ≠ "") → Value.shaped opts.Delimiter.data (.map V) = true →
      ∃ fm, Flatten V (some opts) = .ok fm ∧
        fm.Perm ((cutLeaves opts.MaxDepth 0 [] (.map V)).map
          (fun e => (pathKey opts e.1, e.2))) ∧
        ∀ (p : List String) (xs : List Value),
          (p, Value.seq xs) ∈ cutLeaves opts.MaxDepth 0 [] (.map V) →
          (pathKey opts p, Value.seq xs) ∈ fm) ∧
    (∀ (opts : Options) (V : GoMap), opts.Safe = true → opts.MaxDepth = 0 →
      opts.Delimiter ≠ "" → (∀ e ∈ V, e.1 ≠ "") →
      Value.shaped opts.Delimiter.data (.map V) = true →
      ∃ fm, Flatten V (some opts) = .ok fm ∧
        ∀ (p : List String) (xs : List Value), (p, Value.seq xs) ∈ leaves [] (.map V) →
          (pathKey opts p, Value.seq xs) ∈ fm) := by
  refine ⟨?_, ?_, ?_, by decide, ?_, ?_⟩
  · intro opts pfx d xs hs
    rw [flatten_seq_eq, if_pos hs]
  · intro opts pfx d v fm hs h
    exact flatten_located opts hs v pfx d fm h
  · intro opts ad pfx d v hs
    exact flatten_safe_arrayDelimiter opts ad hs v pfx d
  · intro opts V hS hd htop hV
    obtain ⟨fm, hf, hp⟩ := flatten_shaped_safe opts hS hd V htop hV
    refine ⟨fm, hf, hp, ?_⟩
    intro p xs hmem
    exact hp.symm.subset (List.mem_map.2 ⟨(p, .seq xs), hmem, rfl⟩)
  · intro opts V hS h0 hd htop hV
    obtain ⟨fm, hf, hp⟩ := flatten_shaped_safe opts hS hd V htop hV
    refine ⟨fm, hf, ?_⟩
    intro p xs hmem
    rw [h0, cutLeaves_zero] at hp
    exact hp.symm.subset (List.mem_map.2 ⟨(p, .seq xs), hmem, rfl⟩)

/-- C5, amended, at work: with `safe = true` and `maxDepth` 2, a top-level sequence, a
sequence of sequences below one mapping, and a mapping that is cut off. -/
theorem safe_mode_keeps_sequences_witness :
    ∃ fm, Flatten [("a", .seq [.num 1, .num 2]),
          ("b", .map [("c", .seq [.seq [.num 3]]), ("d", .map [("e", .map [("f", .null)])])])]
        (some { nilOptions with Safe := true, MaxDepth := 2 }) = .ok fm ∧
      fm.Perm ((cutLeaves 2 0 [] (.map [("a", .seq [.num 1, .num 2]),
          ("b", .map [("c", .seq [.seq [.num 3]]),
            ("d", .map [("e", .map [("f", .null)])])])])).map
        (fun e => (pathKey { nilOptions with Safe := true, MaxDepth := 2 } e.1, e.2))) ∧
      ∀ (p : List String) (xs : List Value),
        (p, Value.seq xs) ∈ cutLeaves 2 0 [] (.map [("a", .seq [.num 1, .num 2]),
          ("b", .map [("c", .seq [.seq [.num 3]]),
            ("d", .map [("e", .map [("f", .null)])])])]) →
        (pathKey { nilOptions with Safe := true, MaxDepth := 2 } p, Value.seq xs) ∈ fm :=
  safe_mode_keeps_sequences.2.2.2.2.1 { nilOptions with Safe := true, MaxDepth := 2 }
    [("a", .seq [.num 1, .num 2]),
      ("b", .map [("c", .seq [.seq [.num 3]]), ("d", .map [("e", .map [("f", .null)])])])]
    rfl (by decide) (by decide) (by decide)

end Flat
